import Mathlib

/-!
Verification of the `Computer-System` repository: a segregated-list heap
allocator (`src/Malloc/mm.c`) and a bounded LRU proxy cache
(`src/Proxy/cache.c`, `src/Proxy/cache.h`).

The C code is shallowly embedded.  Pointers are rendered as positions in
Lean lists (for the cache's doubly linked block list) and as byte
addresses into a list of physical blocks (for the allocator's heap), a
translation the repository's own design notes suggest ("represent the
heap as a byte buffer and blocks as offsets").  Machine integers are
`Nat`/`Int`; the allocator's 32-bit header words are kept exact by the
heap-size bound enforced by the memory substrate.  Crashing executions
(null-pointer dereference) are rendered as `none`.
-/

namespace Cache

/-- One cache block (`struct cache_block` in `cache.h`): a copied host
string, a copied uri string, a copied payload and its length, plus the
two list links which are rendered by the position of the block inside
the `proxy_cache` block list. -/
structure CacheBlock where
  payload_size : Nat
  host : String
  uri : String
  payload : List Nat
  deriving Repr, DecidableEq

/-- The cache (`struct proxy_cache` in `cache.h`).  `space` is the
remaining space; it is an `unsigned int` in C, rendered as `Int` (exact
on all non-crashing executions, where it never wraps: `insert_block` is
only reached with `space ≥ payload_size`).  `root` plus the link fields
become `blocks`, head = root = most recently used.  The semaphores and
the reader count only matter for scheduling and are not part of the
sequential state. -/
structure ProxyCache where
  space : Int
  max_object_size : Nat
  blocks : List CacheBlock
  deriving Repr, DecidableEq

/-- Key equality used by `search_block`: bytewise `strcmp` on both the
host and the uri field. -/
def matchKey (input_host input_uri : String) (b : CacheBlock) : Bool :=
  b.host = input_host && b.uri = input_uri

/-- `init_cache` (cache.c lines 38-58), allocation assumed to succeed.
The two size parameters are `int`s that are only ever used nonnegative;
they are rendered as `Nat`. -/
def init_cache (max_cache_size input_max_object_size : Nat) : ProxyCache :=
  { space := (max_cache_size : Int)
    max_object_size := input_max_object_size
    blocks := [] }

/-- `create_block` (cache.c lines 66-104), allocation assumed to
succeed: deep-copies host, uri and `size` bytes of the payload buffer. -/
def create_block (input_host input_uri : String) (buffer : List Nat)
    (size : Nat) : CacheBlock :=
  { payload_size := size
    host := input_host
    uri := input_uri
    payload := buffer.take size }

/-- `insert_block` (cache.c lines 121-142): link the block in at the
root and subtract its payload size from the remaining space. -/
def insert_block (my_cache : ProxyCache) (block : CacheBlock) : ProxyCache :=
  { my_cache with
    blocks := block :: my_cache.blocks
    space := my_cache.space - (block.payload_size : Int) }

/-- `search_block` (cache.c lines 174-189): linear scan from the root,
first block whose host and uri both compare equal. -/
def search_block (my_cache : ProxyCache) (input_host input_uri : String) :
    Option CacheBlock :=
  my_cache.blocks.find? (matchKey input_host input_uri)

/-- `get_lru` (cache.c lines 231-246): the last block of the list, or
`none` on an empty cache. -/
def get_lru (my_cache : ProxyCache) : Option CacheBlock :=
  my_cache.blocks.getLast?

/-- `eviction` (cache.c lines 253-259): `get_lru` then `remove_block`
then `free_block`.  On an empty cache `get_lru` returns `NULL` and
`remove_block(NULL)` dereferences it, rendered `none`. -/
def eviction (my_cache : ProxyCache) : Option ProxyCache :=
  match my_cache.blocks.getLast? with
  | none => none
  | some lru_block =>
      some { my_cache with
             blocks := my_cache.blocks.dropLast
             space := my_cache.space + (lru_block.payload_size : Int) }

/-- Body of the eviction loop of `write_cache` (cache.c lines 346-348):
`while (space < len) eviction(my_cache);`.  Each successful `eviction`
shortens the block list by one, so running the loop with the list length
as fuel is exact: when the fuel is out the list is empty, and an empty
cache with `space < len` is precisely the state in which the C loop
calls `eviction` on an empty cache and crashes (`none`). -/
def evict_go (len : Nat) : Nat → ProxyCache → Option ProxyCache
  | 0, c => if c.space < (len : Int) then none else some c
  | fuel + 1, c =>
      if c.space < (len : Int) then
        match eviction c with
        | none => none
        | some c1 => evict_go len fuel c1
      else some c

/-- The eviction loop of `write_cache` (cache.c lines 346-348). -/
def evict_loop (len : Nat) (my_cache : ProxyCache) : Option ProxyCache :=
  evict_go len my_cache.blocks.length my_cache

/-- `lru_update` (cache.c lines 216-225): unlink the given block (the
one `search_block` found, i.e. the first block matching the key) and
re-insert it at the root.  `remove_block` adds the payload size back to
`space`; `insert_block` subtracts it again. -/
def lru_update (my_cache : ProxyCache) (input_host input_uri : String)
    (block : CacheBlock) : ProxyCache :=
  insert_block
    { my_cache with
      blocks := my_cache.blocks.eraseP (matchKey input_host input_uri)
      space := my_cache.space + (block.payload_size : Int) }
    block

/-- `read_cache` (cache.c lines 271-319) on a non-null cache, ignoring
the semaphore protocol: search; on miss return -1 with the cache
untouched; on hit copy the payload out (`read_cache_block`), update the
LRU order and return the payload length.  The returned triple is
(return value, bytes copied into the caller's buffer, cache after the
call). -/
def read_cache (my_cache : ProxyCache) (input_host input_uri : String) :
    Int × Option (List Nat) × ProxyCache :=
  match search_block my_cache input_host input_uri with
  | none => (-1, none, my_cache)
  | some block =>
      ((block.payload_size : Int), some block.payload,
        lru_update my_cache input_host input_uri block)

/-- `write_cache` (cache.c lines 327-367) on a non-null cache.
`alloc_ok` is the oracle for the `Malloc` calls inside `create_block`
(`NULL` result on out-of-memory): on failure the call returns -1 with
the evictions already performed.  The length guard compares the `int`
`len` (used nonnegative, rendered `Nat`) against `max_object_size`.
The outer `Option` is `none` exactly when the eviction loop dereferences
a null LRU pointer. -/
def write_cache (alloc_ok : Bool) (my_cache : ProxyCache)
    (input_host input_uri : String) (buffer : List Nat) (len : Nat) :
    Option (Int × ProxyCache) :=
  if (len : Nat) > my_cache.max_object_size then some (-1, my_cache)
  else
    match evict_loop len my_cache with
    | none => none
    | some c =>
        if alloc_ok then
          some (1, insert_block c (create_block input_host input_uri buffer len))
        else some (-1, c)

/-- Total payload footprint of the cache: `Σ payload_size` over all
blocks of the list. -/
def payloadSum (blocks : List CacheBlock) : Int :=
  (blocks.map (fun b => (b.payload_size : Int))).sum

end Cache

namespace Cache

/-- Appending a block on the right adds its payload size to the sum. -/
theorem payloadSum_append_single (l : List CacheBlock) (b : CacheBlock) :
    payloadSum (l ++ [b]) = payloadSum l + (b.payload_size : Int) := by
  simp [payloadSum]

/-- A successful `eviction` removes exactly the LRU block and credits its
payload size back to `space`: the accounting sum is unchanged. -/
theorem eviction_sum (c c' : ProxyCache) (h : eviction c = some c') :
    c'.space + payloadSum c'.blocks = c.space + payloadSum c.blocks := by
  unfold eviction at h
  rcases hl : c.blocks.getLast? with _ | b
  · rw [hl] at h; cases h
  · rw [hl] at h
    simp only [Option.some.injEq] at h
    subst h
    have hne : c.blocks ≠ [] := by
      intro he; rw [he] at hl; simp at hl
    have hsplit : c.blocks.dropLast ++ [c.blocks.getLast hne] = c.blocks :=
      List.dropLast_append_getLast hne
    have hb : c.blocks.getLast hne = b := by
      have := List.getLast?_eq_getLast c.blocks hne
      rw [this] at hl
      exact (Option.some.injEq _ _).mp hl
    rw [hb] at hsplit
    calc c.space + (b.payload_size : Int) + payloadSum c.blocks.dropLast
        = c.space + (payloadSum c.blocks.dropLast + (b.payload_size : Int)) := by ring
      _ = c.space + payloadSum (c.blocks.dropLast ++ [b]) := by
          rw [payloadSum_append_single]
      _ = c.space + payloadSum c.blocks := by rw [hsplit]

/-- A successful `eviction` shortens the block list by one. -/
theorem eviction_length (c c' : ProxyCache) (h : eviction c = some c') :
    c'.blocks.length + 1 = c.blocks.length := by
  unfold eviction at h
  rcases hl : c.blocks.getLast? with _ | b
  · rw [hl] at h; cases h
  · rw [hl] at h
    simp only [Option.some.injEq] at h
    subst h
    have hne : c.blocks ≠ [] := by
      intro he; rw [he] at hl; simp at hl
    have hpos : 0 < c.blocks.length := List.length_pos.mpr hne
    simp only [List.length_dropLast]
    omega

/-- A successful `eviction` leaves a prefix of the original list. -/
theorem eviction_blocks (c c' : ProxyCache) (h : eviction c = some c') :
    c'.blocks = c.blocks.dropLast := by
  unfold eviction at h
  rcases hl : c.blocks.getLast? with _ | b
  · rw [hl] at h; cases h
  · rw [hl] at h
    simp only [Option.some.injEq] at h
    subst h
    rfl

/-- Main lemma for the eviction loop: under the accounting invariant
`space + Σ payload_size = M` and a request of at most `M` bytes the loop
terminates without ever evicting from an empty cache (result `some`),
removing blocks only from the tail, keeping the invariant, and
establishing `space ≥ len`. -/
theorem evict_go_spec (len : Nat) (M : Int) :
    ∀ fuel (c : ProxyCache), c.blocks.length = fuel →
    c.space + payloadSum c.blocks = M → (len : Int) ≤ M →
    ∃ c', evict_go len fuel c = some c' ∧
      (len : Int) ≤ c'.space ∧
      (∃ k, c'.blocks = c.blocks.take k) ∧
      c'.space + payloadSum c'.blocks = M := by
  intro fuel
  induction fuel with
  | zero =>
    intro c hlen hinv hM
    have hnil : c.blocks = [] := List.length_eq_zero.mp hlen
    have hsp : ¬ c.space < (len : Int) := by
      rw [hnil] at hinv; simp [payloadSum] at hinv; omega
    exact ⟨c, by simp [evict_go, hsp], le_of_not_lt hsp,
      ⟨0, by rw [hnil]; rfl⟩, hinv⟩
  | succ fuel ih =>
    intro c hlen hinv hM
    by_cases hsp : c.space < (len : Int)
    · have hne : c.blocks ≠ [] := by
        intro he; rw [he] at hlen; simp at hlen
      rcases hl : c.blocks.getLast? with _ | b
      · exact absurd (List.getLast?_eq_none_iff.mp hl) hne
      · have hev : eviction c =
            some { c with blocks := c.blocks.dropLast
                          space := c.space + (b.payload_size : Int) } := by
          unfold eviction; rw [hl]
        have hstep : evict_go len (fuel + 1) c =
            evict_go len fuel { c with blocks := c.blocks.dropLast
                                       space := c.space + (b.payload_size : Int) } := by
          simp only [evict_go, hsp, if_true, hev]
        have hlen1 : ({ c with blocks := c.blocks.dropLast
                               space := c.space + (b.payload_size : Int) } :
            ProxyCache).blocks.length = fuel := by
          have := eviction_length c _ hev
          omega
        obtain ⟨c', hc', hsp', hpre', hinv'⟩ :=
          ih _ hlen1 (by rw [eviction_sum c _ hev]; exact hinv) hM
        obtain ⟨k, hk⟩ := hpre'
        refine ⟨c', by rw [hstep]; exact hc', hsp',
          ⟨min k (c.blocks.length - 1), ?_⟩, hinv'⟩
        rw [hk]
        dsimp only
        rw [List.dropLast_eq_take, List.take_take]
    · exact ⟨c, by simp [evict_go, hsp], le_of_not_lt hsp,
        ⟨c.blocks.length, (List.take_length c.blocks).symm⟩, hinv⟩

/-- The eviction loop preserves the accounting sum whenever it returns. -/
theorem evict_go_sum (len : Nat) :
    ∀ fuel (c c' : ProxyCache),
    evict_go len fuel c = some c' →
    c'.space + payloadSum c'.blocks = c.space + payloadSum c.blocks := by
  intro fuel
  induction fuel with
  | zero =>
    intro c c' h
    simp only [evict_go] at h
    by_cases hsp : c.space < (len : Int)
    · rw [if_pos hsp] at h; cases h
    · rw [if_neg hsp] at h
      cases h; rfl
  | succ fuel ih =>
    intro c c' h
    simp only [evict_go] at h
    by_cases hsp : c.space < (len : Int)
    · rw [if_pos hsp] at h
      rcases hev : eviction c with _ | c1
      · rw [hev] at h; cases h
      · rw [hev] at h
        have := ih c1 c' h
        rw [this, eviction_sum c c1 hev]
    · rw [if_neg hsp] at h
      cases h; rfl

end Cache

namespace Cache

/-- `payloadSum` of a cons. -/
theorem payloadSum_cons (b : CacheBlock) (l : List CacheBlock) :
    payloadSum (b :: l) = (b.payload_size : Int) + payloadSum l := by
  simp [payloadSum]

/-- Unlinking the block that `search_block` found (the first block
matching the predicate) removes exactly its payload size from the sum. -/
theorem payloadSum_eraseP (p : CacheBlock → Bool) :
    ∀ (l : List CacheBlock) (b : CacheBlock), l.find? p = some b →
    payloadSum (l.eraseP p) + (b.payload_size : Int) = payloadSum l := by
  intro l
  induction l with
  | nil => intro b h; cases h
  | cons a l ih =>
    intro b h
    by_cases hp : p a
    · rw [List.find?_cons_of_pos _ hp] at h
      cases h
      rw [List.eraseP_cons_of_pos hp, payloadSum_cons]
      ring
    · rw [List.find?_cons_of_neg _ hp] at h
      rw [List.eraseP_cons_of_neg hp, payloadSum_cons, payloadSum_cons]
      have := ih b h
      omega

/-- The cache states reachable through the public API: `init_cache`
with capacity `M` and object limit `O`, then any sequence of
`write_cache` (with any allocation outcome, successful or failed) and
`read_cache` calls that does not crash. -/
inductive Reachable (M O : Nat) : ProxyCache → Prop where
  | init : Reachable M O (init_cache M O)
  | write (c : ProxyCache) (alloc_ok : Bool) (host uri : String)
      (buffer : List Nat) (len : Nat) (r : Int) (c' : ProxyCache) :
      Reachable M O c →
      write_cache alloc_ok c host uri buffer len = some (r, c') →
      Reachable M O c'
  | read (c : ProxyCache) (host uri : String) :
      Reachable M O c → Reachable M O (read_cache c host uri).2.2

/-- Claim C3: for every cache state reachable by any sequence of
`init_cache`, `write_cache`, and `read_cache` calls (successful or
failed), at every quiescent point the accounting invariant
`remaining_space = max_cache_size - Σ payload_size` over all blocks
currently in the list holds. -/
theorem cache_space_accounting (M O : Nat) (c : ProxyCache)
    (h : Reachable M O c) :
    c.space = (M : Int) - payloadSum c.blocks := by
  have key : c.space + payloadSum c.blocks = (M : Int) := by
    induction h with
    | init => simp [init_cache, payloadSum]
    | write c alloc_ok host uri buffer len r c' hr hw ih =>
      unfold write_cache at hw
      by_cases hguard : (len : Nat) > c.max_object_size
      · rw [if_pos hguard] at hw
        cases hw
        exact ih
      · rw [if_neg hguard] at hw
        rcases hev : evict_loop len c with _ | c1
        · rw [hev] at hw; cases hw
        · rw [hev] at hw
          dsimp only at hw
          have hsum := evict_go_sum len c.blocks.length c c1 hev
          by_cases hok : alloc_ok
          · rw [if_pos hok] at hw
            cases hw
            simp only [insert_block, create_block, payloadSum_cons]
            omega
          · rw [if_neg hok] at hw
            cases hw
            omega
    | read c host uri hr ih =>
      unfold read_cache
      rcases hs : search_block c host uri with _ | b
      · exact ih
      · show (lru_update c host uri b).space +
          payloadSum (lru_update c host uri b).blocks = (M : Int)
        simp only [lru_update, insert_block, payloadSum_cons]
        have := payloadSum_eraseP (matchKey host uri) c.blocks b hs
        omega
  omega

/-- Concrete one-block cache used by the C3 witness. -/
def exampleBlockC3 : CacheBlock :=
  { payload_size := 2
    host := "h"
    uri := "/u"
    payload := [1, 2] }

/-- Concrete cache state after one successful 2-byte write into
`init_cache 10 5`. -/
def exampleCacheC3 : ProxyCache :=
  { space := 8
    max_object_size := 5
    blocks := [exampleBlockC3] }

/-- Witness for C3 at a concrete reachable state: capacity 10, object
limit 5, one successful 2-byte write. -/
theorem cache_space_accounting_witness :
    (write_cache true (init_cache 10 5) "h" "/u" [1, 2] 2 =
      some (1, exampleCacheC3)) ∧
    exampleCacheC3.space = (10 : Int) - payloadSum exampleCacheC3.blocks :=
  ⟨rfl, cache_space_accounting 10 5 _
    (Reachable.write (init_cache 10 5) true "h" "/u" [1, 2] 2 1 _
      Reachable.init rfl)⟩

/-- Claim C10: for every cache satisfying the accounting invariant and
a write length of at most the capacity `M`, the eviction loop of
`write_cache` terminates without ever calling `eviction` on an empty
cache (the crash case is `none`, and the result is `some`), each
iteration removing one block from the LRU end (the surviving blocks are
a prefix of the original list) and crediting its payload size
(the accounting sum is preserved), and the loop ends with
`remaining_space ≥ len`. -/
theorem evict_loop_never_underflows (c : ProxyCache) (len : Nat) (M : Int)
    (hinv : c.space + payloadSum c.blocks = M) (hM : (len : Int) ≤ M) :
    ∃ c', evict_loop len c = some c' ∧
      (len : Int) ≤ c'.space ∧
      (∃ k, c'.blocks = c.blocks.take k) ∧
      c'.space + payloadSum c'.blocks = M :=
  evict_go_spec len M c.blocks.length c rfl hinv hM

/-- Concrete cache used by the C10 witness: 2 bytes of space and one
3-byte block under capacity 5. -/
def exampleCacheC10 : ProxyCache :=
  { space := 2
    max_object_size := 10
    blocks := [{ payload_size := 3
                 host := "h"
                 uri := "/u"
                 payload := [1, 2, 3] }] }

/-- Witness for C10: a 4-byte request against `exampleCacheC10`; the
loop evicts the block and stops. -/
theorem evict_loop_never_underflows_witness :
    ∃ c', evict_loop 4 exampleCacheC10 = some c' ∧
      (4 : Int) ≤ c'.space ∧
      (∃ k, c'.blocks = exampleCacheC10.blocks.take k) ∧
      c'.space + payloadSum c'.blocks = 5 :=
  evict_loop_never_underflows exampleCacheC10 4 5 (by decide) (by decide)

/-- Claim C9: `read_cache` on a key that is not in the cache returns -1,
copies nothing into the caller's buffer, and leaves the cache state
(block list, order, remaining space, payloads) completely unchanged:
the miss path returns before any LRU update. -/
theorem read_cache_miss_frame (c : ProxyCache) (host uri : String)
    (h : search_block c host uri = none) :
    read_cache c host uri = (-1, none, c) := by
  unfold read_cache
  rw [h]

/-- Concrete cache used by the C9 witness: one block under the key
`("h", "/u")`. -/
def exampleCacheC9 : ProxyCache :=
  { space := 8
    max_object_size := 5
    blocks := [{ payload_size := 2
                 host := "h"
                 uri := "/u"
                 payload := [1, 2] }] }

/-- Witness for C9 on a concrete cache that holds one block under a
different key than the one requested. -/
theorem read_cache_miss_frame_witness :
    read_cache exampleCacheC9 "x" "/y" = (-1, none, exampleCacheC9) :=
  read_cache_miss_frame exampleCacheC9 "x" "/y" (by decide)

end Cache

namespace Cache

/-- If the cache already has enough space, the eviction loop does
nothing. -/
theorem evict_loop_noop (len : Nat) (c : ProxyCache)
    (h : ¬ c.space < (len : Int)) : evict_loop len c = some c := by
  unfold evict_loop
  cases c.blocks.length <;> simp [evict_go, h]

/-- Concrete cache state after writing key `("h", "/u")` once into
`init_cache 100 50`. -/
def cacheC4one : ProxyCache :=
  { space := 97
    max_object_size := 50
    blocks := [{ payload_size := 3
                 host := "h"
                 uri := "/u"
                 payload := [1, 2, 3] }] }

/-- Concrete cache state after writing key `("h", "/u")` twice into
`init_cache 100 50`. -/
def cacheC4two : ProxyCache :=
  { space := 94
    max_object_size := 50
    blocks := [{ payload_size := 3
                 host := "h"
                 uri := "/u"
                 payload := [1, 2, 3] },
               { payload_size := 3
                 host := "h"
                 uri := "/u"
                 payload := [1, 2, 3] }] }

/-- Counterexample to claim C4 as stated: two successful `write_cache`
calls with the same host and uri (and no eviction in between — the
capacity 100 far exceeds the 6 bytes written) leave the cache with two
blocks sharing the key `("h", "/u")`, not exactly one; `write_cache`
never searches for an existing block with the same key. -/
theorem write_cache_duplicate_key_counterexample :
    write_cache true (init_cache 100 50) "h" "/u" [1, 2, 3] 3 =
      some (1, cacheC4one) ∧
    write_cache true cacheC4one "h" "/u" [1, 2, 3] 3 = some (1, cacheC4two) ∧
    cacheC4two.blocks.countP (matchKey "h" "/u") = 2 :=
  ⟨rfl, rfl, rfl⟩

/-- Amended claim C4: `write_cache` does not deduplicate by key.  Every
successful write inserts a fresh block even when a block with the same
key is already present: after two successful writes with the same host
and uri and no eviction in between, the cache holds exactly two more
blocks with that key than before. -/
theorem write_cache_duplicate_key (c : ProxyCache) (host uri : String)
    (b1 b2 : List Nat) (len1 len2 : Nat)
    (hg1 : ¬ len1 > c.max_object_size) (hg2 : ¬ len2 > c.max_object_size)
    (hs1 : ¬ c.space < (len1 : Int))
    (hs2 : ¬ c.space - (len1 : Int) < (len2 : Int)) :
    ∃ c1 c2,
      write_cache true c host uri b1 len1 = some (1, c1) ∧
      write_cache true c1 host uri b2 len2 = some (1, c2) ∧
      c2.blocks.countP (matchKey host uri) =
        c.blocks.countP (matchKey host uri) + 2 := by
  refine ⟨insert_block c (create_block host uri b1 len1),
    insert_block (insert_block c (create_block host uri b1 len1))
      (create_block host uri b2 len2), ?_, ?_, ?_⟩
  · have h1 : evict_loop len1 c = some c := evict_loop_noop len1 c hs1
    simp only [write_cache, if_neg hg1, h1, if_true]
  · have h2 : evict_loop len2 (insert_block c (create_block host uri b1 len1)) =
        some (insert_block c (create_block host uri b1 len1)) :=
      evict_loop_noop len2 _ hs2
    have hg2a : ¬ len2 >
        (insert_block c (create_block host uri b1 len1)).max_object_size := hg2
    simp only [write_cache, if_neg hg2a, h2, if_true]
  · have hm1 : matchKey host uri (create_block host uri b1 len1) = true := by
      simp [matchKey, create_block]
    have hm2 : matchKey host uri (create_block host uri b2 len2) = true := by
      simp [matchKey, create_block]
    simp only [insert_block, List.countP_cons_of_pos _ _ hm1,
      List.countP_cons_of_pos _ _ hm2]

/-- Witness for the amended C4 at the inputs of the counterexample. -/
theorem write_cache_duplicate_key_witness :
    ∃ c1 c2,
      write_cache true (init_cache 100 50) "h" "/u" [1, 2, 3] 3 =
        some (1, c1) ∧
      write_cache true c1 "h" "/u" [1, 2, 3] 3 = some (1, c2) ∧
      c2.blocks.countP (matchKey "h" "/u") =
        (init_cache 100 50).blocks.countP (matchKey "h" "/u") + 2 :=
  write_cache_duplicate_key (init_cache 100 50) "h" "/u" [1, 2, 3] [1, 2, 3]
    3 3 (by decide) (by decide) (by decide) (by decide)

end Cache

namespace Cache

/-- Erasing the first `q`-match does not change the first `p`-match when
that erased element does not satisfy `p`. -/
theorem find_eraseP_skip (p q : CacheBlock → Bool) :
    ∀ (l : List CacheBlock) (b : CacheBlock), l.find? q = some b →
    p b = false → (l.eraseP q).find? p = l.find? p := by
  intro l
  induction l with
  | nil => intro b h; cases h
  | cons a l ih =>
    intro b h hpb
    by_cases hq : q a
    · rw [List.find?_cons_of_pos _ hq] at h
      cases h
      rw [List.eraseP_cons_of_pos hq, List.find?_cons_of_neg _ (by simp [hpb])]
    · rw [List.find?_cons_of_neg _ hq] at h
      rw [List.eraseP_cons_of_neg hq]
      by_cases hpa : p a
      · rw [List.find?_cons_of_pos _ hpa, List.find?_cons_of_pos _ hpa]
      · rw [List.find?_cons_of_neg _ hpa, List.find?_cons_of_neg _ hpa]
        exact ih b h hpb

/-- A `read_cache` call (hit or miss, on any key) never changes the
result of a later `search_block` on any key: a hit only moves the first
block matching its own key to the root. -/
theorem search_after_read (c : ProxyCache) (host uri qhost quri : String) :
    search_block ((read_cache c qhost quri).2.2) host uri =
      search_block c host uri := by
  unfold read_cache
  rcases hs : search_block c qhost quri with _ | b
  · rfl
  · have hqb : matchKey qhost quri b = true := List.find?_some hs
    show search_block (lru_update c qhost quri b) host uri =
      search_block c host uri
    by_cases hpb : matchKey host uri b = true
    · have hh : b.host = host ∧ b.uri = uri := by
        simpa [matchKey] using hpb
      have hq : b.host = qhost ∧ b.uri = quri := by
        simpa [matchKey] using hqb
      have hkey : qhost = host ∧ quri = uri := by
        obtain ⟨h1, h2⟩ := hh; obtain ⟨h3, h4⟩ := hq
        exact ⟨h3 ▸ h1, h4 ▸ h2⟩
      obtain ⟨rfl, rfl⟩ := hkey
      show List.find? (matchKey qhost quri)
          (b :: c.blocks.eraseP (matchKey qhost quri)) =
        List.find? (matchKey qhost quri) c.blocks
      rw [List.find?_cons_of_pos _ hpb]
      exact hs.symm
    · show List.find? (matchKey host uri)
          (b :: c.blocks.eraseP (matchKey qhost quri)) =
        List.find? (matchKey host uri) c.blocks
      rw [List.find?_cons_of_neg _ (by simp [hpb])]
      exact find_eraseP_skip (matchKey host uri) (matchKey qhost quri)
        c.blocks b hs (by simpa using hpb)

/-- The cache state after a sequence of `read_cache` calls on the given
keys. -/
def applyReads (rs : List (String × String)) (c : ProxyCache) : ProxyCache :=
  rs.foldl (fun st r => (read_cache st r.1 r.2).2.2) c

/-- `search_block` is invariant under any sequence of `read_cache`
calls. -/
theorem search_after_reads (rs : List (String × String)) :
    ∀ (c : ProxyCache) (host uri : String),
    search_block (applyReads rs c) host uri = search_block c host uri := by
  induction rs with
  | nil => intro c host uri; rfl
  | cons r rs ih =>
    intro c host uri
    show search_block (applyReads rs ((read_cache c r.1 r.2).2.2)) host uri =
      search_block c host uri
    rw [ih, search_after_read]

/-- An intervening cache operation: a `read_cache` on any key, or a
`write_cache` with its allocation oracle and arguments. -/
inductive CacheOp where
  | read (host uri : String)
  | write (alloc_ok : Bool) (host uri : String) (buffer : List Nat)
      (len : Nat)

/-- Apply one operation; a crashing `write_cache` (`none`, the
empty-cache eviction) has no post-state. -/
def applyOp (c : ProxyCache) : CacheOp → Option ProxyCache
  | CacheOp.read h u => some (read_cache c h u).2.2
  | CacheOp.write ok h u buf len =>
      (write_cache ok c h u buf len).map (fun r => r.2)

/-- The cache state after a sequence of operations (none crashing). -/
def applyOps : List CacheOp → ProxyCache → Option ProxyCache
  | [], c => some c
  | op :: ops, c =>
      match applyOp c op with
      | none => none
      | some c1 => applyOps ops c1

/-- The operation does not displace the `(host, uri)` entry: reads
never do (they only promote blocks); a write must leave the first block
matching the key unchanged — it neither evicts that block nor shadows
it with a same-key insertion. -/
def NonDisplacing (host uri : String) (c : ProxyCache) : CacheOp → Prop
  | CacheOp.read _ _ => True
  | CacheOp.write ok h u buf len =>
      ∀ r c1, write_cache ok c h u buf len = some (r, c1) →
        search_block c1 host uri = search_block c host uri

/-- Every operation of the sequence, at its point in the history, is
non-displacing for the `(host, uri)` entry. -/
def NonDisplacingTrace (host uri : String) :
    ProxyCache → List CacheOp → Prop
  | _, [] => True
  | c, op :: ops =>
      NonDisplacing host uri c op ∧
      ∀ c1, applyOp c op = some c1 → NonDisplacingTrace host uri c1 ops

/-- `search_block` on a key is invariant under any non-crashing
sequence of reads (proved) and non-displacing writes (hypothesis). -/
theorem search_after_ops (host uri : String) :
    ∀ (ops : List CacheOp) (c c2 : ProxyCache),
    applyOps ops c = some c2 → NonDisplacingTrace host uri c ops →
    search_block c2 host uri = search_block c host uri := by
  intro ops
  induction ops with
  | nil =>
    intro c c2 hap _
    injection hap with hap
    rw [hap]
  | cons op ops ih =>
    intro c c2 hap hnd
    unfold applyOps at hap
    rcases ha : applyOp c op with _ | c1
    · rw [ha] at hap
      cases hap
    · rw [ha] at hap
      dsimp only at hap
      rw [ih c1 c2 hap (hnd.2 c1 ha)]
      rcases op with ⟨qh, qu⟩ | ⟨ok, wh, wu, wbuf, wlen⟩
      · simp only [applyOp] at ha
        injection ha with ha
        rw [← ha]
        exact search_after_read c host uri qh qu
      · simp only [applyOp] at ha
        rcases hww : write_cache ok c wh wu wbuf wlen with _ | ⟨r, cw⟩
        · rw [hww] at ha
          cases ha
        · rw [hww] at ha
          simp only [Option.map_some'] at ha
          injection ha with ha
          rw [← ha]
          exact hnd.1 r cw hww

/-- Claim C6: if `write_cache cache host uri V len` succeeds and no
intervening write displaces that entry — formally, any subsequent
non-crashing sequence of `read_cache` calls on arbitrary keys and
`write_cache` calls each of which leaves the first block matching
`(host, uri)` unchanged — then `read_cache cache host uri buf` returns
`len` and copies exactly the bytes `V[0..len)` into the buffer
(cache.c lines 271-319, 327-367). -/
theorem write_then_read_returns_value (c : ProxyCache) (host uri : String)
    (buffer : List Nat) (len : Nat) (c1 c2 : ProxyCache)
    (ops : List CacheOp)
    (hw : write_cache true c host uri buffer len = some (1, c1))
    (hops : applyOps ops c1 = some c2)
    (hnd : NonDisplacingTrace host uri c1 ops) :
    (read_cache c2 host uri).1 = (len : Int) ∧
    (read_cache c2 host uri).2.1 = some (buffer.take len) := by
  have hc1 : ∃ c0, c1 = insert_block c0 (create_block host uri buffer len)
      := by
    unfold write_cache at hw
    by_cases hg : (len : Nat) > c.max_object_size
    · rw [if_pos hg] at hw
      cases hw
    · rw [if_neg hg] at hw
      rcases hev : evict_loop len c with _ | c0
      · rw [hev] at hw
        cases hw
      · rw [hev] at hw
        dsimp only at hw
        rw [if_pos rfl] at hw
        cases hw
        exact ⟨c0, rfl⟩
  obtain ⟨c0, rfl⟩ := hc1
  have hsearch1 : search_block
      (insert_block c0 (create_block host uri buffer len)) host uri =
      some (create_block host uri buffer len) := by
    show List.find? (matchKey host uri)
        (create_block host uri buffer len :: c0.blocks) =
      some (create_block host uri buffer len)
    rw [List.find?_cons_of_pos _ (by simp [matchKey, create_block])]
  have hsearch : search_block c2 host uri =
      some (create_block host uri buffer len) := by
    rw [search_after_ops host uri ops _ c2 hops hnd]
    exact hsearch1
  unfold read_cache
  rw [hsearch]
  exact ⟨rfl, rfl⟩

/-- The C6 witness trace: one unrelated (missing) read, then one
intervening different-key write performed with ample space, which
displaces nothing. -/
def opsC6 : List CacheOp :=
  [CacheOp.read "x" "/y", CacheOp.write true "k" "/w" [9] 1]

/-- The cache after the C6 witness trace. -/
def exampleCacheC6 : ProxyCache :=
  (applyOps opsC6 exampleCacheC3).getD (init_cache 10 5)

set_option maxRecDepth 10000 in
/-- Witness for C6: a concrete successful write into `init_cache 10 5`,
an unrelated read, an intervening non-displacing write of a different
key, then the read of the written key. -/
theorem write_then_read_returns_value_witness :
    (read_cache exampleCacheC6 "h" "/u").1 = (2 : Int) ∧
    (read_cache exampleCacheC6 "h" "/u").2.1 =
      some (([1, 2] : List Nat).take 2) :=
  write_then_read_returns_value (init_cache 10 5) "h" "/u" [1, 2] 2
    exampleCacheC3 exampleCacheC6 opsC6 rfl rfl
    ⟨trivial, fun c1 h => by
      injection h with h
      subst h
      refine ⟨?_, fun c2 _ => trivial⟩
      intro r cw hww
      have hval : write_cache true
          ((read_cache exampleCacheC3 "x" "/y").2.2) "k" "/w" [9] 1 =
          some ((1 : Int),
            ((write_cache true ((read_cache exampleCacheC3 "x" "/y").2.2)
              "k" "/w" [9] 1).getD ((-1 : Int), init_cache 10 5)).2) := rfl
      rw [hval] at hww
      injection hww with hww
      injection hww with h1 h2
      rw [← h2]
      rfl⟩

end Cache

namespace Malloc

/-- Word and header/footer size in bytes (`WSIZE`, mm.c line 94). -/
def WSIZE : Nat := 4

/-- Double word size in bytes (`DSIZE`, mm.c line 95). -/
def DSIZE : Nat := 8

/-- Default heap extension in bytes (`CHUNKSIZE`, mm.c line 96). -/
def CHUNKSIZE : Nat := 168

/-- Minimum block size (`MINIMUM_BLK_SIZE`, mm.c line 97). -/
def MINIMUM_BLK_SIZE : Nat := 24

/-- Minimum payload: two 8-byte list pointers (mm.c line 98). -/
def MINIMUM_PAYLOAD_SIZE : Nat := 16

/-- Header plus footer size (`HEADER_SIZE`, mm.c line 99). -/
def HEADER_SIZE : Nat := 8

/-- Number of segregated lists (`LISTS`, mm.c line 148). -/
def LISTS : Nat := 13

/-- The heap substrate is bounded: block sizes are stored in 4-byte
header words ("the size of each block can't be bigger than 4 byte",
mm.c line 1269), so `mem_sbrk` fails before the heap end could pass
2^32. -/
def MAX_HEAP : Nat := 4294967296

/-- `PACK(size, alloc)` (mm.c line 104): sizes are multiples of 8, so
the bitwise or is an addition of the allocation bit. -/
def packW (size : Nat) (alloc : Bool) : Nat :=
  size + (if alloc then 1 else 0)

/-- Little-endian byte encoding of a 4-byte word, used for the stale
header/footer words that become interior payload bytes when physically
adjacent blocks merge, and for the byte-level serialization of the
heap. -/
def encW (w : Nat) : List Nat :=
  [w % 256, w / 256 % 256, w / 65536 % 256, w / 16777216 % 256]

/-- `GET_SIZE` (mm.c line 113): the word with the low three bits
masked off. -/
def getSizeW (w : Nat) : Nat := w - w % 8

/-- `GET_ALLOC` (mm.c line 114): the low bit of the word. -/
def getAllocW (w : Nat) : Nat := w % 2

/-- One physical heap block.  The C block is a 4-byte header, the body
(payload when allocated; link words plus slack when free), and a 4-byte
footer.  Header and footer are kept as separate size/alloc fields
because mm.c writes them with separate `PUTW`s; the free-list link
words are rendered by the segregated lists of `AllocState` rather than
in-band body bytes. -/
structure Block where
  hsize : Nat
  halloc : Bool
  fsize : Nat
  falloc : Bool
  body : List Nat
  deriving Repr, DecidableEq

/-- The allocator state: the physical sequence of blocks between the
prologue and the epilogue (both implicit: the prologue is a permanently
allocated 8-byte sentinel before the first block, the epilogue a
`(size 0, alloc 1)` word after the last), plus the 13 segregated free
lists.  Each list is the chain of payload addresses reached from the
root slot via the `NEXT_FREE_BLKP` links. -/
structure AllocState where
  blocks : List Block
  seglists : List (List Nat)
  deriving Repr, DecidableEq

/-- Payload address (`bp`) of the first real block.  After `mm_init`
the heap is: 13 list roots (104 bytes), 4 bytes of padding, the
prologue header and footer (8 bytes), so with the heap based at
address 0 the prologue `bp` is 112 and the first real block's `bp`
is 120. -/
def baseAddr : Nat := 120

/-- Total byte size of a block sequence. -/
def sizesSum (bs : List Block) : Nat := (bs.map (fun b => b.hsize)).sum

/-- Payload address of the epilogue (one past the last block). -/
def heapEnd (bs : List Block) : Nat := baseAddr + sizesSum bs

/-- Resolve a payload address to the blocks before it, the block at
it, and the blocks after it, scanning physically from `cur` exactly as
`NEXT_BLKP` header arithmetic does. -/
def seekZip (addr : Nat) : Nat → List Block → Option (List Block × Block × List Block)
  | _, [] => none
  | cur, b :: bs =>
      if cur = addr then some ([], b, bs)
      else (seekZip addr (cur + b.hsize) bs).map
        (fun z => (b :: z.1, z.2.1, z.2.2))

/-- The block whose payload starts at `addr`, if any. -/
def blockAt (st : AllocState) (addr : Nat) : Option Block :=
  (seekZip addr baseAddr st.blocks).map (fun z => z.2.1)

/-- `GET_LISTP(list)` (mm.c line 132): the root of segregated list
`list` (1-based), as the chain of addresses it links to. -/
def getListp (st : AllocState) (list : Nat) : List Nat :=
  (st.seglists.get? (list - 1)).getD []

/-- `SET_LISTP` (mm.c line 133) plus the rewiring of the node links:
replace the whole chain of segregated list `list` (1-based). -/
def setListp (st : AllocState) (list : Nat) (l : List Nat) : AllocState :=
  { st with seglists := st.seglists.set (list - 1) l }

/-- `get_list_index` (mm.c lines 1217-1263): linear scan over the 13
size thresholds. -/
def get_list_index (a_size : Nat) : Nat :=
  if a_size = 0 then 0
  else if a_size ≤ 32 then 1
  else if a_size ≤ 64 then 2
  else if a_size ≤ 128 then 3
  else if a_size ≤ 256 then 4
  else if a_size ≤ 512 then 5
  else if a_size ≤ 1024 then 6
  else if a_size ≤ 2048 then 7
  else if a_size ≤ 4096 then 8
  else if a_size ≤ 8192 then 9
  else if a_size ≤ 16384 then 10
  else if a_size ≤ 32768 then 11
  else if a_size ≤ 65536 then 12
  else 13

/-- `insert_free_block` (mm.c lines 1166-1187): head insertion into the
list chosen by the block's current header size. -/
def insert_free_block (st : AllocState) (bp : Nat) : AllocState :=
  match blockAt st bp with
  | none => st
  | some b =>
      let list_index := get_list_index b.hsize
      setListp st list_index (bp :: getListp st list_index)

/-- `remove_free_block` (mm.c lines 1193-1211): bridge the node's two
neighbors in the list chosen by the block's current header size, which
removes that node from the chain. -/
def remove_free_block (st : AllocState) (bp : Nat) : AllocState :=
  match blockAt st bp with
  | none => st
  | some b =>
      let list_index := get_list_index b.hsize
      setListp st list_index ((getListp st list_index).erase bp)

/-- The inner loop of `find_fit` (mm.c lines 1066-1073) on one list
chain: `bp != NULL && GET_SIZE(HDRP(bp)) > 0` guards the walk, and the
first block with the allocation bit clear and size at least `a_size` is
returned. -/
def find_fit_in_list (st : AllocState) (a_size : Nat) : List Nat → Option Nat
  | [] => none
  | addr :: rest =>
      match blockAt st addr with
      | none => none
      | some b =>
          if b.hsize = 0 then none
          else if b.halloc = false ∧ a_size ≤ b.hsize then some addr
          else find_fit_in_list st a_size rest

/-- The outer loop of `find_fit` (mm.c lines 1065-1075) over the
remaining list indices. -/
def find_fit_lists (st : AllocState) (a_size : Nat) : List Nat → Option Nat
  | [] => none
  | list_index :: rest =>
      match find_fit_in_list st a_size (getListp st list_index) with
      | some bp => some bp
      | none => find_fit_lists st a_size rest

/-- `find_fit` (mm.c lines 1060-1078): first fit in the class of
`a_size`, then in every larger class up to list 13. -/
def find_fit (st : AllocState) (a_size : Nat) : Option Nat :=
  let start := get_list_index a_size
  find_fit_lists st a_size (List.range' start (14 - start))

/-- `GET_ALLOC(FTRP(PREV_BLKP(bp)))` (mm.c line 1088): the footer
allocation bit of the physically previous block; the prologue sentinel
before the first block reads as allocated. -/
def prevAllocOf (pre : List Block) : Bool :=
  match pre.getLast? with
  | none => true
  | some pb => pb.falloc

/-- `GET_ALLOC(HDRP(NEXT_BLKP(bp)))` (mm.c line 1089): the header
allocation bit of the physically next block; the epilogue sentinel
reads as allocated. -/
def nextAllocOf (post : List Block) : Bool :=
  match post.head? with
  | none => true
  | some nb => nb.halloc

/-- `coalesce` (mm.c lines 1086-1131): merge the just-freed block at
`bp` with whichever physical neighbors are free, removing absorbed
neighbors from their lists first and inserting the merged block; the
previous block is found through the footer before `bp` and the next
block through header arithmetic, with the prologue/epilogue sentinels
reading as allocated.  Returns the new state and the resulting `bp`. -/
def coalesce (st : AllocState) (addr : Nat) : AllocState × Nat :=
  match seekZip addr baseAddr st.blocks with
  | none => (st, addr)
  | some (pre, b, post) =>
      let prev_alloc := prevAllocOf pre
      let next_alloc := nextAllocOf post
      if prev_alloc = true ∧ next_alloc = true then
        (insert_free_block st addr, addr)
      else if prev_alloc = true ∧ next_alloc = false then
        match post.head? with
        | none => (st, addr)
        | some nb =>
            let size := b.hsize + nb.hsize
            let st1 := remove_free_block st (addr + b.hsize)
            let merged : Block :=
              { hsize := size, halloc := false, fsize := size, falloc := false
                body := b.body ++ encW (packW b.fsize b.falloc) ++
                  encW (packW nb.hsize nb.halloc) ++ nb.body }
            let st2 := { st1 with blocks := pre ++ merged :: post.tail }
            (insert_free_block st2 addr, addr)
      else if prev_alloc = false ∧ next_alloc = true then
        match pre.getLast? with
        | none => (st, addr)
        | some pb =>
            let size := b.hsize + pb.hsize
            let st1 := remove_free_block st (addr - pb.fsize)
            let merged : Block :=
              { hsize := size, halloc := false, fsize := size, falloc := false
                body := pb.body ++ encW (packW pb.fsize pb.falloc) ++
                  encW (packW b.hsize b.halloc) ++ b.body }
            let st2 := { st1 with blocks := pre.dropLast ++ merged :: post }
            (insert_free_block st2 (addr - pb.fsize), addr - pb.fsize)
      else
        match pre.getLast?, post.head? with
        | some pb, some nb =>
            let size := b.hsize + pb.hsize + nb.fsize
            let st1 := remove_free_block st (addr - pb.fsize)
            let st2 := remove_free_block st1 (addr + b.hsize)
            let merged : Block :=
              { hsize := size, halloc := false, fsize := size, falloc := false
                body := pb.body ++ encW (packW pb.fsize pb.falloc) ++
                  encW (packW b.hsize b.halloc) ++ b.body ++
                  encW (packW b.fsize b.falloc) ++
                  encW (packW nb.hsize nb.halloc) ++ nb.body }
            let st3 := { st2 with blocks := pre.dropLast ++ merged :: post.tail }
            (insert_free_block st3 (addr - pb.fsize), addr - pb.fsize)
        | _, _ => (st, addr)

/-- `place` (mm.c lines 1140-1159): remove the chosen free block from
its list; split it when the remainder would be at least the minimum
block size (the remainder is freed and coalesced), otherwise allocate
the whole block. -/
def place (st : AllocState) (addr : Nat) (a_size : Nat) : AllocState :=
  match seekZip addr baseAddr st.blocks with
  | none => st
  | some (pre, b, post) =>
      let csize := b.hsize
      let st1 := remove_free_block st addr
      if csize - a_size ≥ MINIMUM_BLK_SIZE then
        let b1 : Block :=
          { hsize := a_size, halloc := true, fsize := a_size, falloc := true
            body := b.body.take (a_size - HEADER_SIZE) }
        let b2 : Block :=
          { hsize := csize - a_size, halloc := false
            fsize := csize - a_size, falloc := false
            body := b.body.drop a_size }
        let st2 := { st1 with blocks := pre ++ b1 :: b2 :: post }
        (coalesce st2 (addr + a_size)).1
      else
        { st1 with blocks := pre ++
            { b with hsize := csize, halloc := true,
                     fsize := csize, falloc := true } :: post }

/-- `extend_heap` (mm.c lines 1023-1045): round the word count up to an
even number, clamp to the minimum block size, grow the heap (`grow` is
the `mem_sbrk` success oracle, and the substrate is bounded by
`MAX_HEAP`), write the new free block and the new epilogue, and
coalesce with a trailing free block.  Returns the new state and the
resulting block's `bp`. -/
def extend_heap (st : AllocState) (grow : Bool) (words : Nat) :
    Option (AllocState × Nat) :=
  let size1 := if words % 2 = 1 then (words + 1) * WSIZE else words * WSIZE
  let size := if size1 < MINIMUM_BLK_SIZE then MINIMUM_BLK_SIZE else size1
  if grow = true ∧ heapEnd st.blocks + size ≤ MAX_HEAP then
    let addr := heapEnd st.blocks
    let nb : Block :=
      { hsize := size, halloc := false, fsize := size, falloc := false
        body := List.replicate (size - HEADER_SIZE) 0 }
    some (coalesce { st with blocks := st.blocks ++ [nb] } addr)
  else none

/-- The adjusted block size of `malloc` (mm.c lines 296-302):
`max(MINIMUM_BLK_SIZE, DSIZE * ceil((size + DSIZE) / DSIZE))`. -/
def malloc_adjust (size : Nat) : Nat :=
  if size ≤ MINIMUM_PAYLOAD_SIZE then MINIMUM_BLK_SIZE
  else DSIZE * ((size + DSIZE + (DSIZE - 1)) / DSIZE)

/-- The adjusted block size of `realloc` (mm.c lines 400-406):
`ALIGN(size) + HEADER_SIZE`, clamped below by the minimum block size
(`ALIGN` rounds up to a multiple of 8, mm.c line 91). -/
def realloc_adjust (size : Nat) : Nat :=
  if size ≤ MINIMUM_PAYLOAD_SIZE then MINIMUM_BLK_SIZE
  else ((size + 7) / 8 * 8) + HEADER_SIZE

/-- `malloc` (mm.c lines 281-329) on an initialized heap: adjust the
requested size, first-fit search, place on a hit; otherwise extend the
heap by `max(a_size, CHUNKSIZE)` and place there, or return `NULL`
(`none`) when the heap cannot grow. -/
def malloc (st : AllocState) (grow : Bool) (size : Nat) :
    AllocState × Option Nat :=
  if size = 0 then (st, none)
  else
    let a_size := malloc_adjust size
    match find_fit st a_size with
    | some bp => (place st bp a_size, some bp)
    | none =>
        let extend_size := max a_size CHUNKSIZE
        match extend_heap st grow (extend_size / WSIZE) with
        | none => (st, none)
        | some (st1, bp) => (place st1 bp a_size, some bp)

/-- `free` (mm.c lines 335-360) at a non-null pointer: clear the
allocation bit in header and footer (the footer position is recomputed
from the header size) and coalesce. -/
def free (st : AllocState) (addr : Nat) : AllocState :=
  match seekZip addr baseAddr st.blocks with
  | none => st
  | some (pre, b, post) =>
      let size := b.hsize
      let st1 := { st with blocks := pre ++
        { b with hsize := size, halloc := false,
                 fsize := size, falloc := false } :: post }
      (coalesce st1 addr).1

/-- `realloc` (mm.c lines 376-489).  `size = 0` frees; a null `old_ptr`
is `malloc`; equal adjusted size returns the pointer unchanged; a
smaller size shrinks in place (splitting when the remainder reaches the
minimum block size); a larger size extends into a free physical next
block of size strictly greater than the needed extension (splitting
when possible, otherwise merging both blocks whole), and otherwise
falls back to `malloc` + copy of the old payload capacity + `free`. -/
def realloc (st : AllocState) (grow : Bool) (old_ptr : Option Nat)
    (size : Nat) : AllocState × Option Nat :=
  if size = 0 then
    (match old_ptr with
     | none => st
     | some p => free st p, none)
  else
    match old_ptr with
    | none => malloc st grow size
    | some p =>
        match seekZip p baseAddr st.blocks with
        | none => (st, none)
        | some (pre, b, post) =>
            let old_size := b.hsize
            let new_size := realloc_adjust size
            if new_size = old_size then (st, some p)
            else if new_size < old_size then
              if old_size - new_size ≥ MINIMUM_BLK_SIZE then
                let b1 : Block :=
                  { hsize := new_size, halloc := true
                    fsize := new_size, falloc := true
                    body := b.body.take (new_size - HEADER_SIZE) }
                let b2 : Block :=
                  { hsize := old_size - new_size, halloc := false
                    fsize := old_size - new_size, falloc := false
                    body := b.body.drop new_size }
                let st1 := { st with blocks := pre ++ b1 :: b2 :: post }
                ((coalesce st1 (p + new_size)).1, some p)
              else (st, some p)
            else
              let next_alloc := match post.head? with
                | none => true
                | some nb => nb.halloc
              let next_size := match post.head? with
                | none => 0
                | some nb => nb.hsize
              let extend_size := new_size - old_size
              let payload_size := old_size - HEADER_SIZE
              if next_alloc = false ∧ next_size > extend_size then
                let st1 := remove_free_block st (p + old_size)
                match post.head? with
                | none => (st, none)
                | some nb =>
                    let bodyB := b.body ++ encW (packW b.fsize b.falloc) ++
                      encW (packW nb.hsize nb.halloc) ++ nb.body
                    if next_size - extend_size ≥ MINIMUM_BLK_SIZE then
                      let b1 : Block :=
                        { hsize := new_size, halloc := true
                          fsize := new_size, falloc := true
                          body := bodyB.take (new_size - HEADER_SIZE) }
                      let b2 : Block :=
                        { hsize := next_size - extend_size, halloc := false
                          fsize := next_size - extend_size, falloc := false
                          body := bodyB.drop new_size }
                      let st2 := { st1 with blocks := pre ++ b1 :: b2 :: post.tail }
                      ((coalesce st2 (p + new_size)).1, some p)
                    else
                      let mb : Block :=
                        { hsize := old_size + next_size, halloc := true
                          fsize := old_size + next_size, falloc := true
                          body := bodyB }
                      ({ st1 with blocks := pre ++ mb :: post.tail }, some p)
              else
                let res := malloc st grow size
                match res.2 with
                | none => (res.1, none)
                | some np =>
                    let st2 := match seekZip np baseAddr res.1.blocks with
                      | none => res.1
                      | some (pre2, nb2, post2) =>
                          { res.1 with blocks := pre2 ++
                            { nb2 with body := b.body.take payload_size ++
                                nb2.body.drop payload_size } :: post2 }
                    (free st2 p, some np)

/-- `calloc` (mm.c lines 495-501): `malloc(nmemb * size)` followed by
`memset(bp, 0, total)` with no null check: when the allocation fails
and the byte count is positive, `memset` writes through the null
pointer — a crash, rendered `none`. -/
def calloc (st : AllocState) (grow : Bool) (nmemb size : Nat) :
    Option (AllocState × Option Nat) :=
  let total_size := nmemb * size
  let res := malloc st grow total_size
  match res.2 with
  | none => if total_size = 0 then some (res.1, none) else none
  | some bp =>
      match seekZip bp baseAddr res.1.blocks with
      | none => none
      | some (pre, b, post) =>
          some ({ res.1 with blocks := pre ++
            { b with body := List.replicate total_size 0 ++
                b.body.drop total_size } :: post }, some bp)

/-- The empty heap right after the prologue/epilogue and the 13 null
list roots are written (mm.c lines 218-244). -/
def initState : AllocState :=
  { blocks := [], seglists := List.replicate 13 [] }

/-- `mm_init` (mm.c lines 218-257): set up the list roots and the
sentinels, then extend the heap by `CHUNKSIZE/WSIZE` words; fail
(`none`) when the heap cannot grow. -/
def mm_init (grow : Bool) : Option AllocState :=
  (extend_heap initState grow (CHUNKSIZE / WSIZE)).map Prod.fst

end Malloc

namespace Malloc

/-- The heap right after `mm_init` succeeds: one free 168-byte block. -/
def heapInit : AllocState := (mm_init true).getD initState

/-- A fully exhausted heap: the single 168-byte free block of
`heapInit` is allocated whole by `malloc 160` (adjusted size 168). -/
def heapFull : AllocState := (malloc heapInit true 160).1

/-- Claim C2 (the code, evaluated at the failing input): on a heap with
no free block, when the heap cannot grow, `malloc` propagates the
out-of-memory as a null return, but `calloc(1, 1)` then passes that
null straight to `memset`, which writes through the null pointer: the
call crashes (`none`) instead of returning null. -/
theorem calloc_oom_crash :
    (malloc heapFull false 1).2 = none ∧ calloc heapFull false 1 1 = none :=
  ⟨rfl, rfl⟩

/-- Well-formedness of one block: size a positive multiple of 8 of at
least the minimum block size, footer equal to header, and a body of
exactly `size - 8` bytes. -/
def WFblock (b : Block) : Prop :=
  b.hsize % 8 = 0 ∧ MINIMUM_BLK_SIZE ≤ b.hsize ∧ b.fsize = b.hsize ∧
  b.falloc = b.halloc ∧ b.body.length + HEADER_SIZE = b.hsize

instance (b : Block) : Decidable (WFblock b) :=
  inferInstanceAs (Decidable (b.hsize % 8 = 0 ∧ MINIMUM_BLK_SIZE ≤ b.hsize ∧
    b.fsize = b.hsize ∧ b.falloc = b.halloc ∧
    b.body.length + HEADER_SIZE = b.hsize))

/-- No two physically adjacent blocks are both free. -/
def NoAdjacentFree (bs : List Block) : Prop :=
  List.Chain' (fun a c => a.halloc = true ∨ c.halloc = true) bs

/-- Executable form of `NoAdjacentFree`. -/
def noAdjB : List Block → Bool
  | [] => true
  | [_] => true
  | a :: c :: rest => (a.halloc || c.halloc) && noAdjB (c :: rest)

theorem noAdjB_iff : ∀ bs : List Block, noAdjB bs = true ↔ NoAdjacentFree bs
  | [] => by
    unfold noAdjB NoAdjacentFree
    simp
  | [a] => by
    unfold noAdjB NoAdjacentFree
    simp
  | a :: c :: rest => by
    unfold NoAdjacentFree
    rw [List.chain'_cons]
    constructor
    · intro h
      unfold noAdjB at h
      simp only [Bool.and_eq_true, Bool.or_eq_true] at h
      exact ⟨h.1, (noAdjB_iff (c :: rest)).mp h.2⟩
    · rintro ⟨h1, h2⟩
      unfold noAdjB
      simp only [Bool.and_eq_true, Bool.or_eq_true]
      exact ⟨h1, (noAdjB_iff (c :: rest)).mpr h2⟩

instance (bs : List Block) : Decidable (NoAdjacentFree bs) :=
  decidable_of_iff (noAdjB bs = true) (noAdjB_iff bs)

/-- A well-placed segregated-list entry: the address resolves to a free
block whose size belongs to class `k`. -/
def GoodListAddr (st : AllocState) (k : Nat) (addr : Nat) : Prop :=
  ∃ b, blockAt st addr = some b ∧ b.halloc = false ∧
    get_list_index b.hsize = k

/-- Executable form of `GoodListAddr`. -/
def goodListAddrB (st : AllocState) (k addr : Nat) : Bool :=
  match blockAt st addr with
  | none => false
  | some b => (b.halloc == false) && (get_list_index b.hsize == k)

instance (st : AllocState) (k addr : Nat) : Decidable (GoodListAddr st k addr) :=
  decidable_of_iff (goodListAddrB st k addr = true) (by
    unfold goodListAddrB GoodListAddr
    rcases hb : blockAt st addr with _ | b
    · simp
    · constructor
      · intro h
        simp only [Bool.and_eq_true, beq_iff_eq] at h
        exact ⟨b, rfl, h.1, h.2⟩
      · rintro ⟨b1, hb1, h1, h2⟩
        cases hb1
        simp [h1, h2])

/-- Well-formedness of the 13 segregated lists: 13 root slots, every
chained address resolving to a free block of the right class, and no
address chained twice. -/
def SeglistsWF (st : AllocState) : Prop :=
  st.seglists.length = 13 ∧
  (∀ k ∈ List.range' 1 13, ∀ addr ∈ getListp st k, GoodListAddr st k addr) ∧
  st.seglists.flatten.Nodup

instance (st : AllocState) : Decidable (SeglistsWF st) :=
  inferInstanceAs (Decidable (st.seglists.length = 13 ∧
    (∀ k ∈ List.range' 1 13, ∀ addr ∈ getListp st k, GoodListAddr st k addr) ∧
    st.seglists.flatten.Nodup))

/-- The allocator invariant: all blocks well formed, immediate
coalescing (no adjacent free blocks), well-formed segregated lists, and
the heap inside the substrate bound. -/
def Inv (st : AllocState) : Prop :=
  (∀ b ∈ st.blocks, WFblock b) ∧ NoAdjacentFree st.blocks ∧
  SeglistsWF st ∧ heapEnd st.blocks ≤ MAX_HEAP

instance (st : AllocState) : Decidable (Inv st) :=
  inferInstanceAs (Decidable ((∀ b ∈ st.blocks, WFblock b) ∧
    NoAdjacentFree st.blocks ∧ SeglistsWF st ∧ heapEnd st.blocks ≤ MAX_HEAP))

/-- Soundness of the address scan: a hit decomposes the list, and the
address is the base plus the sizes before the hit. -/
theorem seekZip_sound (addr : Nat) :
    ∀ (l : List Block) (cur : Nat) (pre : List Block) (b : Block)
    (post : List Block), seekZip addr cur l = some (pre, b, post) →
    l = pre ++ b :: post ∧ addr = cur + sizesSum pre := by
  intro l
  induction l with
  | nil => intro cur pre b post h; cases h
  | cons a l ih =>
    intro cur pre b post h
    unfold seekZip at h
    by_cases hc : cur = addr
    · rw [if_pos hc] at h
      cases h
      exact ⟨rfl, by simp [sizesSum, hc]⟩
    · rw [if_neg hc] at h
      rcases hz : seekZip addr (cur + a.hsize) l with _ | z
      · rw [hz] at h; cases h
      · rw [hz] at h
        obtain ⟨pre1, b1, post1⟩ := z
        simp only [Option.map_some', Option.some.injEq, Prod.mk.injEq] at h
        obtain ⟨h1, h2, h3⟩ := h
        subst h1
        subst h2
        subst h3
        obtain ⟨hl, haddr⟩ := ih (cur + a.hsize) pre1 b1 post1 hz
        constructor
        · rw [hl]; rfl
        · simp only [sizesSum, List.map_cons, List.sum_cons]
          simp only [sizesSum] at haddr
          omega

/-- Completeness of the address scan on positive-size prefixes: the
block after `pre` is found at `cur + sizesSum pre`. -/
theorem seekZip_complete :
    ∀ (pre : List Block) (cur : Nat) (b : Block) (post : List Block),
    (∀ x ∈ pre, 0 < x.hsize) →
    seekZip (cur + sizesSum pre) cur (pre ++ b :: post) =
      some (pre, b, post) := by
  intro pre
  induction pre with
  | nil =>
    intro cur b post _
    have h0 : cur + sizesSum [] = cur := by simp [sizesSum]
    rw [h0]
    show (if cur = cur then some (([] : List Block), b, post)
      else (seekZip cur (cur + b.hsize) post).map
        (fun z => (b :: z.1, z.2.1, z.2.2))) = some ([], b, post)
    rw [if_pos rfl]
  | cons a pre ih =>
    intro cur b post hpos
    have ha : 0 < a.hsize := hpos a (by simp)
    have hne : cur ≠ cur + sizesSum (a :: pre) := by
      simp only [sizesSum, List.map_cons, List.sum_cons]
      omega
    show (if cur = cur + sizesSum (a :: pre)
        then some (([] : List Block), a, pre ++ b :: post)
      else (seekZip (cur + sizesSum (a :: pre)) (cur + a.hsize)
          (pre ++ b :: post)).map
        (fun z => (a :: z.1, z.2.1, z.2.2))) = some (a :: pre, b, post)
    rw [if_neg hne]
    have harith : cur + sizesSum (a :: pre) = (cur + a.hsize) + sizesSum pre := by
      simp only [sizesSum, List.map_cons, List.sum_cons]
      omega
    rw [harith, ih (cur + a.hsize) b post (fun x hx => hpos x (by simp [hx]))]
    rfl

end Malloc

namespace Malloc

/-- `sizesSum` distributes over append. -/
theorem sizesSum_append (l1 l2 : List Block) :
    sizesSum (l1 ++ l2) = sizesSum l1 + sizesSum l2 := by
  simp [sizesSum]

/-- The scan misses every address below its cursor. -/
theorem seekZip_none_of_lt (addr : Nat) :
    ∀ (l : List Block) (cur : Nat), addr < cur →
    seekZip addr cur l = none := by
  intro l
  induction l with
  | nil => intro cur _; rfl
  | cons a l ih =>
    intro cur h
    unfold seekZip
    rw [if_neg (by omega), ih (cur + a.hsize) (by omega)]
    rfl

/-- The scan misses every address at or past the end, provided every
block has positive size. -/
theorem seekZip_none_of_ge (addr : Nat) :
    ∀ (l : List Block) (cur : Nat), (∀ x ∈ l, 0 < x.hsize) →
    cur + sizesSum l ≤ addr → seekZip addr cur l = none := by
  intro l
  induction l with
  | nil => intro cur _ _; rfl
  | cons a l ih =>
    intro cur hpos h
    have ha : 0 < a.hsize := hpos a (by simp)
    have hsum : sizesSum (a :: l) = a.hsize + sizesSum l := by
      simp [sizesSum]
    unfold seekZip
    rw [if_neg (by omega),
      ih (cur + a.hsize) (fun x hx => hpos x (by simp [hx])) (by omega)]
    rfl

/-- Decomposition of the scan over an append. -/
theorem seekZip_append (addr : Nat) :
    ∀ (l1 l2 : List Block) (cur : Nat),
    seekZip addr cur (l1 ++ l2) =
      match seekZip addr cur l1 with
      | some (pre, b, post) => some (pre, b, post ++ l2)
      | none => (seekZip addr (cur + sizesSum l1) l2).map
          (fun z => (l1 ++ z.1, z.2.1, z.2.2))
  | [], l2, cur => by
    show seekZip addr cur l2 = (seekZip addr (cur + sizesSum []) l2).map _
    have h0 : cur + sizesSum [] = cur := by simp [sizesSum]
    rw [h0]
    cases seekZip addr cur l2 <;> rfl
  | a :: l1, l2, cur => by
    show (if cur = addr then some (([] : List Block), a, l1 ++ l2)
      else (seekZip addr (cur + a.hsize) (l1 ++ l2)).map
        (fun z => (a :: z.1, z.2.1, z.2.2))) = _
    by_cases hc : cur = addr
    · rw [if_pos hc]
      show _ = (match (if cur = addr then some (([] : List Block), a, l1)
        else (seekZip addr (cur + a.hsize) l1).map
          (fun z => (a :: z.1, z.2.1, z.2.2))) with
        | some (pre, b, post) => some (pre, b, post ++ l2)
        | none => (seekZip addr (cur + sizesSum (a :: l1)) l2).map
            (fun z => ((a :: l1) ++ z.1, z.2.1, z.2.2)))
      rw [if_pos hc]
    · rw [if_neg hc]
      show _ = (match (if cur = addr then some (([] : List Block), a, l1)
        else (seekZip addr (cur + a.hsize) l1).map
          (fun z => (a :: z.1, z.2.1, z.2.2))) with
        | some (pre, b, post) => some (pre, b, post ++ l2)
        | none => (seekZip addr (cur + sizesSum (a :: l1)) l2).map
            (fun z => ((a :: l1) ++ z.1, z.2.1, z.2.2)))
      rw [if_neg hc]
      rw [seekZip_append addr l1 l2 (cur + a.hsize)]
      rcases hz : seekZip addr (cur + a.hsize) l1 with _ | ⟨pre, b, post⟩
      · have harith : cur + a.hsize + sizesSum l1 = cur + sizesSum (a :: l1) := by
          simp only [sizesSum, List.map_cons, List.sum_cons]
          omega
        rw [harith]
        cases seekZip addr (cur + sizesSum (a :: l1)) l2 <;> rfl
      · rfl

end Malloc

namespace Malloc

/-- Every block of a state satisfying the invariant has positive size. -/
theorem inv_pos (st : AllocState) (hinv : Inv st) :
    ∀ x ∈ st.blocks, 0 < x.hsize := by
  intro x hx
  have := (hinv.1 x hx).2.1
  unfold MINIMUM_BLK_SIZE at this
  omega

/-- `blockAt` of a resolved scan. -/
theorem blockAt_of_zip (st : AllocState) (p : Nat) (pre : List Block)
    (b : Block) (post : List Block)
    (h : seekZip p baseAddr st.blocks = some (pre, b, post)) :
    blockAt st p = some b := by
  unfold blockAt
  rw [h]
  rfl

/-- A resolved `blockAt` comes from a resolved scan. -/
theorem zip_of_blockAt (st : AllocState) (p : Nat) (b : Block)
    (h : blockAt st p = some b) :
    ∃ pre post, seekZip p baseAddr st.blocks = some (pre, b, post) := by
  unfold blockAt at h
  rcases hz : seekZip p baseAddr st.blocks with _ | ⟨pre, b1, post⟩
  · rw [hz] at h; cases h
  · rw [hz] at h
    simp only [Option.map_some', Option.some.injEq] at h
    subst h
    exact ⟨pre, post, rfl⟩

/-- Address bounds of a resolved block. -/
theorem blockAt_bounds (st : AllocState) (p : Nat) (b : Block)
    (hpos : ∀ x ∈ st.blocks, 0 < x.hsize) (h : blockAt st p = some b) :
    baseAddr ≤ p ∧ p + b.hsize ≤ heapEnd st.blocks := by
  obtain ⟨pre, post, hz⟩ := zip_of_blockAt st p b h
  obtain ⟨hdec, haddr⟩ := seekZip_sound p st.blocks baseAddr pre b post hz
  constructor
  · omega
  · rw [hdec] at hpos ⊢
    unfold heapEnd
    rw [sizesSum_append]
    have : sizesSum (b :: post) = b.hsize + sizesSum post := by
      simp [sizesSum]
    omega

/-- The physical next block: `blockAt` at `p + size` is the head of the
post list of the scan (and `none` at the epilogue). -/
theorem blockAt_next (st : AllocState) (p : Nat) (pre : List Block)
    (b : Block) (post : List Block)
    (hpos : ∀ x ∈ st.blocks, 0 < x.hsize)
    (h : seekZip p baseAddr st.blocks = some (pre, b, post)) :
    blockAt st (p + b.hsize) = post.head? := by
  obtain ⟨hdec, haddr⟩ := seekZip_sound p st.blocks baseAddr pre b post h
  have hppre : p + b.hsize = baseAddr + sizesSum (pre ++ [b]) := by
    rw [sizesSum_append]
    have : sizesSum [b] = b.hsize := by simp [sizesSum]
    omega
  rcases post with _ | ⟨nb, tail⟩
  · have hge : baseAddr + sizesSum st.blocks ≤ p + b.hsize := by
      rw [hdec]
      omega
    unfold blockAt
    rw [seekZip_none_of_ge _ _ _ hpos hge]
    rfl
  · have hpos2 : ∀ x ∈ pre ++ [b], 0 < x.hsize := by
      intro x hx
      apply hpos
      rw [hdec]
      rcases List.mem_append.mp hx with h1 | h1
      · exact List.mem_append.mpr (Or.inl h1)
      · simp only [List.mem_singleton] at h1
        subst h1
        simp
    have hsplit : pre ++ b :: nb :: tail = (pre ++ [b]) ++ nb :: tail := by simp
    have hz2 : seekZip (p + b.hsize) baseAddr st.blocks =
        some (pre ++ [b], nb, tail) := by
      rw [hdec, hppre, hsplit]
      exact seekZip_complete (pre ++ [b]) baseAddr nb tail hpos2
    unfold blockAt
    rw [hz2]
    rfl

/-- The allocation status of the physical next block as `realloc` reads
it (mm.c line 436); the epilogue reads as allocated. -/
def next_alloc_at (st : AllocState) (p : Nat) : Bool :=
  match blockAt st p with
  | none => true
  | some b =>
      match blockAt st (p + b.hsize) with
      | none => true
      | some nb => nb.halloc

/-- The size of the physical next block as `realloc` reads it (mm.c
line 437); the epilogue reads as size 0. -/
def next_size_at (st : AllocState) (p : Nat) : Nat :=
  match blockAt st p with
  | none => 0
  | some b =>
      match blockAt st (p + b.hsize) with
      | none => 0
      | some nb => nb.hsize

/-- Soundness of the inner `find_fit` walk: the returned address
resolves to a free block large enough. -/
theorem find_fit_in_list_sound (st : AllocState) (a_size : Nat) :
    ∀ (addrs : List Nat) (bp : Nat),
    find_fit_in_list st a_size addrs = some bp →
    ∃ b, blockAt st bp = some b ∧ b.halloc = false ∧ a_size ≤ b.hsize := by
  intro addrs
  induction addrs with
  | nil => intro bp h; cases h
  | cons addr rest ih =>
    intro bp h
    unfold find_fit_in_list at h
    rcases hb : blockAt st addr with _ | b
    · rw [hb] at h; cases h
    · rw [hb] at h
      dsimp only at h
      by_cases h0 : b.hsize = 0
      · rw [if_pos h0] at h; cases h
      · rw [if_neg h0] at h
        by_cases hfit : b.halloc = false ∧ a_size ≤ b.hsize
        · rw [if_pos hfit] at h
          cases h
          exact ⟨b, hb, hfit.1, hfit.2⟩
        · rw [if_neg hfit] at h
          exact ih bp h

/-- Soundness of the outer `find_fit` loop. -/
theorem find_fit_lists_sound (st : AllocState) (a_size : Nat) :
    ∀ (ks : List Nat) (bp : Nat), find_fit_lists st a_size ks = some bp →
    ∃ b, blockAt st bp = some b ∧ b.halloc = false ∧ a_size ≤ b.hsize := by
  intro ks
  induction ks with
  | nil => intro bp h; cases h
  | cons k rest ih =>
    intro bp h
    unfold find_fit_lists at h
    rcases hk : find_fit_in_list st a_size (getListp st k) with _ | bp1
    · rw [hk] at h
      exact ih bp h
    · rw [hk] at h
      cases h
      exact find_fit_in_list_sound st a_size (getListp st k) _ hk

/-- Soundness of `find_fit`: a hit is a free block of sufficient size. -/
theorem find_fit_sound (st : AllocState) (a_size bp : Nat)
    (h : find_fit st a_size = some bp) :
    ∃ b, blockAt st bp = some b ∧ b.halloc = false ∧ a_size ≤ b.hsize := by
  unfold find_fit at h
  exact find_fit_lists_sound st a_size _ bp h

end Malloc

namespace Malloc

/-- `coalesce`, case "previous and next allocated" (mm.c lines
1092-1095): just insert the block. -/
theorem coalesce_case1 (st : AllocState) (addr : Nat) (pre : List Block)
    (b : Block) (post : List Block)
    (hz : seekZip addr baseAddr st.blocks = some (pre, b, post))
    (hp : prevAllocOf pre = true) (hn : nextAllocOf post = true) :
    coalesce st addr = (insert_free_block st addr, addr) := by
  unfold coalesce
  rw [hz]
  simp only [hp, hn, and_self, if_true]

/-- `coalesce`, case "next block free" (mm.c lines 1096-1105): absorb
the next block. -/
theorem coalesce_case2 (st : AllocState) (addr : Nat) (pre : List Block)
    (b nb : Block) (tail : List Block)
    (hz : seekZip addr baseAddr st.blocks = some (pre, b, nb :: tail))
    (hp : prevAllocOf pre = true) (hn : nb.halloc = false) :
    coalesce st addr =
      (insert_free_block
        { remove_free_block st (addr + b.hsize) with
          blocks := pre ++
            { hsize := b.hsize + nb.hsize, halloc := false
              fsize := b.hsize + nb.hsize, falloc := false
              body := b.body ++ encW (packW b.fsize b.falloc) ++
                encW (packW nb.hsize nb.halloc) ++ nb.body } :: tail }
        addr, addr) := by
  unfold coalesce
  rw [hz]
  have hna : nextAllocOf (nb :: tail) = false := by
    simp [nextAllocOf, hn]
  simp only [hna, hp, and_true, and_false, Bool.true_eq_false, if_false,
    and_self, if_true, List.head?_cons, List.tail_cons]
  simp

/-- `coalesce`, case "previous block free" (mm.c lines 1106-1116):
absorb into the previous block. -/
theorem coalesce_case3 (st : AllocState) (addr : Nat) (pre0 : List Block)
    (pb b : Block) (post : List Block)
    (hz : seekZip addr baseAddr st.blocks = some (pre0 ++ [pb], b, post))
    (hp : pb.falloc = false) (hn : nextAllocOf post = true) :
    coalesce st addr =
      (insert_free_block
        { remove_free_block st (addr - pb.fsize) with
          blocks := pre0 ++
            { hsize := b.hsize + pb.hsize, halloc := false
              fsize := b.hsize + pb.hsize, falloc := false
              body := pb.body ++ encW (packW pb.fsize pb.falloc) ++
                encW (packW b.hsize b.halloc) ++ b.body } :: post }
        (addr - pb.fsize), addr - pb.fsize) := by
  unfold coalesce
  rw [hz]
  have hpa : prevAllocOf (pre0 ++ [pb]) = false := by
    simp [prevAllocOf, List.getLast?_concat, hp]
  simp only [hpa, hn, and_true, false_and, Bool.false_eq_true, if_false,
    and_self, if_true, List.getLast?_concat, List.dropLast_concat]

/-- `coalesce`, case "both neighbors free" (mm.c lines 1117-1128):
absorb both. -/
theorem coalesce_case4 (st : AllocState) (addr : Nat) (pre0 : List Block)
    (pb b nb : Block) (tail : List Block)
    (hz : seekZip addr baseAddr st.blocks = some (pre0 ++ [pb], b, nb :: tail))
    (hp : pb.falloc = false) (hn : nb.halloc = false) :
    coalesce st addr =
      (insert_free_block
        { remove_free_block (remove_free_block st (addr - pb.fsize))
            (addr + b.hsize) with
          blocks := pre0 ++
            { hsize := b.hsize + pb.hsize + nb.fsize, halloc := false
              fsize := b.hsize + pb.hsize + nb.fsize, falloc := false
              body := pb.body ++ encW (packW pb.fsize pb.falloc) ++
                encW (packW b.hsize b.halloc) ++ b.body ++
                encW (packW b.fsize b.falloc) ++
                encW (packW nb.hsize nb.halloc) ++ nb.body } :: tail }
        (addr - pb.fsize), addr - pb.fsize) := by
  unfold coalesce
  rw [hz]
  have hpa : prevAllocOf (pre0 ++ [pb]) = false := by
    simp [prevAllocOf, List.getLast?_concat, hp]
  have hna : nextAllocOf (nb :: tail) = false := by
    simp [nextAllocOf, hn]
  simp only [hpa, hna, and_true, and_false, false_and, Bool.false_eq_true,
    Bool.true_eq_false, if_false, List.getLast?_concat, List.head?_cons,
    List.dropLast_concat, List.tail_cons]

end Malloc

namespace Malloc

/-- Coalescing a block appended at the end of the heap returns either
that block's address or, when the old last block was free, the old last
block's address. -/
theorem coalesce_append_result (st : AllocState) (nb : Block)
    (st1 : AllocState) (bp : Nat)
    (hpos : ∀ x ∈ st.blocks, 0 < x.hsize)
    (h : coalesce { st with blocks := st.blocks ++ [nb] }
      (heapEnd st.blocks) = (st1, bp)) :
    bp = heapEnd st.blocks ∨
    (∃ pre0 pb, st.blocks = pre0 ++ [pb] ∧ pb.falloc = false ∧
      bp = heapEnd st.blocks - pb.fsize) := by
  have hz : seekZip (heapEnd st.blocks) baseAddr
      ({ st with blocks := st.blocks ++ [nb] } : AllocState).blocks =
      some (st.blocks, nb, []) :=
    seekZip_complete st.blocks baseAddr nb [] hpos
  rcases hlast : st.blocks.getLast? with _ | pb
  · have hpa : prevAllocOf st.blocks = true := by
      simp [prevAllocOf, hlast]
    rw [coalesce_case1 _ _ _ _ _ hz hpa (by simp [nextAllocOf])] at h
    left
    cases h
    rfl
  · by_cases hfa : pb.falloc = true
    · have hpa : prevAllocOf st.blocks = true := by
        simp [prevAllocOf, hlast, hfa]
      rw [coalesce_case1 _ _ _ _ _ hz hpa (by simp [nextAllocOf])] at h
      left
      cases h
      rfl
    · have hne : st.blocks ≠ [] := by
        intro he; rw [he] at hlast; cases hlast
      have hdec : st.blocks = st.blocks.dropLast ++ [pb] := by
        have h1 := List.dropLast_append_getLast hne
        have h2 := List.getLast?_eq_getLast st.blocks hne
        rw [h2] at hlast
        cases hlast
        exact h1.symm
      have hz3 : seekZip (heapEnd st.blocks) baseAddr
          ({ st with blocks := st.blocks ++ [nb] } : AllocState).blocks =
          some ((st.blocks.dropLast ++ [pb]), nb, []) := by
        rw [hz, ← hdec]
      have hfa2 : pb.falloc = false := by
        cases hb : pb.falloc
        · rfl
        · exact absurd hb hfa
      rw [coalesce_case3 _ _ _ _ _ _ hz3 hfa2 (by simp [nextAllocOf])] at h
      right
      refine ⟨st.blocks.dropLast, pb, hdec, hfa2, ?_⟩
      cases h
      rfl

/-- A successful `extend_heap` returns either the freshly appended
block's address (the old heap end) or, when the old last block was
free, that last block's address (backward coalescing). -/
theorem extend_heap_result (st : AllocState) (g : Bool) (w : Nat)
    (st1 : AllocState) (bp : Nat)
    (hpos : ∀ x ∈ st.blocks, 0 < x.hsize)
    (hext : extend_heap st g w = some (st1, bp)) :
    bp = heapEnd st.blocks ∨
    (∃ pre0 pb, st.blocks = pre0 ++ [pb] ∧ pb.falloc = false ∧
      bp = heapEnd st.blocks - pb.fsize) := by
  unfold extend_heap at hext
  dsimp only at hext
  by_cases hcond : g = true ∧ heapEnd st.blocks +
      (if (if w % 2 = 1 then (w + 1) * WSIZE else w * WSIZE) <
          MINIMUM_BLK_SIZE then MINIMUM_BLK_SIZE
        else if w % 2 = 1 then (w + 1) * WSIZE else w * WSIZE) ≤ MAX_HEAP
  · rw [if_pos hcond] at hext
    simp only [Option.some.injEq] at hext
    exact coalesce_append_result st _ st1 bp hpos hext
  · rw [if_neg hcond] at hext
    cases hext

/-- `malloc` never returns the address of a block that is currently
allocated: its result is a free-list hit or fresh heap space. -/
theorem malloc_result_ne (st : AllocState) (g : Bool) (n p : Nat) (c : Block)
    (hinv : Inv st) (hp : blockAt st p = some c) (hal : c.halloc = true) :
    (malloc st g n).2 ≠ some p := by
  have hpos := inv_pos st hinv
  unfold malloc
  by_cases hn : n = 0
  · rw [if_pos hn]
    simp
  · rw [if_neg hn]
    dsimp only
    rcases hff : find_fit st (malloc_adjust n) with _ | bp
    · dsimp only
      rcases hext : extend_heap st g (max (malloc_adjust n) CHUNKSIZE / WSIZE)
        with _ | ⟨st1, bp⟩
      · simp
      · dsimp only
        rcases extend_heap_result st g _ st1 bp hpos hext with
          h1 | ⟨pre0, pb, hdec, hfa, hbp⟩
        · obtain ⟨hb1, hb2⟩ := blockAt_bounds st p c hpos hp
          have hcpos : 0 < c.hsize := by
            obtain ⟨pre, post, hz⟩ := zip_of_blockAt st p c hp
            obtain ⟨hd, _⟩ := seekZip_sound p st.blocks baseAddr pre c post hz
            exact hpos c (by rw [hd]; simp)
          intro hcontra
          simp only [Option.some.injEq] at hcontra
          omega
        · have hpb_wf : pb.falloc = pb.halloc ∧ pb.fsize = pb.hsize := by
            have := hinv.1 pb (by rw [hdec]; simp)
            exact ⟨this.2.2.2.1, this.2.2.1⟩
          have hpb_at : blockAt st (heapEnd st.blocks - pb.fsize) =
              some pb := by
            have harith : heapEnd st.blocks - pb.fsize =
                baseAddr + sizesSum pre0 := by
              unfold heapEnd
              rw [hdec, sizesSum_append]
              have h1 : sizesSum [pb] = pb.hsize := by simp [sizesSum]
              have h2 : pb.fsize = pb.hsize := hpb_wf.2
              omega
            rw [harith]
            apply blockAt_of_zip _ _ pre0 pb []
            have hpos0 : ∀ x ∈ pre0, 0 < x.hsize := by
              intro x hx
              exact hpos x (by rw [hdec]; exact List.mem_append.mpr (Or.inl hx))
            have hc := seekZip_complete pre0 baseAddr pb [] hpos0
            rw [← hdec] at hc
            exact hc
          intro hcontra
          simp only [Option.some.injEq] at hcontra
          rw [← hbp, hcontra, hp] at hpb_at
          cases hpb_at
          rw [hpb_wf.1, hal] at hfa
          cases hfa
    · dsimp only
      obtain ⟨bf, hbf, hbffree, _⟩ := find_fit_sound st _ bp hff
      intro hcontra
      simp only [Option.some.injEq] at hcontra
      rw [hcontra, hp] at hbf
      cases hbf
      rw [hal] at hbffree
      cases hbffree


end Malloc

namespace Malloc

/-- The adjusted `realloc` size is at least the minimum block size. -/
theorem realloc_adjust_ge (size : Nat) :
    MINIMUM_BLK_SIZE ≤ realloc_adjust size := by
  unfold realloc_adjust MINIMUM_BLK_SIZE MINIMUM_PAYLOAD_SIZE HEADER_SIZE
  by_cases h : size ≤ 16
  · rw [if_pos h]
  · rw [if_neg h]
    have : 17 ≤ size := by omega
    have h2 : (17 + 7) / 8 * 8 ≤ (size + 7) / 8 * 8 := by
      have := Nat.div_le_div_right (c := 8) (by omega : 17 + 7 ≤ size + 7)
      omega
    omega

/-- `insert_free_block` changes only the segregated lists. -/
theorem insert_free_block_blocks (st : AllocState) (a : Nat) :
    (insert_free_block st a).blocks = st.blocks := by
  unfold insert_free_block
  cases blockAt st a <;> rfl

/-- `remove_free_block` changes only the segregated lists. -/
theorem remove_free_block_blocks (st : AllocState) (a : Nat) :
    (remove_free_block st a).blocks = st.blocks := by
  unfold remove_free_block
  cases blockAt st a <;> rfl

/-- `blockAt` depends only on the block list. -/
theorem blockAt_congr (st st' : AllocState) (x : Nat)
    (h : st.blocks = st'.blocks) : blockAt st x = blockAt st' x := by
  unfold blockAt
  rw [h]

/-- Behind a free block the next block is allocated (immediate
coalescing), read off the adjacency chain. -/
theorem chain_next_alloc (pre : List Block) (b nb : Block)
    (tail : List Block)
    (hch : NoAdjacentFree (pre ++ b :: nb :: tail))
    (hnb : nb.halloc = false) : nextAllocOf tail = true := by
  have h1 : NoAdjacentFree (b :: nb :: tail) :=
    ((List.chain'_append).mp hch).2.1
  have h2 : NoAdjacentFree (nb :: tail) := h1.tail
  have h3 := (List.chain'_cons').mp h2
  rcases tail with _ | ⟨t, rest⟩
  · rfl
  · have := h3.1 t rfl
    rcases this with h4 | h4
    · rw [hnb] at h4; cases h4
    · simp [nextAllocOf, h4]

end Malloc

namespace Malloc

/-- After a split at `p + n` (an allocated block `B1` of size `n` at
`p` followed by a freed remainder `B2` whose next physical block is
allocated), `coalesce` only inserts the remainder into its list: the
physical layout stays, with `B1` at `p` and `B2` at `p + n`. -/
theorem coalesce_after_split (stX : AllocState) (p n : Nat)
    (pre : List Block) (B1 B2 : Block) (tail : List Block)
    (hblocks : stX.blocks = pre ++ B1 :: B2 :: tail)
    (hprepos : ∀ x ∈ pre, 0 < x.hsize)
    (haddr : p = baseAddr + sizesSum pre)
    (hB1 : B1.hsize = n) (hB1pos : 0 < n) (hB1f : B1.falloc = true)
    (hnt : nextAllocOf tail = true) :
    (coalesce stX (p + n)).1.blocks = pre ++ B1 :: B2 :: tail ∧
    blockAt (coalesce stX (p + n)).1 p = some B1 ∧
    blockAt (coalesce stX (p + n)).1 (p + n) = some B2 := by
  have hpos1 : ∀ x ∈ pre ++ [B1], 0 < x.hsize := by
    intro x hx
    rcases List.mem_append.mp hx with h1 | h1
    · exact hprepos x h1
    · simp only [List.mem_singleton] at h1
      subst h1
      omega
  have harith : p + n = baseAddr + sizesSum (pre ++ [B1]) := by
    rw [sizesSum_append]
    have h1 : sizesSum [B1] = B1.hsize := by simp [sizesSum]
    omega
  have hz2 : seekZip (p + n) baseAddr stX.blocks =
      some (pre ++ [B1], B2, tail) := by
    rw [hblocks, harith]
    have hsplit : pre ++ B1 :: B2 :: tail = (pre ++ [B1]) ++ B2 :: tail := by
      simp
    rw [hsplit]
    exact seekZip_complete (pre ++ [B1]) baseAddr B2 tail hpos1
  have hco := coalesce_case1 stX (p + n) (pre ++ [B1]) B2 tail hz2
    (by simp [prevAllocOf, List.getLast?_concat, hB1f]) hnt
  rw [hco]
  have hbl : (insert_free_block stX (p + n)).blocks = pre ++ B1 :: B2 :: tail := by
    rw [insert_free_block_blocks, hblocks]
  refine ⟨hbl, ?_, ?_⟩
  · unfold blockAt
    rw [hbl, haddr]
    rw [seekZip_complete pre baseAddr B1 (B2 :: tail) hprepos]
    rfl
  · unfold blockAt
    rw [hbl, harith]
    have hsplit : pre ++ B1 :: B2 :: tail = (pre ++ [B1]) ++ B2 :: tail := by
      simp
    rw [hsplit, seekZip_complete (pre ++ [B1]) baseAddr B2 tail hpos1]
    rfl

/-- Claim C1: for an allocated block `p` of current block size `o` and
a request whose adjusted block size `n = realloc_adjust size` exceeds
`o`, `realloc` extends in place (returning `p`) exactly when the
physically next block is free with size strictly greater than `n - o`;
in that case, if `next_size - (n - o) ≥ 24` the block is grown to `n`
with a coalesced free remainder of size `next_size - (n - o)`,
otherwise the two blocks merge into a single allocated block of size
`o + next_size`.  When `next_size = n - o` exactly, the in-place path
is not taken and the call falls through to a full copy via a fresh
`malloc` (whose result is never `p`). -/
theorem realloc_grow_exact (st : AllocState) (g : Bool) (p size : Nat)
    (b : Block) (hinv : Inv st) (hb : blockAt st p = some b)
    (hal : b.halloc = true) (hlt : b.hsize < realloc_adjust size) :
    ((realloc st g (some p) size).2 = some p ↔
      next_alloc_at st p = false ∧
        next_size_at st p > realloc_adjust size - b.hsize) ∧
    (next_alloc_at st p = false →
      next_size_at st p > realloc_adjust size - b.hsize →
      ((next_size_at st p - (realloc_adjust size - b.hsize) ≥
          MINIMUM_BLK_SIZE →
        ∃ b1 r, blockAt (realloc st g (some p) size).1 p = some b1 ∧
          b1.halloc = true ∧ b1.hsize = realloc_adjust size ∧
          blockAt (realloc st g (some p) size).1 (p + realloc_adjust size) =
            some r ∧ r.halloc = false ∧
          r.hsize = next_size_at st p - (realloc_adjust size - b.hsize)) ∧
      (next_size_at st p - (realloc_adjust size - b.hsize) <
          MINIMUM_BLK_SIZE →
        ∃ mb, blockAt (realloc st g (some p) size).1 p = some mb ∧
          mb.halloc = true ∧ mb.hsize = b.hsize + next_size_at st p))) ∧
    (next_alloc_at st p = false →
      next_size_at st p = realloc_adjust size - b.hsize →
      (realloc st g (some p) size).2 = (malloc st g size).2 ∧
      (realloc st g (some p) size).2 ≠ some p) := by
  have hpos := inv_pos st hinv
  obtain ⟨pre, post, hz⟩ := zip_of_blockAt st p b hb
  obtain ⟨hdec, haddr⟩ := seekZip_sound p st.blocks baseAddr pre b post hz
  have hbwf : WFblock b := hinv.1 b (by rw [hdec]; simp)
  have hs0 : ¬ size = 0 := by
    intro h0
    rw [h0] at hlt
    have h24 := hbwf.2.1
    have hra : realloc_adjust 0 = MINIMUM_BLK_SIZE := rfl
    omega
  have hne1 : ¬ realloc_adjust size = b.hsize := by omega
  have hne2 : ¬ realloc_adjust size < b.hsize := by omega
  have hnexteq : blockAt st (p + b.hsize) = post.head? :=
    blockAt_next st p pre b post hpos hz
  have hna_eq : next_alloc_at st p = nextAllocOf post := by
    unfold next_alloc_at
    rw [hb]
    dsimp only
    rw [hnexteq]
    rfl
  have hns_eq : next_size_at st p =
      (match post.head? with | none => 0 | some nb => nb.hsize) := by
    unfold next_size_at
    rw [hb]
    dsimp only
    rw [hnexteq]
  have hprepos : ∀ x ∈ pre, 0 < x.hsize := by
    intro x hx
    exact hpos x (by rw [hdec]; exact List.mem_append.mpr (Or.inl hx))
  cases post with
  | nil =>
    have hna : next_alloc_at st p = true := by rw [hna_eq]; rfl
    have hre2 : (realloc st g (some p) size).2 = (malloc st g size).2 := by
      unfold realloc
      rw [if_neg hs0]
      dsimp only
      rw [hz]
      dsimp only
      rw [if_neg hne1, if_neg hne2]
      try dsimp only
      rw [if_neg (by simp)]
      rcases hm : (malloc st g size).2 with _ | np
      · rfl
      · rfl
    refine ⟨?_, ?_, ?_⟩
    · rw [hre2, hna]
      constructor
      · intro hcontra
        exact absurd hcontra (malloc_result_ne st g size p b hinv hb hal)
      · rintro ⟨h1, _⟩
        cases h1
    · rw [hna]
      intro h1
      cases h1
    · rw [hna]
      intro h1
      cases h1
  | cons nb tail =>
    have hnbmem : nb ∈ st.blocks := by rw [hdec]; simp
    have hnbwf : WFblock nb := hinv.1 nb hnbmem
    have hna : next_alloc_at st p = nb.halloc := by rw [hna_eq]; rfl
    have hns : next_size_at st p = nb.hsize := by rw [hns_eq]; rfl
    by_cases hnba : nb.halloc = true
    · have hre2 : (realloc st g (some p) size).2 = (malloc st g size).2 := by
        unfold realloc
        rw [if_neg hs0]
        dsimp only
        rw [hz]
        dsimp only
        rw [if_neg hne1, if_neg hne2]
        try dsimp only
        rw [if_neg (by simp [hnba])]
        rcases hm : (malloc st g size).2 with _ | np
        · rfl
        · rfl
      refine ⟨?_, ?_, ?_⟩
      · rw [hre2, hna, hnba]
        constructor
        · intro hcontra
          exact absurd hcontra (malloc_result_ne st g size p b hinv hb hal)
        · rintro ⟨h1, _⟩
          cases h1
      · rw [hna, hnba]
        intro h1
        cases h1
      · rw [hna, hnba]
        intro h1
        cases h1
    · have hnbf : nb.halloc = false := by
        cases h : nb.halloc
        · rfl
        · exact absurd h hnba
      by_cases hgt : nb.hsize > realloc_adjust size - b.hsize
      · have hntail : nextAllocOf tail = true := by
          apply chain_next_alloc pre b nb tail _ hnbf
          have := hinv.2.1
          rw [hdec] at this
          exact this
        by_cases hsp : nb.hsize - (realloc_adjust size - b.hsize) ≥
            MINIMUM_BLK_SIZE
        · -- grow in place with split
          have hre : realloc st g (some p) size =
              ((coalesce
                { remove_free_block st (p + b.hsize) with
                  blocks := pre ++
                    (⟨realloc_adjust size, true, realloc_adjust size, true,
                      (b.body ++ encW (packW b.fsize b.falloc) ++
                        encW (packW nb.hsize nb.halloc) ++ nb.body).take
                        (realloc_adjust size - HEADER_SIZE)⟩ : Block) ::
                    (⟨nb.hsize - (realloc_adjust size - b.hsize), false,
                      nb.hsize - (realloc_adjust size - b.hsize), false,
                      (b.body ++ encW (packW b.fsize b.falloc) ++
                        encW (packW nb.hsize nb.halloc) ++ nb.body).drop
                        (realloc_adjust size)⟩ : Block) :: tail }
                (p + realloc_adjust size)).1, some p) := by
            unfold realloc
            rw [if_neg hs0]
            dsimp only
            rw [hz]
            dsimp only
            rw [if_neg hne1, if_neg hne2]
            try dsimp only
            simp only [List.head?_cons]
            try dsimp only
            rw [if_pos ⟨hnbf, hgt⟩]
            try dsimp only
            rw [if_pos hsp]
            simp only [List.tail_cons]
          obtain ⟨hbl, hat1, hat2⟩ := coalesce_after_split
            { remove_free_block st (p + b.hsize) with
              blocks := pre ++
                (⟨realloc_adjust size, true, realloc_adjust size, true,
                  (b.body ++ encW (packW b.fsize b.falloc) ++
                    encW (packW nb.hsize nb.halloc) ++ nb.body).take
                    (realloc_adjust size - HEADER_SIZE)⟩ : Block) ::
                (⟨nb.hsize - (realloc_adjust size - b.hsize), false,
                  nb.hsize - (realloc_adjust size - b.hsize), false,
                  (b.body ++ encW (packW b.fsize b.falloc) ++
                    encW (packW nb.hsize nb.halloc) ++ nb.body).drop
                    (realloc_adjust size)⟩ : Block) :: tail }
            p (realloc_adjust size) pre _ _ tail rfl hprepos haddr rfl
            (by have := realloc_adjust_ge size; unfold MINIMUM_BLK_SIZE at this; omega)
            rfl hntail
          refine ⟨?_, ?_, ?_⟩
          · rw [hre]
            constructor
            · intro _
              rw [hna, hns]
              exact ⟨hnbf, hgt⟩
            · intro _
              rfl
          · intro _ _
            constructor
            · intro _
              rw [hre]
              exact ⟨_, _, hat1, rfl, rfl, hat2, rfl, by rw [hns]⟩
            · intro hcon
              rw [hns] at hcon
              omega
          · intro _ hceq
            rw [hns] at hceq
            omega
        · -- grow in place by merging both blocks whole
          have hre : realloc st g (some p) size =
              ({ remove_free_block st (p + b.hsize) with
                blocks := pre ++
                  (⟨b.hsize + nb.hsize, true, b.hsize + nb.hsize, true,
                    b.body ++ encW (packW b.fsize b.falloc) ++
                      encW (packW nb.hsize nb.halloc) ++ nb.body⟩ : Block) ::
                  tail }, some p) := by
            unfold realloc
            rw [if_neg hs0]
            dsimp only
            rw [hz]
            dsimp only
            rw [if_neg hne1, if_neg hne2]
            try dsimp only
            simp only [List.head?_cons]
            try dsimp only
            rw [if_pos ⟨hnbf, hgt⟩]
            try dsimp only
            rw [if_neg hsp]
            simp only [List.tail_cons]
          have hat1 : blockAt (realloc st g (some p) size).1 p =
              some (⟨b.hsize + nb.hsize, true, b.hsize + nb.hsize, true,
                b.body ++ encW (packW b.fsize b.falloc) ++
                  encW (packW nb.hsize nb.halloc) ++ nb.body⟩ : Block) := by
            rw [hre]
            unfold blockAt
            show (seekZip p baseAddr (pre ++ _ :: tail)).map _ = _
            rw [haddr, seekZip_complete pre baseAddr _ tail hprepos]
            rfl
          refine ⟨?_, ?_, ?_⟩
          · rw [hre]
            constructor
            · intro _
              rw [hna, hns]
              exact ⟨hnbf, hgt⟩
            · intro _
              rfl
          · intro _ _
            constructor
            · intro hcon
              rw [hns] at hcon
              omega
            · intro _
              refine ⟨_, hat1, rfl, ?_⟩
              rw [hns]
          · intro _ hceq
            rw [hns] at hceq
            omega
      · -- next block too small (or exactly the needed extension):
        -- fall through to the malloc + copy + free path
        have hre2 : (realloc st g (some p) size).2 = (malloc st g size).2 := by
          unfold realloc
          rw [if_neg hs0]
          dsimp only
          rw [hz]
          dsimp only
          rw [if_neg hne1, if_neg hne2]
          try dsimp only
          simp only [List.head?_cons]
          try dsimp only
          rw [if_neg (by rintro ⟨_, hcg⟩; exact hgt hcg)]
          rcases hm : (malloc st g size).2 with _ | np
          · rfl
          · rfl
        refine ⟨?_, ?_, ?_⟩
        · rw [hre2]
          constructor
          · intro hcontra
            exact absurd hcontra (malloc_result_ne st g size p b hinv hb hal)
          · rintro ⟨_, hcg⟩
            rw [hns] at hcg
            exact absurd hcg hgt
        · intro _ hcg
          rw [hns] at hcg
          exact absurd hcg hgt
        · intro _ _
          exact ⟨hre2, by
            rw [hre2]
            exact malloc_result_ne st g size p b hinv hb hal⟩

end Malloc

namespace Malloc

/-- Heap for the C1 witness: after `malloc 32` on the initial heap, the
blocks are a 40-byte allocated block at 120 and a 128-byte free block
at 160. -/
def heapC1 : AllocState := (malloc heapInit true 32).1

/-- The allocated 40-byte block at address 120 of `heapC1`. -/
def blockC1 : Block :=
  { hsize := 40, halloc := true, fsize := 40, falloc := true
    body := List.replicate 32 0 }

set_option maxRecDepth 10000 in
/-- Witness for C1: growing the 40-byte block at 120 to adjusted size
112 extends in place into the 128-byte free next block (128 > 72), with
a 56-byte split remainder. -/
theorem realloc_grow_exact_witness :
    ((realloc heapC1 true (some 120) 100).2 = some 120 ↔
      next_alloc_at heapC1 120 = false ∧
        next_size_at heapC1 120 > realloc_adjust 100 - blockC1.hsize) ∧
    (next_alloc_at heapC1 120 = false →
      next_size_at heapC1 120 > realloc_adjust 100 - blockC1.hsize →
      ((next_size_at heapC1 120 - (realloc_adjust 100 - blockC1.hsize) ≥
          MINIMUM_BLK_SIZE →
        ∃ b1 r, blockAt (realloc heapC1 true (some 120) 100).1 120 =
            some b1 ∧
          b1.halloc = true ∧ b1.hsize = realloc_adjust 100 ∧
          blockAt (realloc heapC1 true (some 120) 100).1
              (120 + realloc_adjust 100) = some r ∧ r.halloc = false ∧
          r.hsize = next_size_at heapC1 120 -
            (realloc_adjust 100 - blockC1.hsize)) ∧
      (next_size_at heapC1 120 - (realloc_adjust 100 - blockC1.hsize) <
          MINIMUM_BLK_SIZE →
        ∃ mb, blockAt (realloc heapC1 true (some 120) 100).1 120 =
            some mb ∧
          mb.halloc = true ∧
          mb.hsize = blockC1.hsize + next_size_at heapC1 120))) ∧
    (next_alloc_at heapC1 120 = false →
      next_size_at heapC1 120 = realloc_adjust 100 - blockC1.hsize →
      (realloc heapC1 true (some 120) 100).2 =
        (malloc heapC1 true 100).2 ∧
      (realloc heapC1 true (some 120) 100).2 ≠ some 120) :=
  realloc_grow_exact heapC1 true 120 100 blockC1 (by decide) (by decide)
    rfl (by decide)

end Malloc

namespace Malloc

/-- Stability of `blockAt` under a same-size mid-segment replacement:
a block resolved outside the replaced address range is still resolved,
with the same contents. -/
theorem blockAt_surgery (st st1 : AllocState)
    (pre mid mid1 post : List Block)
    (hb1 : st.blocks = pre ++ (mid ++ post))
    (hb2 : st1.blocks = pre ++ (mid1 ++ post))
    (hsum : sizesSum mid1 = sizesSum mid)
    (hposm : ∀ x ∈ mid, 0 < x.hsize) (hposm1 : ∀ x ∈ mid1, 0 < x.hsize)
    (q : Nat) (c : Block) (hq : blockAt st q = some c)
    (hout : q < baseAddr + sizesSum pre ∨
      baseAddr + sizesSum pre + sizesSum mid ≤ q) :
    blockAt st1 q = some c := by
  unfold blockAt at hq ⊢
  rw [hb1, seekZip_append] at hq
  rw [hb2, seekZip_append]
  rcases hz : seekZip q baseAddr pre with _ | ⟨zp, zb, zpo⟩
  · rw [hz] at hq
    dsimp only at hq ⊢
    rw [seekZip_append] at hq
    rw [seekZip_append]
    have hge : baseAddr + sizesSum pre + sizesSum mid ≤ q := by
      rcases hout with h1 | h1
      · exfalso
        rw [seekZip_none_of_lt q mid (baseAddr + sizesSum pre) h1] at hq
        dsimp only at hq
        rw [seekZip_none_of_lt q post (baseAddr + sizesSum pre + sizesSum mid)
          (by omega)] at hq
        cases hq
      · exact h1
    rw [seekZip_none_of_ge q mid (baseAddr + sizesSum pre) hposm
      (by omega)] at hq
    rw [seekZip_none_of_ge q mid1 (baseAddr + sizesSum pre) hposm1
      (by omega)]
    dsimp only at hq ⊢
    rw [hsum]
    simp only [Option.map_map, Function.comp_def] at hq ⊢
    exact hq
  · rw [hz] at hq
    dsimp only at hq ⊢
    exact hq

/-- Positional trichotomy: a resolved block is before the mid segment,
after it, or is one of the mid blocks themselves. -/
theorem blockAt_pos_cases (st : AllocState) (pre mid post : List Block)
    (hb : st.blocks = pre ++ (mid ++ post))
    (hpos : ∀ x ∈ st.blocks, 0 < x.hsize)
    (q : Nat) (c : Block) (hq : blockAt st q = some c) :
    (q < baseAddr + sizesSum pre ∨
      baseAddr + sizesSum pre + sizesSum mid ≤ q) ∨
    (c ∈ mid ∧ ∃ α β, mid = α ++ c :: β ∧
      q = baseAddr + sizesSum pre + sizesSum α) := by
  unfold blockAt at hq
  rw [hb, seekZip_append] at hq
  rcases hz : seekZip q baseAddr pre with _ | ⟨zp, zb, zpo⟩
  · rw [hz] at hq
    dsimp only at hq
    rw [seekZip_append] at hq
    rcases hm : seekZip q (baseAddr + sizesSum pre) mid with _ | ⟨mp, mb, mpo⟩
    · rw [hm] at hq
      dsimp only at hq
      rcases hp : seekZip q (baseAddr + sizesSum pre + sizesSum mid) post
        with _ | z2
      · rw [hp] at hq
        cases hq
      · left
        right
        obtain ⟨_, haddr⟩ := seekZip_sound q post
          (baseAddr + sizesSum pre + sizesSum mid) z2.1 z2.2.1 z2.2.2
          (by rw [hp])
        omega
    · rw [hm] at hq
      simp only [Option.map_map, Option.map_some', Function.comp_def] at hq
      obtain ⟨hdec, haddr⟩ := seekZip_sound q mid (baseAddr + sizesSum pre)
        mp mb mpo hm
      right
      cases hq
      exact ⟨by rw [hdec]; simp, mp, mpo, hdec, haddr⟩
  · rw [hz] at hq
    dsimp only at hq
    cases hq
    obtain ⟨hdec, haddr⟩ := seekZip_sound q pre baseAddr zp zb zpo hz
    left
    left
    have hle : sizesSum (zp ++ zb :: zpo) = sizesSum zp + zb.hsize +
        sizesSum zpo := by
      rw [sizesSum_append]
      have : sizesSum (zb :: zpo) = zb.hsize + sizesSum zpo := by
        simp [sizesSum]
      omega
    have hcpos : 0 < zb.hsize := by
      apply hpos zb
      rw [hb, hdec]
      simp
    rw [hdec, hle]
    omega

end Malloc

namespace Malloc

/-- A false `prevAllocOf` exhibits a free last block. -/
theorem prevAllocOf_false (pre : List Block) (h : prevAllocOf pre = false) :
    ∃ pre0 pb, pre = pre0 ++ [pb] ∧ pb.falloc = false := by
  unfold prevAllocOf at h
  rcases hl : pre.getLast? with _ | pb
  · rw [hl] at h; cases h
  · rw [hl] at h
    have hne : pre ≠ [] := by intro he; rw [he] at hl; cases hl
    refine ⟨pre.dropLast, pb, ?_, h⟩
    have h1 := List.dropLast_append_getLast hne
    have h2 := List.getLast?_eq_getLast pre hne
    rw [h2] at hl
    cases hl
    exact h1.symm

/-- A false `nextAllocOf` exhibits a free head block. -/
theorem nextAllocOf_false (post : List Block) (h : nextAllocOf post = false) :
    ∃ nb tail, post = nb :: tail ∧ nb.halloc = false := by
  unfold nextAllocOf at h
  rcases post with _ | ⟨nb, tail⟩
  · cases h
  · exact ⟨nb, tail, rfl, h⟩

/-- `blockAt` ignores a free-list insertion. -/
theorem blockAt_insert_free (X : AllocState) (a q : Nat) :
    blockAt (insert_free_block X a) q = blockAt X q :=
  blockAt_congr _ _ q (insert_free_block_blocks X a)

/-- An allocated block lies outside the address range of a run of free
blocks. -/
theorem pos_out_of_free_mid (stA : AllocState) (pre mid post : List Block)
    (hb : stA.blocks = pre ++ (mid ++ post))
    (hposA : ∀ x ∈ stA.blocks, 0 < x.hsize)
    (q : Nat) (c : Block) (hq : blockAt stA q = some c)
    (hcal : c.halloc = true) (hmidfree : ∀ x ∈ mid, x.halloc = false) :
    q < baseAddr + sizesSum pre ∨
      baseAddr + sizesSum pre + sizesSum mid ≤ q := by
  rcases blockAt_pos_cases stA pre mid post hb hposA q c hq with h | ⟨hcm, _⟩
  · exact h
  · exfalso
    have := hmidfree c hcm
    rw [hcal] at this
    cases this

/-- `coalesce` at a free block does not disturb any allocated block:
the only blocks it rewrites (the freed one and the free neighbors it
absorbs) are free. -/
theorem blockAt_coalesce_other (stA : AllocState) (p q : Nat) (c : Block)
    (preF : List Block) (fb : Block) (postF : List Block)
    (hdec : stA.blocks = preF ++ fb :: postF)
    (haddr : p = baseAddr + sizesSum preF)
    (hposA : ∀ x ∈ stA.blocks, 0 < x.hsize)
    (hwfA : ∀ x ∈ stA.blocks, WFblock x)
    (hfb : fb.halloc = false)
    (hq : blockAt stA q = some c) (hcal : c.halloc = true) :
    blockAt (coalesce stA p).1 q = some c := by
  have hz1 : seekZip p baseAddr stA.blocks = some (preF, fb, postF) := by
    rw [hdec, haddr]
    apply seekZip_complete
    intro x hx
    exact hposA x (by rw [hdec]; exact List.mem_append.mpr (Or.inl hx))
  have hfbpos : 0 < fb.hsize := hposA fb (by rw [hdec]; simp)
  by_cases hpa : prevAllocOf preF = true
  · by_cases hnaf : nextAllocOf postF = true
    · rw [coalesce_case1 _ p preF fb postF hz1 hpa hnaf]
      rw [blockAt_insert_free]
      exact hq
    · have hnaf2 : nextAllocOf postF = false := by
        cases h : nextAllocOf postF
        · rfl
        · exact absurd h hnaf
      obtain ⟨nb, tail, hpostF, hnbf⟩ := nextAllocOf_false postF hnaf2
      subst hpostF
      rw [coalesce_case2 _ p preF fb nb tail hz1 hpa hnbf]
      rw [blockAt_insert_free]
      have hnbpos : 0 < nb.hsize := hposA nb (by rw [hdec]; simp)
      apply blockAt_surgery stA _ preF [fb, nb]
        [⟨fb.hsize + nb.hsize, false, fb.hsize + nb.hsize, false,
          fb.body ++ encW (packW fb.fsize fb.falloc) ++
            encW (packW nb.hsize nb.halloc) ++ nb.body⟩] tail
        (by rw [hdec]; simp) (by simp)
        (by simp [sizesSum]) ?_ ?_ q c hq ?_
      · intro x hx
        rcases List.mem_cons.mp hx with h1 | h1
        · subst h1; exact hfbpos
        · simp only [List.mem_singleton] at h1
          subst h1
          exact hnbpos
      · intro x hx
        simp only [List.mem_singleton] at hx
        subst hx
        show 0 < fb.hsize + nb.hsize
        omega
      · apply pos_out_of_free_mid stA preF [fb, nb] tail
          (by rw [hdec]; simp) hposA q c hq hcal
        intro x hx
        rcases List.mem_cons.mp hx with h1 | h1
        · subst h1; exact hfb
        · simp only [List.mem_singleton] at h1
          subst h1
          exact hnbf
  · have hpa2 : prevAllocOf preF = false := by
      cases h : prevAllocOf preF
      · rfl
      · exact absurd h hpa
    obtain ⟨pre0, pb, hpreF, hpbf⟩ := prevAllocOf_false preF hpa2
    have hpbh : pb.halloc = false := by
      have hwfpb : WFblock pb := hwfA pb (by rw [hdec, hpreF]; simp)
      rw [← hwfpb.2.2.2.1, hpbf]
    have hpbpos : 0 < pb.hsize := hposA pb (by rw [hdec, hpreF]; simp)
    have hz1b : seekZip p baseAddr stA.blocks =
        some (pre0 ++ [pb], fb, postF) := by
      rw [hz1, hpreF]
    by_cases hnaf : nextAllocOf postF = true
    · rw [coalesce_case3 _ p pre0 pb fb postF hz1b hpbf hnaf]
      rw [blockAt_insert_free]
      apply blockAt_surgery stA _ pre0 [pb, fb]
        [⟨fb.hsize + pb.hsize, false, fb.hsize + pb.hsize, false,
          pb.body ++ encW (packW pb.fsize pb.falloc) ++
            encW (packW fb.hsize fb.halloc) ++ fb.body⟩] postF
        (by rw [hdec, hpreF]; simp) (by simp)
        (by simp [sizesSum]; omega) ?_ ?_ q c hq ?_
      · intro x hx
        rcases List.mem_cons.mp hx with h1 | h1
        · subst h1; exact hpbpos
        · simp only [List.mem_singleton] at h1
          subst h1
          exact hfbpos
      · intro x hx
        simp only [List.mem_singleton] at hx
        subst hx
        show 0 < fb.hsize + pb.hsize
        omega
      · apply pos_out_of_free_mid stA pre0 [pb, fb] postF
          (by rw [hdec, hpreF]; simp) hposA q c hq hcal
        intro x hx
        rcases List.mem_cons.mp hx with h1 | h1
        · subst h1; exact hpbh
        · simp only [List.mem_singleton] at h1
          subst h1
          exact hfb
    · have hnaf2 : nextAllocOf postF = false := by
        cases h : nextAllocOf postF
        · rfl
        · exact absurd h hnaf
      obtain ⟨nb, tail, hpostF, hnbf⟩ := nextAllocOf_false postF hnaf2
      subst hpostF
      have hnbpos : 0 < nb.hsize := hposA nb (by rw [hdec]; simp)
      have hnbwf : WFblock nb := hwfA nb (by rw [hdec]; simp)
      rw [coalesce_case4 _ p pre0 pb fb nb tail hz1b hpbf hnbf]
      rw [blockAt_insert_free]
      apply blockAt_surgery stA _ pre0 [pb, fb, nb]
        [⟨fb.hsize + pb.hsize + nb.fsize, false,
          fb.hsize + pb.hsize + nb.fsize, false,
          pb.body ++ encW (packW pb.fsize pb.falloc) ++
            encW (packW fb.hsize fb.halloc) ++ fb.body ++
            encW (packW fb.fsize fb.falloc) ++
            encW (packW nb.hsize nb.halloc) ++ nb.body⟩] tail
        (by rw [hdec, hpreF]; simp)
        (by simp)
        ?_ ?_ ?_ q c hq ?_
      · show sizesSum _ = sizesSum [pb, fb, nb]
        have hfs : nb.fsize = nb.hsize := hnbwf.2.2.1
        simp [sizesSum]
        omega
      · intro x hx
        rcases List.mem_cons.mp hx with h1 | h1
        · subst h1; exact hpbpos
        · rcases List.mem_cons.mp h1 with h2 | h2
          · subst h2; exact hfbpos
          · simp only [List.mem_singleton] at h2
            subst h2
            exact hnbpos
      · intro x hx
        simp only [List.mem_singleton] at hx
        subst hx
        show 0 < fb.hsize + pb.hsize + nb.fsize
        omega
      · apply pos_out_of_free_mid stA pre0 [pb, fb, nb] tail
          (by rw [hdec, hpreF]; simp) hposA q c hq hcal
        intro x hx
        rcases List.mem_cons.mp hx with h1 | h1
        · subst h1; exact hpbh
        · rcases List.mem_cons.mp h1 with h2 | h2
          · subst h2; exact hfb
          · simp only [List.mem_singleton] at h2
            subst h2
            exact hnbf

/-- `free` does not disturb any other allocated block. -/
theorem blockAt_free_other (st : AllocState) (p q : Nat) (c : Block)
    (hwf : ∀ x ∈ st.blocks, WFblock x)
    (hq : blockAt st q = some c) (hcal : c.halloc = true) (hne : q ≠ p) :
    blockAt (free st p) q = some c := by
  have hpos : ∀ x ∈ st.blocks, 0 < x.hsize := by
    intro x hx
    have := (hwf x hx).2.1
    unfold MINIMUM_BLK_SIZE at this
    omega
  unfold free
  rcases hzp : seekZip p baseAddr st.blocks with _ | ⟨preF, bF, postF⟩
  · exact hq
  · obtain ⟨hdecF, haddrF⟩ := seekZip_sound p st.blocks baseAddr preF bF
      postF hzp
    have hbFpos : 0 < bF.hsize := hpos bF (by rw [hdecF]; simp)
    have hout1 : q < baseAddr + sizesSum preF ∨
        baseAddr + sizesSum preF + sizesSum [bF] ≤ q := by
      rcases blockAt_pos_cases st preF [bF] postF (by rw [hdecF]; simp)
        hpos q c hq with h1 | ⟨hcm, α, β, hmid, hqa⟩
      · exact h1
      · exfalso
        rcases α with _ | ⟨x, xs⟩
        · have h0 : sizesSum ([] : List Block) = 0 := rfl
          rw [h0] at hqa
          exact hne (by omega)
        · simp at hmid
    have hq1 : blockAt { st with blocks :=
        preF ++ (⟨bF.hsize, false, bF.hsize, false, bF.body⟩ : Block) ::
          postF } q = some c := by
      apply blockAt_surgery st _ preF [bF]
        [⟨bF.hsize, false, bF.hsize, false, bF.body⟩] postF
        (by rw [hdecF]; simp) (by simp)
        (by simp [sizesSum])
        (by intro x hx; simp only [List.mem_singleton] at hx; subst hx
            exact hbFpos)
        (by intro x hx; simp only [List.mem_singleton] at hx; subst hx
            exact hbFpos)
        q c hq hout1
    apply blockAt_coalesce_other _ p q c preF
      (⟨bF.hsize, false, bF.hsize, false, bF.body⟩ : Block) postF rfl haddrF
      ?_ ?_ rfl hq1 hcal
    · intro x hx
      rcases List.mem_append.mp hx with h1 | h1
      · exact hpos x (by rw [hdecF]; exact List.mem_append.mpr (Or.inl h1))
      · rcases List.mem_cons.mp h1 with h2 | h2
        · subst h2; exact hbFpos
        · refine hpos x ?_
          rw [hdecF]
          exact List.mem_append.mpr (Or.inr (by simp [h2]))
    · intro x hx
      rcases List.mem_append.mp hx with h1 | h1
      · exact hwf x (by rw [hdecF]; exact List.mem_append.mpr (Or.inl h1))
      · rcases List.mem_cons.mp h1 with h2 | h2
        · subst h2
          have hwfbF : WFblock bF := hwf bF (by rw [hdecF]; simp)
          exact ⟨hwfbF.1, hwfbF.2.1, rfl, rfl, hwfbF.2.2.2.2⟩
        · refine hwf x ?_
          rw [hdecF]
          exact List.mem_append.mpr (Or.inr (by simp [h2]))

end Malloc

namespace Malloc

/-- A positive size falls into one of the 13 classes. -/
theorem get_list_index_bounds (s : Nat) (h : 0 < s) :
    1 ≤ get_list_index s ∧ get_list_index s ≤ 13 := by
  unfold get_list_index
  rw [if_neg (by omega : ¬ s = 0)]
  by_cases h0 : s ≤ 32
  · rw [if_pos h0]; omega
  · rw [if_neg h0]
    by_cases h1 : s ≤ 64
    · rw [if_pos h1]; omega
    · rw [if_neg h1]
      by_cases h2 : s ≤ 128
      · rw [if_pos h2]; omega
      · rw [if_neg h2]
        by_cases h3 : s ≤ 256
        · rw [if_pos h3]; omega
        · rw [if_neg h3]
          by_cases h4 : s ≤ 512
          · rw [if_pos h4]; omega
          · rw [if_neg h4]
            by_cases h5 : s ≤ 1024
            · rw [if_pos h5]; omega
            · rw [if_neg h5]
              by_cases h6 : s ≤ 2048
              · rw [if_pos h6]; omega
              · rw [if_neg h6]
                by_cases h7 : s ≤ 4096
                · rw [if_pos h7]; omega
                · rw [if_neg h7]
                  by_cases h8 : s ≤ 8192
                  · rw [if_pos h8]; omega
                  · rw [if_neg h8]
                    by_cases h9 : s ≤ 16384
                    · rw [if_pos h9]; omega
                    · rw [if_neg h9]
                      by_cases h10 : s ≤ 32768
                      · rw [if_pos h10]; omega
                      · rw [if_neg h10]
                        by_cases h11 : s ≤ 65536
                        · rw [if_pos h11]; omega
                        · rw [if_neg h11]
                          omega

end Malloc

namespace Malloc

/-- `malloc` and `realloc` adjust a request to the same block size. -/
theorem malloc_adjust_eq_realloc_adjust (s : Nat) :
    malloc_adjust s = realloc_adjust s := by
  unfold malloc_adjust realloc_adjust MINIMUM_PAYLOAD_SIZE MINIMUM_BLK_SIZE
    DSIZE HEADER_SIZE
  by_cases h : s ≤ 16
  · rw [if_pos h, if_pos h]
  · rw [if_neg h, if_neg h]
    omega

/-- The adjusted `malloc` size is a multiple of 8 at least the minimum
block size. -/
theorem malloc_adjust_props (s : Nat) :
    MINIMUM_BLK_SIZE ≤ malloc_adjust s ∧ malloc_adjust s % 8 = 0 := by
  unfold malloc_adjust MINIMUM_PAYLOAD_SIZE MINIMUM_BLK_SIZE DSIZE
  by_cases h : s ≤ 16
  · rw [if_pos h]
    omega
  · rw [if_neg h]
    constructor
    · have h2 : (17 + 8 + 7) / 8 ≤ (s + 8 + 7) / 8 :=
        Nat.div_le_div_right (by omega)
      omega
    · omega

/-- The adjusted `realloc` size is a multiple of 8 at least the minimum
block size. -/
theorem realloc_adjust_props (s : Nat) :
    MINIMUM_BLK_SIZE ≤ realloc_adjust s ∧ realloc_adjust s % 8 = 0 := by
  rw [← malloc_adjust_eq_realloc_adjust]
  exact malloc_adjust_props s

/-- `set` at one index leaves the other `get?` results unchanged. -/
theorem get?_set_other : ∀ (L : List (List Nat)) (i j : Nat) (a : List Nat),
    i ≠ j → (L.set i a).get? j = L.get? j
  | [], _, _, _, _ => by simp
  | x :: L, 0, 0, a, h => absurd rfl h
  | x :: L, 0, j + 1, a, h => rfl
  | x :: L, i + 1, 0, a, h => rfl
  | x :: L, i + 1, j + 1, a, h => by
      show (L.set i a).get? j = L.get? j
      exact get?_set_other L i j a (by omega)

/-- `get?` at the index just written by `set`. -/
theorem get?_set_self : ∀ (L : List (List Nat)) (i : Nat) (a : List Nat),
    i < L.length → (L.set i a).get? i = some a
  | [], i, a, h => by cases h
  | x :: L, 0, a, _ => rfl
  | x :: L, i + 1, a, h => get?_set_self L i a (by simp at h; omega)

/-- `setListp` changes only the segregated lists. -/
theorem setListp_blocks (st : AllocState) (k : Nat) (l : List Nat) :
    (setListp st k l).blocks = st.blocks := rfl

/-- Reading the list just written by `setListp`. -/
theorem getListp_set_same (st : AllocState) (k : Nat) (l : List Nat)
    (h2 : k - 1 < st.seglists.length) :
    getListp (setListp st k l) k = l := by
  unfold getListp setListp
  dsimp only
  rw [get?_set_self st.seglists (k - 1) l h2]
  rfl

/-- Reading another list after `setListp`. -/
theorem getListp_set_other (st : AllocState) (k k' : Nat) (l : List Nat)
    (h1 : 1 ≤ k) (h1' : 1 ≤ k') (hne : k' ≠ k) :
    getListp (setListp st k l) k' = getListp st k' := by
  unfold getListp setListp
  dsimp only
  rw [get?_set_other st.seglists (k - 1) (k' - 1) l (by omega)]

/-- `getListp` as a direct list lookup when the index is in range. -/
theorem getListp_eq (st : AllocState) (k : Nat)
    (h : k - 1 < st.seglists.length) :
    getListp st k = st.seglists.get ⟨k - 1, h⟩ := by
  unfold getListp
  rw [List.get?_eq_get h]
  rfl

/-- Decompose the flattened seglists around a written index. -/
theorem flatten_set_decomp (L : List (List Nat)) (i : Nat) (l : List Nat)
    (h : i < L.length) :
    (L.set i l).flatten =
      (L.take i).flatten ++ (l ++ (L.drop (i + 1)).flatten) := by
  rw [List.set_eq_take_append_cons_drop, if_pos h]
  rw [List.flatten_append, List.flatten_cons]

/-- Decompose the flattened seglists at an index. -/
theorem flatten_decomp (L : List (List Nat)) (i : Nat) (h : i < L.length) :
    L.flatten =
      (L.take i).flatten ++ (L.get ⟨i, h⟩ ++ (L.drop (i + 1)).flatten) := by
  conv_lhs => rw [← List.take_append_drop i L, ← List.getElem_cons_drop L i h]
  rw [List.flatten_append, List.flatten_cons]
  rfl

/-- `GoodListAddr` transfers along equal resolution. -/
theorem goodListAddr_congr (st st1 : AllocState) (k a : Nat)
    (h : blockAt st1 a = blockAt st a) :
    GoodListAddr st k a → GoodListAddr st1 k a := by
  rintro ⟨b, hb, hf, hk⟩
  exact ⟨b, by rw [h, hb], hf, hk⟩

/-- The only decomposition of a one-block segment. -/
theorem seg1_cases (m1 c : Block) (α β : List Block)
    (h : [m1] = α ++ c :: β) : α = [] ∧ c = m1 ∧ β = [] := by
  rcases α with _ | ⟨x, α⟩
  · rw [List.nil_append] at h
    injection h with h1 h2
    exact ⟨rfl, h1.symm, h2.symm⟩
  · rw [List.cons_append] at h
    injection h with h1 h2
    exact absurd h2.symm (by simp)

/-- The decompositions of a two-block segment. -/
theorem seg2_cases (m1 m2 c : Block) (α β : List Block)
    (h : [m1, m2] = α ++ c :: β) :
    (α = [] ∧ c = m1 ∧ β = [m2]) ∨ (α = [m1] ∧ c = m2 ∧ β = []) := by
  rcases α with _ | ⟨x, α⟩
  · rw [List.nil_append] at h
    injection h with h1 h2
    exact Or.inl ⟨rfl, h1.symm, h2.symm⟩
  · rw [List.cons_append] at h
    injection h with h1 h2
    subst h1
    obtain ⟨hα, hc, hβ⟩ := seg1_cases m2 c α β h2
    subst hα
    exact Or.inr ⟨rfl, hc, hβ⟩

/-- The decompositions of a three-block segment. -/
theorem seg3_cases (m1 m2 m3 c : Block) (α β : List Block)
    (h : [m1, m2, m3] = α ++ c :: β) :
    (α = [] ∧ c = m1 ∧ β = [m2, m3]) ∨ (α = [m1] ∧ c = m2 ∧ β = [m3]) ∨
    (α = [m1, m2] ∧ c = m3 ∧ β = []) := by
  rcases α with _ | ⟨x, α⟩
  · rw [List.nil_append] at h
    injection h with h1 h2
    exact Or.inl ⟨rfl, h1.symm, h2.symm⟩
  · rw [List.cons_append] at h
    injection h with h1 h2
    subst h1
    rcases seg2_cases m2 m3 c α β h2 with ⟨hα, hc, hβ⟩ | ⟨hα, hc, hβ⟩
    · subst hα
      exact Or.inr (Or.inl ⟨rfl, hc, hβ⟩)
    · subst hα
      exact Or.inr (Or.inr ⟨rfl, hc, hβ⟩)

/-- Appending blocks at the end of the heap does not disturb the
resolution of existing blocks. -/
theorem blockAt_append_right (st st1 : AllocState) (l2 : List Block)
    (hb : st1.blocks = st.blocks ++ l2) (q : Nat) (c : Block)
    (hq : blockAt st q = some c) : blockAt st1 q = some c := by
  unfold blockAt at hq ⊢
  rw [hb, seekZip_append]
  rcases hz : seekZip q baseAddr st.blocks with _ | ⟨pre, b, post⟩
  · rw [hz] at hq
    cases hq
  · rw [hz] at hq
    dsimp only at hq ⊢
    exact hq

/-- No address strictly inside a block's extent resolves to a block. -/
theorem blockAt_none_inside (st : AllocState) (pre : List Block) (b : Block)
    (post : List Block) (hdec : st.blocks = pre ++ b :: post)
    (hpos : ∀ x ∈ st.blocks, 0 < x.hsize) (q : Nat)
    (h1 : baseAddr + sizesSum pre < q)
    (h2 : q < baseAddr + sizesSum pre + b.hsize) :
    blockAt st q = none := by
  rcases hq : blockAt st q with _ | c
  · rfl
  · exfalso
    rcases blockAt_pos_cases st pre [b] post (by rw [hdec]; simp) hpos q c hq
      with hout | ⟨_, α, β, hmid, haddr⟩
    · have hs : sizesSum [b] = b.hsize := by simp [sizesSum]
      omega
    · obtain ⟨hα, _, _⟩ := seg1_cases b c α β hmid
      subst hα
      have hs0 : sizesSum ([] : List Block) = 0 := by simp [sizesSum]
      omega

/-- Replace the middle of an adjacency chain, given that the new middle
chains and links to both sides. -/
theorem chain_surgery (R : Block → Block → Prop) (pre mid mid1 post : List Block)
    (h : List.Chain' R (pre ++ (mid ++ post)))
    (h1 : List.Chain' R mid1)
    (hL : ∀ x ∈ pre.getLast?, ∀ y ∈ mid1.head?, R x y)
    (hR : ∀ x ∈ mid1.getLast?, ∀ y ∈ post.head?, R x y)
    (hne : mid1 ≠ []) :
    List.Chain' R (pre ++ (mid1 ++ post)) := by
  rw [List.chain'_append] at h
  rw [List.chain'_append]
  refine ⟨h.1, ?_, ?_⟩
  · rw [List.chain'_append]
    exact ⟨h1, (List.chain'_append.mp h.2.1).2.1, hR⟩
  · intro x hx y hy
    apply hL x hx
    rcases mid1 with _ | ⟨m, rest⟩
    · exact absurd rfl hne
    · simpa using hy

/-- Surgery stability with mid hits excluded by address. -/
theorem blockAt_surgery_keep (st st1 : AllocState)
    (pre mid mid1 post : List Block)
    (hb1 : st.blocks = pre ++ (mid ++ post))
    (hb2 : st1.blocks = pre ++ (mid1 ++ post))
    (hsum : sizesSum mid1 = sizesSum mid)
    (hpos : ∀ x ∈ st.blocks, 0 < x.hsize)
    (hposm1 : ∀ x ∈ mid1, 0 < x.hsize)
    (q : Nat) (c : Block) (hq : blockAt st q = some c)
    (hexcl : ∀ α β, mid = α ++ c :: β →
      q ≠ baseAddr + sizesSum pre + sizesSum α) :
    blockAt st1 q = some c := by
  rcases blockAt_pos_cases st pre mid post hb1 hpos q c hq with
    hout | ⟨_, α, β, hmid, haddr⟩
  · refine blockAt_surgery st st1 pre mid mid1 post hb1 hb2 hsum ?_ hposm1
      q c hq hout
    intro x hx
    refine hpos x ?_
    rw [hb1]
    exact List.mem_append.mpr (Or.inr (List.mem_append.mpr (Or.inl hx)))
  · exact absurd haddr (hexcl α β hmid)

end Malloc

namespace Malloc

/-- Flattened-seglists membership in terms of the 13 list reads. -/
theorem mem_flatten_iff (st : AllocState) (hlen : st.seglists.length = 13)
    (a : Nat) : a ∈ st.seglists.flatten ↔
      ∃ k, k ∈ List.range' 1 13 ∧ a ∈ getListp st k := by
  rw [List.mem_flatten]
  constructor
  · rintro ⟨l, hl, ha⟩
    obtain ⟨⟨i, hi⟩, hget⟩ := List.mem_iff_get.mp hl
    refine ⟨i + 1, ?_, ?_⟩
    · rw [List.mem_range'_1]
      omega
    · rw [getListp_eq st (i + 1) (by omega)]
      rw [← hget] at ha
      exact ha
  · rintro ⟨k, hk, ha⟩
    rw [List.mem_range'_1] at hk
    rw [getListp_eq st k (by omega)] at ha
    exact ⟨_, List.get_mem _ _ _, ha⟩

/-- `insert_free_block` preserves the seglists invariant when the
inserted address resolves to a free block not already chained. -/
theorem SeglistsWF_insert (st : AllocState) (a : Nat) (b : Block)
    (hW : SeglistsWF st) (hb : blockAt st a = some b)
    (hfree : b.halloc = false) (hpos : 0 < b.hsize)
    (hfresh : a ∉ st.seglists.flatten) :
    SeglistsWF (insert_free_block st a) := by
  obtain ⟨hlen, hsound, hnd⟩ := hW
  obtain ⟨hk1, hk13⟩ := get_list_index_bounds b.hsize hpos
  set k := get_list_index b.hsize with hkdef
  have hki : k - 1 < st.seglists.length := by omega
  unfold insert_free_block
  rw [hb]
  dsimp only
  refine ⟨?_, ?_, ?_⟩
  · simp [setListp, hlen]
  · intro k' hk' addr haddr
    have hrange := hk'
    rw [List.mem_range'_1] at hrange
    have hcongr : ∀ x, blockAt (setListp st k (a :: getListp st k)) x =
        blockAt st x := fun x =>
      blockAt_congr _ _ x (setListp_blocks st k _)
    by_cases hkk : k' = k
    · subst hkk
      rw [getListp_set_same st k _ hki] at haddr
      rcases List.mem_cons.mp haddr with h1 | h1
      · subst h1
        exact ⟨b, by rw [hcongr, hb], hfree, hkdef.symm⟩
      · exact goodListAddr_congr st _ k addr (hcongr addr)
          (hsound k hk' addr h1)
    · rw [getListp_set_other st k k' _ (by omega) (by omega) hkk] at haddr
      exact goodListAddr_congr st _ k' addr (hcongr addr)
        (hsound k' hk' addr haddr)
  · show ((st.seglists.set (k - 1) (a :: getListp st k)).flatten).Nodup
    rw [flatten_set_decomp st.seglists (k - 1) _ hki]
    rw [getListp_eq st k hki]
    have hFdec := flatten_decomp st.seglists (k - 1) hki
    rw [hFdec] at hnd hfresh
    show ((st.seglists.take (k - 1)).flatten ++
      (a :: (st.seglists.get ⟨k - 1, hki⟩ ++
        (st.seglists.drop (k - 1 + 1)).flatten))).Nodup
    rw [List.nodup_middle, List.nodup_cons]
    exact ⟨hfresh, hnd⟩

/-- `remove_free_block` preserves the seglists invariant and unchains
the given address completely. -/
theorem SeglistsWF_remove (st : AllocState) (a : Nat) (hW : SeglistsWF st)
    (hposall : ∀ x ∈ st.blocks, 0 < x.hsize) :
    SeglistsWF (remove_free_block st a) ∧
    a ∉ (remove_free_block st a).seglists.flatten ∧
    List.Sublist (remove_free_block st a).seglists.flatten
      st.seglists.flatten := by
  obtain ⟨hlen, hsound, hnd⟩ := hW
  unfold remove_free_block
  rcases hb : blockAt st a with _ | b
  · dsimp only
    refine ⟨⟨hlen, hsound, hnd⟩, ?_, List.Sublist.refl _⟩
    intro hmem
    rw [mem_flatten_iff st hlen a] at hmem
    obtain ⟨k, hk, ha⟩ := hmem
    obtain ⟨b', hb', _, _⟩ := hsound k hk a ha
    rw [hb] at hb'
    cases hb'
  · dsimp only
    have hbpos : 0 < b.hsize := by
      obtain ⟨pre, post, hz⟩ := zip_of_blockAt st a b hb
      obtain ⟨hd, _⟩ := seekZip_sound a st.blocks baseAddr pre b post hz
      exact hposall b (by rw [hd]; simp)
    obtain ⟨hk1, hk13⟩ := get_list_index_bounds b.hsize hbpos
    set k := get_list_index b.hsize with hkdef
    have hki : k - 1 < st.seglists.length := by omega
    have honlyk : ∀ k', k' ∈ List.range' 1 13 → a ∈ getListp st k' →
        k' = k := by
      intro k' hk' ha
      obtain ⟨b', hb', _, hcls⟩ := hsound k' hk' a ha
      rw [hb] at hb'
      cases hb'
      rw [← hcls, hkdef]
    have hG : getListp st k = st.seglists.get ⟨k - 1, hki⟩ :=
      getListp_eq st k hki
    have hGnd : (getListp st k).Nodup := by
      rw [hG]
      refine hnd.sublist ?_
      rw [flatten_decomp st.seglists (k - 1) hki]
      exact List.Sublist.trans (List.sublist_append_left _ _)
        (List.sublist_append_right _ _)
    have hcongr : ∀ x, blockAt (setListp st k ((getListp st k).erase a)) x =
        blockAt st x := fun x =>
      blockAt_congr _ _ x (setListp_blocks st k _)
    have hsub : List.Sublist
        ((st.seglists.set (k - 1) ((getListp st k).erase a)).flatten)
        st.seglists.flatten := by
      rw [flatten_set_decomp st.seglists (k - 1) _ hki]
      conv_rhs => rw [flatten_decomp st.seglists (k - 1) hki]
      refine List.Sublist.append (List.Sublist.refl _) ?_
      refine List.Sublist.append ?_ (List.Sublist.refl _)
      rw [hG]
      exact List.erase_sublist a _
    refine ⟨⟨?_, ?_, ?_⟩, ?_, hsub⟩
    · simp [setListp, hlen]
    · intro k' hk' addr haddr
      have hrange := hk'
      rw [List.mem_range'_1] at hrange
      by_cases hkk : k' = k
      · subst hkk
        rw [getListp_set_same st k _ hki] at haddr
        exact goodListAddr_congr st _ k addr (hcongr addr)
          (hsound k hk' addr (List.mem_of_mem_erase haddr))
      · rw [getListp_set_other st k k' _ (by omega) (by omega) hkk] at haddr
        exact goodListAddr_congr st _ k' addr (hcongr addr)
          (hsound k' hk' addr haddr)
    · exact hnd.sublist hsub
    · intro hmem
      have hlen' : (setListp st k ((getListp st k).erase a)).seglists.length
          = 13 := by simp [setListp, hlen]
      rw [mem_flatten_iff _ hlen' a] at hmem
      obtain ⟨k', hk', ha⟩ := hmem
      have hrange := hk'
      rw [List.mem_range'_1] at hrange
      by_cases hkk : k' = k
      · subst hkk
        rw [getListp_set_same st k _ hki] at ha
        rw [hGnd.mem_erase_iff] at ha
        exact ha.1 rfl
      · rw [getListp_set_other st k k' _ (by omega) (by omega) hkk] at ha
        exact hkk (honlyk k' hk' ha)

end Malloc

namespace Malloc

/-- Well-formed blocks have positive size. -/
theorem wf_pos (bs : List Block) (h : ∀ x ∈ bs, WFblock x) :
    ∀ x ∈ bs, 0 < x.hsize := by
  intro x hx
  have := (h x hx).2.1
  unfold MINIMUM_BLK_SIZE at this
  omega

/-- An encoded word is 4 bytes. -/
theorem encW_length (w : Nat) : (encW w).length = 4 := by
  simp [encW]

/-- `sizesSum` through a middle block. -/
theorem sizesSum_middle (l1 : List Block) (b : Block) (l2 : List Block) :
    sizesSum (l1 ++ b :: l2) = sizesSum l1 + b.hsize + sizesSum l2 := by
  rw [sizesSum_append]
  have h : sizesSum (b :: l2) = b.hsize + sizesSum l2 := by
    simp [sizesSum]
  omega

/-- Resolve a decomposed block list at its middle block. -/
theorem blockAt_of_decomp (st : AllocState) (pre : List Block) (b : Block)
    (post : List Block) (hdec : st.blocks = pre ++ b :: post)
    (hpos : ∀ x ∈ pre, 0 < x.hsize) :
    blockAt st (baseAddr + sizesSum pre) = some b := by
  apply blockAt_of_zip st _ pre b post
  rw [hdec]
  exact seekZip_complete pre baseAddr b post hpos

/-- `getListp` depends only on the segregated lists. -/
theorem getListp_congr (st st' : AllocState) (k : Nat)
    (h : st'.seglists = st.seglists) : getListp st' k = getListp st k := by
  unfold getListp
  rw [h]

/-- Assemble an adjacency chain around one middle block. -/
theorem chain_mid1 (R : Block → Block → Prop) (pre : List Block) (b : Block)
    (post : List Block) (hchpre : List.Chain' R pre)
    (hchpost : List.Chain' R post)
    (hL : ∀ x ∈ pre.getLast?, R x b) (hR : ∀ y ∈ post.head?, R b y) :
    List.Chain' R (pre ++ b :: post) := by
  have h1 : List.Chain' R (b :: post) := by
    rw [List.chain'_cons']
    exact ⟨hR, hchpost⟩
  rw [show pre ++ b :: post = pre ++ ((b :: post) : List Block) from rfl]
  rw [List.chain'_append]
  refine ⟨hchpre, h1, ?_⟩
  intro x hx y hy
  simp only [List.head?_cons, Option.mem_def, Option.some.injEq] at hy
  subst hy
  exact hL x hx

/-- Transport the seglists invariant across a block surgery that keeps
every chained address resolving to the same block. -/
theorem SeglistsWF_surgery (stA stB : AllocState) (hsl : SeglistsWF stA)
    (hsame : stB.seglists = stA.seglists)
    (hkeep : ∀ a c, a ∈ stA.seglists.flatten → blockAt stA a = some c →
      blockAt stB a = some c) : SeglistsWF stB := by
  obtain ⟨hlen, hsound, hnd⟩ := hsl
  refine ⟨by rw [hsame]; exact hlen, ?_, by rw [hsame]; exact hnd⟩
  intro k hk addr haddr
  rw [getListp_congr stA stB k hsame] at haddr
  obtain ⟨c, hc, hf, hcls⟩ := hsound k hk addr haddr
  have hmem : addr ∈ stA.seglists.flatten := by
    rw [mem_flatten_iff stA hlen]
    exact ⟨k, hk, haddr⟩
  exact ⟨c, hkeep addr c hmem hc, hf, hcls⟩

/-- The common tail of `coalesce`: inserting the (free, fresh) merged
block at `q` preserves the invariant and resolves there. -/
theorem inv_insert_free (stX : AllocState) (q : Nat) (pre' : List Block)
    (m : Block) (post' : List Block)
    (hdec : stX.blocks = pre' ++ m :: post')
    (haddr : q = baseAddr + sizesSum pre')
    (hwf : ∀ x ∈ stX.blocks, WFblock x)
    (hch : NoAdjacentFree stX.blocks)
    (hsl : SeglistsWF stX) (hcap : heapEnd stX.blocks ≤ MAX_HEAP)
    (hm : m.halloc = false) (hfresh : q ∉ stX.seglists.flatten) :
    Inv (insert_free_block stX q) ∧
    blockAt (insert_free_block stX q) q = some m ∧
    (insert_free_block stX q).blocks = stX.blocks := by
  have hpos := wf_pos stX.blocks hwf
  have hq : blockAt stX q = some m := by
    rw [haddr]
    exact blockAt_of_decomp stX pre' m post' hdec
      (fun x hx => hpos x (by rw [hdec]; exact List.mem_append.mpr (Or.inl hx)))
  have hmpos : 0 < m.hsize := hpos m (by rw [hdec]; simp)
  have hblocks := insert_free_block_blocks stX q
  refine ⟨⟨?_, ?_, ?_, ?_⟩, ?_, hblocks⟩
  · rw [hblocks]
    exact hwf
  · rw [hblocks]
    exact hch
  · exact SeglistsWF_insert stX q m hsl hq hm hmpos hfresh
  · rw [hblocks]
    exact hcap
  · rw [blockAt_insert_free]
    exact hq

end Malloc

namespace Malloc

/-- The last element of a list is a member. -/
theorem mem_of_getLast?B (l : List Block) (x : Block)
    (h : l.getLast? = some x) : x ∈ l := by
  obtain ⟨hne, hx⟩ := List.mem_getLast?_eq_getLast (Option.mem_def.mpr h)
  rw [hx]
  exact List.getLast_mem hne

/-- The head of a list is a member. -/
theorem mem_of_head?B (l : List Block) (x : Block)
    (h : l.head? = some x) : x ∈ l := by
  rcases l with _ | ⟨a, l⟩
  · cases h
  · simp only [List.head?_cons, Option.some.injEq] at h
    subst h
    simp

end Malloc

namespace Malloc

/-- `coalesce` at a well-formed free block (not yet chained, with the
rest of the heap chained correctly) restores the full allocator
invariant; the resulting address resolves to a free block at least as
large, and the heap size is unchanged. -/
theorem coalesce_inv (st : AllocState) (p : Nat)
    (preF : List Block) (fb : Block) (postF : List Block)
    (hdec : st.blocks = preF ++ fb :: postF)
    (haddr : p = baseAddr + sizesSum preF)
    (hwf : ∀ x ∈ st.blocks, WFblock x)
    (hsl : SeglistsWF st)
    (hcap : heapEnd st.blocks ≤ MAX_HEAP)
    (hchpre : List.Chain' (fun a c => a.halloc = true ∨ c.halloc = true) preF)
    (hchpost : List.Chain' (fun a c => a.halloc = true ∨ c.halloc = true) postF)
    (hfb : fb.halloc = false) (hfbf : fb.falloc = false)
    (hfresh : p ∉ st.seglists.flatten) :
    Inv (coalesce st p).1 ∧
    (∃ fb', blockAt (coalesce st p).1 (coalesce st p).2 = some fb' ∧
      fb'.halloc = false ∧ fb.hsize ≤ fb'.hsize) ∧
    sizesSum (coalesce st p).1.blocks = sizesSum st.blocks := by
  have hpos := wf_pos st.blocks hwf
  have hprepos : ∀ x ∈ preF, 0 < x.hsize := fun x hx =>
    hpos x (by rw [hdec]; exact List.mem_append.mpr (Or.inl hx))
  have hz : seekZip p baseAddr st.blocks = some (preF, fb, postF) := by
    rw [hdec, haddr]
    exact seekZip_complete preF baseAddr fb postF hprepos
  have hfbwf : WFblock fb := hwf fb (by rw [hdec]; simp)
  have hfbpos : 0 < fb.hsize := hpos fb (by rw [hdec]; simp)
  by_cases hpa : prevAllocOf preF = true
  · have hLA : ∀ x, preF.getLast? = some x → x.halloc = true := by
      intro x hx
      have hx2 : x.falloc = true := by
        unfold prevAllocOf at hpa
        rw [hx] at hpa
        exact hpa
      have hxwf := hwf x (by
        rw [hdec]
        exact List.mem_append.mpr (Or.inl (mem_of_getLast?B preF x hx)))
      rw [← hxwf.2.2.2.1]
      exact hx2
    by_cases hna : nextAllocOf postF = true
    · rw [coalesce_case1 st p preF fb postF hz hpa hna]
      dsimp only
      have hch : NoAdjacentFree st.blocks := by
        rw [hdec]
        refine chain_mid1 _ preF fb postF hchpre hchpost ?_ ?_
        · intro x hx
          exact Or.inl (hLA x (Option.mem_def.mp hx))
        · intro y hy
          refine Or.inr ?_
          unfold nextAllocOf at hna
          rw [Option.mem_def.mp hy] at hna
          exact hna
      obtain ⟨hinv, hbAt, hblocks⟩ := inv_insert_free st p preF fb postF hdec
        haddr hwf hch hsl hcap hfb hfresh
      exact ⟨hinv, ⟨fb, hbAt, hfb, Nat.le_refl _⟩, by rw [hblocks]⟩
    · have hna2 : nextAllocOf postF = false := by
        revert hna
        cases nextAllocOf postF <;> simp
      obtain ⟨nb, tail, hpostF, hnbf⟩ := nextAllocOf_false postF hna2
      subst hpostF
      have hnbwf : WFblock nb := hwf nb (by rw [hdec]; simp)
      have hnbpos : 0 < nb.hsize := hpos nb (by rw [hdec]; simp)
      rw [coalesce_case2 st p preF fb nb tail hz hpa hnbf]
      dsimp only
      set M : Block := ⟨fb.hsize + nb.hsize, false, fb.hsize + nb.hsize, false,
        fb.body ++ encW (packW fb.fsize fb.falloc) ++
          encW (packW nb.hsize nb.halloc) ++ nb.body⟩ with hM
      obtain ⟨hsl1, hnbnot, hsub1⟩ :=
        SeglistsWF_remove st (p + fb.hsize) hsl hpos
      have hfresh1 :
          p ∉ (remove_free_block st (p + fb.hsize)).seglists.flatten :=
        fun h => hfresh (hsub1.subset h)
      have hMsz : M.hsize = fb.hsize + nb.hsize := by rw [hM]
      have hMwf : WFblock M := by
        rw [hM]
        refine ⟨?_, ?_, rfl, rfl, ?_⟩
        · have h1 := hfbwf.1
          have h2 := hnbwf.1
          show (fb.hsize + nb.hsize) % 8 = 0
          omega
        · have h1 := hfbwf.2.1
          show MINIMUM_BLK_SIZE ≤ fb.hsize + nb.hsize
          unfold MINIMUM_BLK_SIZE at h1 ⊢
          omega
        · have h1 := hfbwf.2.2.2.2
          have h2 := hnbwf.2.2.2.2
          show (fb.body ++ encW (packW fb.fsize fb.falloc) ++
            encW (packW nb.hsize nb.halloc) ++ nb.body).length + HEADER_SIZE =
            fb.hsize + nb.hsize
          simp only [List.length_append, encW_length]
          unfold HEADER_SIZE at h1 h2 ⊢
          omega
      have hb1 : (remove_free_block st (p + fb.hsize)).blocks =
          preF ++ ([fb, nb] ++ tail) := by
        rw [remove_free_block_blocks, hdec]
        rfl
      have hsA : sizesSum [M] = M.hsize := by simp [sizesSum]
      have hsB : sizesSum [fb, nb] = fb.hsize + nb.hsize := by simp [sizesSum]
      have hsum1 : sizesSum [M] = sizesSum [fb, nb] := by omega
      have hkeep : ∀ a c,
          a ∈ (remove_free_block st (p + fb.hsize)).seglists.flatten →
          blockAt (remove_free_block st (p + fb.hsize)) a = some c →
          blockAt { remove_free_block st (p + fb.hsize) with
            blocks := preF ++ M :: tail } a = some c := by
        intro a c hmem hc
        refine blockAt_surgery_keep _ _ preF [fb, nb] [M] tail hb1 rfl hsum1
          ?_ ?_ a c hc ?_
        · rw [remove_free_block_blocks]
          exact hpos
        · intro x hx
          simp only [List.mem_singleton] at hx
          subst hx
          omega
        · intro α β hmid
          have h0 : sizesSum ([] : List Block) = 0 := by simp [sizesSum]
          have h1 : sizesSum [fb] = fb.hsize := by simp [sizesSum]
          rcases seg2_cases fb nb c α β hmid with ⟨hα, _, _⟩ | ⟨hα, _, _⟩
          · subst hα
            intro heq
            have ha : a = p := by omega
            rw [ha] at hmem
            exact hfresh1 hmem
          · subst hα
            intro heq
            have ha : a = p + fb.hsize := by omega
            rw [ha] at hmem
            exact hnbnot hmem
      have hsl2 : SeglistsWF { remove_free_block st (p + fb.hsize) with
          blocks := preF ++ M :: tail } :=
        SeglistsWF_surgery _ _ hsl1 rfl hkeep
      have hwf2 : ∀ x ∈ (preF ++ M :: tail), WFblock x := by
        intro x hx
        rcases List.mem_append.mp hx with h1 | h1
        · exact hwf x (by rw [hdec]; exact List.mem_append.mpr (Or.inl h1))
        · rcases List.mem_cons.mp h1 with h2 | h2
          · subst h2
            exact hMwf
          · exact hwf x (by rw [hdec]; simp [h2])
      have hch2 : List.Chain' (fun a c => a.halloc = true ∨ c.halloc = true)
          (preF ++ M :: tail) := by
        refine chain_mid1 _ preF M tail hchpre hchpost.tail ?_ ?_
        · intro x hx
          exact Or.inl (hLA x (Option.mem_def.mp hx))
        · intro y hy
          rcases (List.chain'_cons'.mp hchpost).1 y hy with h | h
          · rw [hnbf] at h
            cases h
          · exact Or.inr h
      have hsC : sizesSum (nb :: tail) = nb.hsize + sizesSum tail := by
        simp [sizesSum]
      have hsum2 : sizesSum (preF ++ M :: tail) = sizesSum st.blocks := by
        rw [sizesSum_middle, hdec, sizesSum_middle]
        omega
      have hcap2 : heapEnd (preF ++ M :: tail) ≤ MAX_HEAP := by
        unfold heapEnd at hcap ⊢
        omega
      obtain ⟨hinv, hbAt, hblocks⟩ := inv_insert_free
        { remove_free_block st (p + fb.hsize) with
          blocks := preF ++ M :: tail }
        p preF M tail rfl haddr hwf2 hch2 hsl2 hcap2 rfl hfresh1
      refine ⟨hinv, ⟨M, hbAt, rfl, ?_⟩, ?_⟩
      · omega
      · rw [hblocks]
        exact hsum2
  · have hpa2 : prevAllocOf preF = false := by
      revert hpa
      cases prevAllocOf preF <;> simp
    obtain ⟨pre0, pb, hpreF, hpbf⟩ := prevAllocOf_false preF hpa2
    subst hpreF
    have hpbwf : WFblock pb := hwf pb (by rw [hdec]; simp)
    have hpbpos : 0 < pb.hsize := hpos pb (by rw [hdec]; simp)
    have hpbh : pb.halloc = false := by
      rw [← hpbwf.2.2.2.1]
      exact hpbf
    have hpbsz : pb.fsize = pb.hsize := hpbwf.2.2.1
    have hsums : sizesSum (pre0 ++ [pb]) = sizesSum pre0 + pb.hsize := by
      rw [sizesSum_append]
      simp [sizesSum]
    have hqaddr : p - pb.fsize = baseAddr + sizesSum pre0 := by omega
    have hchsplit := List.chain'_append.mp hchpre
    have hLC : ∀ x, pre0.getLast? = some x → x.halloc = true := by
      intro x hx
      rcases hchsplit.2.2 x (Option.mem_def.mpr hx) pb (by simp) with h | h
      · exact h
      · rw [hpbh] at h
        cases h
    by_cases hna : nextAllocOf postF = true
    · rw [coalesce_case3 st p pre0 pb fb postF hz hpbf hna]
      dsimp only
      set M : Block := ⟨fb.hsize + pb.hsize, false, fb.hsize + pb.hsize, false,
        pb.body ++ encW (packW pb.fsize pb.falloc) ++
          encW (packW fb.hsize fb.halloc) ++ fb.body⟩ with hM
      obtain ⟨hsl1, hqnot, hsub1⟩ :=
        SeglistsWF_remove st (p - pb.fsize) hsl hpos
      have hfresh1 :
          p ∉ (remove_free_block st (p - pb.fsize)).seglists.flatten :=
        fun h => hfresh (hsub1.subset h)
      have hMsz : M.hsize = fb.hsize + pb.hsize := by rw [hM]
      have hMwf : WFblock M := by
        rw [hM]
        refine ⟨?_, ?_, rfl, rfl, ?_⟩
        · have h1 := hfbwf.1
          have h2 := hpbwf.1
          show (fb.hsize + pb.hsize) % 8 = 0
          omega
        · have h1 := hfbwf.2.1
          show MINIMUM_BLK_SIZE ≤ fb.hsize + pb.hsize
          unfold MINIMUM_BLK_SIZE at h1 ⊢
          omega
        · have h1 := hfbwf.2.2.2.2
          have h2 := hpbwf.2.2.2.2
          show (pb.body ++ encW (packW pb.fsize pb.falloc) ++
            encW (packW fb.hsize fb.halloc) ++ fb.body).length + HEADER_SIZE =
            fb.hsize + pb.hsize
          simp only [List.length_append, encW_length]
          unfold HEADER_SIZE at h1 h2 ⊢
          omega
      have hb1 : (remove_free_block st (p - pb.fsize)).blocks =
          pre0 ++ ([pb, fb] ++ postF) := by
        rw [remove_free_block_blocks, hdec, List.append_assoc]
        rfl
      have hsA : sizesSum [M] = M.hsize := by simp [sizesSum]
      have hsB : sizesSum [pb, fb] = pb.hsize + fb.hsize := by simp [sizesSum]
      have hsum1 : sizesSum [M] = sizesSum [pb, fb] := by omega
      have hkeep : ∀ a c,
          a ∈ (remove_free_block st (p - pb.fsize)).seglists.flatten →
          blockAt (remove_free_block st (p - pb.fsize)) a = some c →
          blockAt { remove_free_block st (p - pb.fsize) with
            blocks := pre0 ++ M :: postF } a = some c := by
        intro a c hmem hc
        refine blockAt_surgery_keep _ _ pre0 [pb, fb] [M] postF hb1 rfl hsum1
          ?_ ?_ a c hc ?_
        · rw [remove_free_block_blocks]
          exact hpos
        · intro x hx
          simp only [List.mem_singleton] at hx
          subst hx
          omega
        · intro α β hmid
          have h0 : sizesSum ([] : List Block) = 0 := by simp [sizesSum]
          have h1 : sizesSum [pb] = pb.hsize := by simp [sizesSum]
          rcases seg2_cases pb fb c α β hmid with ⟨hα, _, _⟩ | ⟨hα, _, _⟩
          · subst hα
            intro heq
            have ha : a = p - pb.fsize := by omega
            rw [ha] at hmem
            exact hqnot hmem
          · subst hα
            intro heq
            have ha : a = p := by omega
            rw [ha] at hmem
            exact hfresh1 hmem
      have hsl2 : SeglistsWF { remove_free_block st (p - pb.fsize) with
          blocks := pre0 ++ M :: postF } :=
        SeglistsWF_surgery _ _ hsl1 rfl hkeep
      have hwf2 : ∀ x ∈ (pre0 ++ M :: postF), WFblock x := by
        intro x hx
        rcases List.mem_append.mp hx with h1 | h1
        · exact hwf x (by rw [hdec]; simp [h1])
        · rcases List.mem_cons.mp h1 with h2 | h2
          · subst h2
            exact hMwf
          · exact hwf x (by rw [hdec]; simp [h2])
      have hch2 : List.Chain' (fun a c => a.halloc = true ∨ c.halloc = true)
          (pre0 ++ M :: postF) := by
        refine chain_mid1 _ pre0 M postF hchsplit.1 hchpost ?_ ?_
        · intro x hx
          exact Or.inl (hLC x (Option.mem_def.mp hx))
        · intro y hy
          refine Or.inr ?_
          unfold nextAllocOf at hna
          rw [Option.mem_def.mp hy] at hna
          exact hna
      have hsum2 : sizesSum (pre0 ++ M :: postF) = sizesSum st.blocks := by
        rw [sizesSum_middle, hdec, sizesSum_middle]
        omega
      have hcap2 : heapEnd (pre0 ++ M :: postF) ≤ MAX_HEAP := by
        unfold heapEnd at hcap ⊢
        omega
      obtain ⟨hinv, hbAt, hblocks⟩ := inv_insert_free
        { remove_free_block st (p - pb.fsize) with
          blocks := pre0 ++ M :: postF }
        (p - pb.fsize) pre0 M postF rfl hqaddr hwf2 hch2 hsl2 hcap2 rfl
        (fun h => hqnot h)
      refine ⟨hinv, ⟨M, hbAt, rfl, ?_⟩, ?_⟩
      · omega
      · rw [hblocks]
        exact hsum2
    · have hna2 : nextAllocOf postF = false := by
        revert hna
        cases nextAllocOf postF <;> simp
      obtain ⟨nb, tail, hpostF, hnbf⟩ := nextAllocOf_false postF hna2
      subst hpostF
      have hnbwf : WFblock nb := hwf nb (by rw [hdec]; simp)
      have hnbpos : 0 < nb.hsize := hpos nb (by rw [hdec]; simp)
      have hnbsz : nb.fsize = nb.hsize := hnbwf.2.2.1
      rw [coalesce_case4 st p pre0 pb fb nb tail hz hpbf hnbf]
      dsimp only
      set M : Block := ⟨fb.hsize + pb.hsize + nb.fsize, false,
        fb.hsize + pb.hsize + nb.fsize, false,
        pb.body ++ encW (packW pb.fsize pb.falloc) ++
          encW (packW fb.hsize fb.halloc) ++ fb.body ++
          encW (packW fb.fsize fb.falloc) ++
          encW (packW nb.hsize nb.halloc) ++ nb.body⟩ with hM
      obtain ⟨hsl1, hqnot1, hsub1⟩ :=
        SeglistsWF_remove st (p - pb.fsize) hsl hpos
      have hpos1 : ∀ x ∈ (remove_free_block st (p - pb.fsize)).blocks,
          0 < x.hsize := by
        rw [remove_free_block_blocks]
        exact hpos
      obtain ⟨hsl2, hnbnot2, hsub2⟩ :=
        SeglistsWF_remove (remove_free_block st (p - pb.fsize))
          (p + fb.hsize) hsl1 hpos1
      have hqnot2 : p - pb.fsize ∉
          (remove_free_block (remove_free_block st (p - pb.fsize))
            (p + fb.hsize)).seglists.flatten :=
        fun h => hqnot1 (hsub2.subset h)
      have hfresh2 : p ∉
          (remove_free_block (remove_free_block st (p - pb.fsize))
            (p + fb.hsize)).seglists.flatten :=
        fun h => hfresh (hsub1.subset (hsub2.subset h))
      have hMsz : M.hsize = fb.hsize + pb.hsize + nb.fsize := by rw [hM]
      have hMwf : WFblock M := by
        rw [hM]
        refine ⟨?_, ?_, rfl, rfl, ?_⟩
        · have h1 := hfbwf.1
          have h2 := hpbwf.1
          have h3 := hnbwf.1
          show (fb.hsize + pb.hsize + nb.fsize) % 8 = 0
          omega
        · have h1 := hfbwf.2.1
          show MINIMUM_BLK_SIZE ≤ fb.hsize + pb.hsize + nb.fsize
          unfold MINIMUM_BLK_SIZE at h1 ⊢
          omega
        · have h1 := hfbwf.2.2.2.2
          have h2 := hpbwf.2.2.2.2
          have h3 := hnbwf.2.2.2.2
          show (pb.body ++ encW (packW pb.fsize pb.falloc) ++
            encW (packW fb.hsize fb.halloc) ++ fb.body ++
            encW (packW fb.fsize fb.falloc) ++
            encW (packW nb.hsize nb.halloc) ++ nb.body).length + HEADER_SIZE =
            fb.hsize + pb.hsize + nb.fsize
          simp only [List.length_append, encW_length]
          unfold HEADER_SIZE at h1 h2 h3 ⊢
          omega
      have hb1 : (remove_free_block (remove_free_block st (p - pb.fsize))
          (p + fb.hsize)).blocks = pre0 ++ ([pb, fb, nb] ++ tail) := by
        rw [remove_free_block_blocks, remove_free_block_blocks, hdec,
          List.append_assoc]
        rfl
      have hsA : sizesSum [M] = M.hsize := by simp [sizesSum]
      have hsB : sizesSum [pb, fb, nb] = pb.hsize + fb.hsize + nb.hsize := by
        simp [sizesSum]
        omega
      have hsum1 : sizesSum [M] = sizesSum [pb, fb, nb] := by omega
      have hkeep : ∀ a c,
          a ∈ (remove_free_block (remove_free_block st (p - pb.fsize))
            (p + fb.hsize)).seglists.flatten →
          blockAt (remove_free_block (remove_free_block st (p - pb.fsize))
            (p + fb.hsize)) a = some c →
          blockAt { remove_free_block (remove_free_block st (p - pb.fsize))
              (p + fb.hsize) with
            blocks := pre0 ++ M :: tail } a = some c := by
        intro a c hmem hc
        refine blockAt_surgery_keep _ _ pre0 [pb, fb, nb] [M] tail hb1 rfl
          hsum1 ?_ ?_ a c hc ?_
        · rw [remove_free_block_blocks, remove_free_block_blocks]
          exact hpos
        · intro x hx
          simp only [List.mem_singleton] at hx
          subst hx
          omega
        · intro α β hmid
          have h0 : sizesSum ([] : List Block) = 0 := by simp [sizesSum]
          have h1 : sizesSum [pb] = pb.hsize := by simp [sizesSum]
          have h2 : sizesSum [pb, fb] = pb.hsize + fb.hsize := by
            simp [sizesSum]
          rcases seg3_cases pb fb nb c α β hmid with
            ⟨hα, _, _⟩ | ⟨hα, _, _⟩ | ⟨hα, _, _⟩
          · subst hα
            intro heq
            have ha : a = p - pb.fsize := by omega
            rw [ha] at hmem
            exact hqnot2 hmem
          · subst hα
            intro heq
            have ha : a = p := by omega
            rw [ha] at hmem
            exact hfresh2 hmem
          · subst hα
            intro heq
            have ha : a = p + fb.hsize := by omega
            rw [ha] at hmem
            exact hnbnot2 hmem
      have hsl3 : SeglistsWF
          { remove_free_block (remove_free_block st (p - pb.fsize))
              (p + fb.hsize) with
            blocks := pre0 ++ M :: tail } :=
        SeglistsWF_surgery _ _ hsl2 rfl hkeep
      have hwf2 : ∀ x ∈ (pre0 ++ M :: tail), WFblock x := by
        intro x hx
        rcases List.mem_append.mp hx with h1 | h1
        · exact hwf x (by rw [hdec]; simp [h1])
        · rcases List.mem_cons.mp h1 with h2 | h2
          · subst h2
            exact hMwf
          · exact hwf x (by rw [hdec]; simp [h2])
      have hch2 : List.Chain' (fun a c => a.halloc = true ∨ c.halloc = true)
          (pre0 ++ M :: tail) := by
        refine chain_mid1 _ pre0 M tail hchsplit.1 hchpost.tail ?_ ?_
        · intro x hx
          exact Or.inl (hLC x (Option.mem_def.mp hx))
        · intro y hy
          rcases (List.chain'_cons'.mp hchpost).1 y hy with h | h
          · rw [hnbf] at h
            cases h
          · exact Or.inr h
      have hsC : sizesSum (nb :: tail) = nb.hsize + sizesSum tail := by
        simp [sizesSum]
      have hsum2 : sizesSum (pre0 ++ M :: tail) = sizesSum st.blocks := by
        rw [sizesSum_middle, hdec, sizesSum_middle]
        omega
      have hcap2 : heapEnd (pre0 ++ M :: tail) ≤ MAX_HEAP := by
        unfold heapEnd at hcap ⊢
        omega
      obtain ⟨hinv, hbAt, hblocks⟩ := inv_insert_free
        { remove_free_block (remove_free_block st (p - pb.fsize))
            (p + fb.hsize) with
          blocks := pre0 ++ M :: tail }
        (p - pb.fsize) pre0 M tail rfl hqaddr hwf2 hch2 hsl3 hcap2 rfl hqnot2
      refine ⟨hinv, ⟨M, hbAt, rfl, ?_⟩, ?_⟩
      · omega
      · rw [hblocks]
        exact hsum2

end Malloc

namespace Malloc

/-- An address that does not resolve is not chained in any list. -/
theorem notin_flatten_of_none (st : AllocState) (hsl : SeglistsWF st)
    (a : Nat) (hnone : blockAt st a = none) :
    a ∉ st.seglists.flatten := by
  intro hmem
  rw [mem_flatten_iff st hsl.1 a] at hmem
  obtain ⟨k, hk, ha⟩ := hmem
  obtain ⟨b', hb', _, _⟩ := hsl.2.1 k hk a ha
  rw [hnone] at hb'
  cases hb'

/-- The address of an allocated block is not chained in any list. -/
theorem alloc_not_chained (st : AllocState) (p : Nat) (b : Block)
    (hsl : SeglistsWF st) (hb : blockAt st p = some b)
    (hal : b.halloc = true) : p ∉ st.seglists.flatten := by
  intro hmem
  rw [mem_flatten_iff st hsl.1 p] at hmem
  obtain ⟨k, hk, ha⟩ := hmem
  obtain ⟨b', hb', hf', _⟩ := hsl.2.1 k hk p ha
  rw [hb] at hb'
  cases hb'
  rw [hal] at hf'
  cases hf'

/-- The heap end (epilogue address) is not chained in any list. -/
theorem heapEnd_notin_flatten (st : AllocState) (hsl : SeglistsWF st)
    (hpos : ∀ x ∈ st.blocks, 0 < x.hsize) :
    heapEnd st.blocks ∉ st.seglists.flatten := by
  intro hmem
  rw [mem_flatten_iff st hsl.1 _] at hmem
  obtain ⟨k, hk, ha⟩ := hmem
  obtain ⟨b', hb', _, _⟩ := hsl.2.1 k hk _ ha
  have hbpos : 0 < b'.hsize := by
    obtain ⟨pre, post, hz⟩ := zip_of_blockAt st _ b' hb'
    obtain ⟨hd, _⟩ := seekZip_sound _ st.blocks baseAddr pre b' post hz
    exact hpos b' (by rw [hd]; simp)
  have := (blockAt_bounds st _ b' hpos hb').2
  omega

/-- `free` at an allocated block restores the invariant and preserves
the heap size. -/
theorem free_inv (st : AllocState) (p : Nat) (b : Block)
    (hinv : Inv st) (hb : blockAt st p = some b) (hal : b.halloc = true) :
    Inv (free st p) ∧ sizesSum (free st p).blocks = sizesSum st.blocks := by
  obtain ⟨hwf, hch, hsl, hcap⟩ := hinv
  have hpos := wf_pos st.blocks hwf
  obtain ⟨pre, post, hz⟩ := zip_of_blockAt st p b hb
  obtain ⟨hdec, haddr⟩ := seekZip_sound p st.blocks baseAddr pre b post hz
  have hbwf : WFblock b := hwf b (by rw [hdec]; simp)
  have hfresh : p ∉ st.seglists.flatten := alloc_not_chained st p b hsl hb hal
  unfold free
  rw [hz]
  dsimp only
  set bF : Block := ⟨b.hsize, false, b.hsize, false, b.body⟩ with hbF
  have hb1 : st.blocks = pre ++ ([b] ++ post) := by
    rw [hdec]
    rfl
  have hsA : sizesSum [bF] = b.hsize := by simp [sizesSum, hbF]
  have hsB : sizesSum [b] = b.hsize := by simp [sizesSum]
  have hkeep : ∀ a c, a ∈ st.seglists.flatten → blockAt st a = some c →
      blockAt { st with blocks := pre ++ bF :: post } a = some c := by
    intro a c hmem hc
    refine blockAt_surgery_keep st _ pre [b] [bF] post hb1 rfl (by omega)
      hpos ?_ a c hc ?_
    · intro x hx
      simp only [List.mem_singleton] at hx
      subst hx
      have := hbwf.2.1
      unfold MINIMUM_BLK_SIZE at this
      show 0 < b.hsize
      omega
    · intro α β hmid
      obtain ⟨hα, _, _⟩ := seg1_cases b c α β hmid
      subst hα
      have h0 : sizesSum ([] : List Block) = 0 := by simp [sizesSum]
      intro heq
      have ha2 : a = p := by omega
      rw [ha2] at hmem
      exact hfresh hmem
  have hsl1 : SeglistsWF { st with blocks := pre ++ bF :: post } :=
    SeglistsWF_surgery st _ hsl rfl hkeep
  have hwf1 : ∀ x ∈ (pre ++ bF :: post), WFblock x := by
    intro x hx
    rcases List.mem_append.mp hx with h1 | h1
    · exact hwf x (by rw [hdec]; exact List.mem_append.mpr (Or.inl h1))
    · rcases List.mem_cons.mp h1 with h2 | h2
      · subst h2
        obtain ⟨w1, w2, _, _, w5⟩ := hbwf
        exact ⟨w1, w2, rfl, rfl, w5⟩
      · exact hwf x (by rw [hdec]; simp [h2])
  have hch2 : List.Chain' (fun a c => a.halloc = true ∨ c.halloc = true)
      (pre ++ b :: post) := by
    rw [hdec] at hch
    exact hch
  have hchsplit := List.chain'_append.mp hch2
  have hsum1 : sizesSum (pre ++ bF :: post) = sizesSum st.blocks := by
    rw [sizesSum_middle, hdec, sizesSum_middle]
  have hres := coalesce_inv { st with blocks := pre ++ bF :: post } p pre bF
    post rfl haddr hwf1 hsl1
    (by unfold heapEnd at hcap ⊢; dsimp only; omega)
    hchsplit.1 hchsplit.2.1.tail rfl rfl hfresh
  exact ⟨hres.1, by rw [hres.2.2]; exact hsum1⟩

end Malloc

namespace Malloc

/-- `place` on a free block of sufficient size restores the invariant;
the chosen address ends up allocated with at least the requested size,
and the heap size is unchanged. -/
theorem place_inv (st : AllocState) (p a_size : Nat) (b : Block)
    (hinv : Inv st) (hb : blockAt st p = some b) (hfree : b.halloc = false)
    (ha8 : a_size % 8 = 0) (ha24 : MINIMUM_BLK_SIZE ≤ a_size)
    (hfit : a_size ≤ b.hsize) :
    Inv (place st p a_size) ∧
    (∃ b1, blockAt (place st p a_size) p = some b1 ∧ b1.halloc = true ∧
      a_size ≤ b1.hsize) ∧
    sizesSum (place st p a_size).blocks = sizesSum st.blocks ∧
    (∀ q c, blockAt st q = some c → c.halloc = true →
      blockAt (place st p a_size) q = some c) := by
  obtain ⟨hwf, hch, hsl, hcap⟩ := hinv
  have hpos := wf_pos st.blocks hwf
  obtain ⟨pre, post, hz⟩ := zip_of_blockAt st p b hb
  obtain ⟨hdec, haddr⟩ := seekZip_sound p st.blocks baseAddr pre b post hz
  have hbwf : WFblock b := hwf b (by rw [hdec]; simp)
  obtain ⟨hsl1, hpnot, hsub1⟩ := SeglistsWF_remove st p hsl hpos
  have hch2 : List.Chain' (fun a c => a.halloc = true ∨ c.halloc = true)
      (pre ++ b :: post) := by
    rw [hdec] at hch
    exact hch
  have hchsplit := List.chain'_append.mp hch2
  have hbmid : st.blocks = pre ++ ([b] ++ post) := by
    rw [hdec]
    rfl
  have hremblocks : (remove_free_block st p).blocks = pre ++ ([b] ++ post) := by
    rw [remove_free_block_blocks]
    exact hbmid
  have hprepos : ∀ x ∈ pre, 0 < x.hsize := fun x hx =>
    hpos x (by rw [hdec]; exact List.mem_append.mpr (Or.inl hx))
  unfold place
  rw [hz]
  dsimp only
  by_cases hsplit : b.hsize - a_size ≥ MINIMUM_BLK_SIZE
  · rw [if_pos hsplit]
    have haf : a_size + 24 ≤ b.hsize := by
      unfold MINIMUM_BLK_SIZE at hsplit
      omega
    set b1 : Block := ⟨a_size, true, a_size, true,
      b.body.take (a_size - HEADER_SIZE)⟩ with hb1d
    set b2 : Block := ⟨b.hsize - a_size, false, b.hsize - a_size, false,
      b.body.drop a_size⟩ with hb2d
    have hb1wf : WFblock b1 := by
      rw [hb1d]
      refine ⟨ha8, ha24, rfl, rfl, ?_⟩
      show (b.body.take (a_size - HEADER_SIZE)).length + HEADER_SIZE = a_size
      have h5 := hbwf.2.2.2.2
      rw [List.length_take]
      unfold HEADER_SIZE at h5 ⊢
      rw [min_eq_left (by omega)]
      unfold MINIMUM_BLK_SIZE at ha24
      omega
    have hb2wf : WFblock b2 := by
      rw [hb2d]
      have h1 := hbwf.1
      have h5 := hbwf.2.2.2.2
      refine ⟨?_, hsplit, rfl, rfl, ?_⟩
      · show (b.hsize - a_size) % 8 = 0
        omega
      · show (b.body.drop a_size).length + HEADER_SIZE = b.hsize - a_size
        rw [List.length_drop]
        unfold HEADER_SIZE at h5 ⊢
        omega
    have hsA : sizesSum [b1, b2] = a_size + (b.hsize - a_size) := by
      simp [sizesSum, hb1d, hb2d]
    have hsB : sizesSum [b] = b.hsize := by simp [sizesSum]
    have hsum1 : sizesSum [b1, b2] = sizesSum [b] := by omega
    have hkeep : ∀ a c, a ∈ (remove_free_block st p).seglists.flatten →
        blockAt (remove_free_block st p) a = some c →
        blockAt { remove_free_block st p with
          blocks := pre ++ b1 :: b2 :: post } a = some c := by
      intro a c hmem hc
      refine blockAt_surgery_keep _ _ pre [b] [b1, b2] post hremblocks rfl
        hsum1 ?_ ?_ a c hc ?_
      · rw [remove_free_block_blocks]
        exact hpos
      · intro x hx
        rcases List.mem_cons.mp hx with h1 | h1
        · subst h1
          show 0 < a_size
          unfold MINIMUM_BLK_SIZE at ha24
          omega
        · simp only [List.mem_singleton] at h1
          subst h1
          show 0 < b.hsize - a_size
          unfold MINIMUM_BLK_SIZE at hsplit
          omega
      · intro α β hmid
        obtain ⟨hα, _, _⟩ := seg1_cases b c α β hmid
        subst hα
        have h0 : sizesSum ([] : List Block) = 0 := by simp [sizesSum]
        intro heq
        have ha2 : a = p := by omega
        rw [ha2] at hmem
        exact hpnot hmem
    have hsl2 : SeglistsWF { remove_free_block st p with
        blocks := pre ++ b1 :: b2 :: post } :=
      SeglistsWF_surgery _ _ hsl1 rfl hkeep
    have hwf2 : ∀ x ∈ (pre ++ b1 :: b2 :: post), WFblock x := by
      intro x hx
      rcases List.mem_append.mp hx with h1 | h1
      · exact hwf x (by rw [hdec]; exact List.mem_append.mpr (Or.inl h1))
      · rcases List.mem_cons.mp h1 with h2 | h2
        · subst h2
          exact hb1wf
        · rcases List.mem_cons.mp h2 with h3 | h3
          · subst h3
            exact hb2wf
          · exact hwf x (by rw [hdec]; simp [h3])
    have hchB : List.Chain' (fun a c => a.halloc = true ∨ c.halloc = true)
        (pre ++ b1 :: b2 :: post) := by
      refine chain_mid1 _ pre b1 (b2 :: post) hchsplit.1 ?_ ?_ ?_
      · rw [List.chain'_cons']
        constructor
        · intro y hy
          rcases (List.chain'_cons'.mp hchsplit.2.1).1 y hy with h | h
          · rw [hfree] at h
            cases h
          · exact Or.inr h
        · exact hchsplit.2.1.tail
      · intro x hx
        exact Or.inr rfl
      · intro y hy
        exact Or.inl rfl
    have hx1 : sizesSum (pre ++ b1 :: b2 :: post) =
        sizesSum pre + b1.hsize + sizesSum (b2 :: post) :=
      sizesSum_middle pre b1 (b2 :: post)
    have hx2 : sizesSum (b2 :: post) = b2.hsize + sizesSum post := by
      simp [sizesSum]
    have hx3 : sizesSum st.blocks = sizesSum pre + b.hsize + sizesSum post := by
      rw [hdec]
      exact sizesSum_middle pre b post
    have hx4 : b1.hsize = a_size := by rw [hb1d]
    have hx5 : b2.hsize = b.hsize - a_size := by rw [hb2d]
    have hsum2 : sizesSum (pre ++ b1 :: b2 :: post) = sizesSum st.blocks := by
      omega
    have hnone : blockAt (remove_free_block st p) (p + a_size) = none := by
      refine blockAt_none_inside _ pre b post ?_ ?_ (p + a_size) ?_ ?_
      · rw [remove_free_block_blocks]
        exact hdec
      · rw [remove_free_block_blocks]
        exact hpos
      · unfold MINIMUM_BLK_SIZE at ha24
        omega
      · omega
    have hfreshm : (p + a_size) ∉ (remove_free_block st p).seglists.flatten :=
      notin_flatten_of_none _ hsl1 _ hnone
    have hdecC : ({ remove_free_block st p with
        blocks := pre ++ b1 :: b2 :: post } : AllocState).blocks =
        (pre ++ [b1]) ++ b2 :: post := by
      dsimp only
      rw [List.append_assoc]
      rfl
    have hsPre1 : sizesSum (pre ++ [b1]) = sizesSum pre + b1.hsize := by
      rw [sizesSum_append]
      simp [sizesSum]
    have haddrC : p + a_size = baseAddr + sizesSum (pre ++ [b1]) := by omega
    have hchpreC : List.Chain' (fun a c => a.halloc = true ∨ c.halloc = true)
        (pre ++ [b1]) := by
      rw [List.chain'_append]
      refine ⟨hchsplit.1, List.chain'_singleton _, ?_⟩
      intro x hx y hy
      simp only [List.head?_cons, Option.mem_def, Option.some.injEq] at hy
      subst hy
      exact Or.inr rfl
    have hcapC : heapEnd (pre ++ b1 :: b2 :: post) ≤ MAX_HEAP := by
      unfold heapEnd at hcap ⊢
      omega
    have hres := coalesce_inv { remove_free_block st p with
        blocks := pre ++ b1 :: b2 :: post } (p + a_size) (pre ++ [b1]) b2 post
      hdecC haddrC hwf2 hsl2 hcapC hchpreC hchsplit.2.1.tail rfl rfl hfreshm
    have hqB : blockAt { remove_free_block st p with
        blocks := pre ++ b1 :: b2 :: post } p = some b1 := by
      rw [haddr]
      exact blockAt_of_decomp _ pre b1 (b2 :: post) rfl hprepos
    have hstab := blockAt_coalesce_other { remove_free_block st p with
        blocks := pre ++ b1 :: b2 :: post } (p + a_size) p b1 (pre ++ [b1])
      b2 post hdecC haddrC (wf_pos _ hwf2) hwf2 rfl hqB rfl
    refine ⟨hres.1, ⟨b1, hstab, rfl, ?_⟩, ?_, ?_⟩
    · omega
    · rw [hres.2.2]
      exact hsum2
    · intro q c hq hcal
      have hmidfree : ∀ x ∈ [b], x.halloc = false := by
        intro x hx
        simp only [List.mem_singleton] at hx
        subst hx
        exact hfree
      have hout := pos_out_of_free_mid st pre [b] post hbmid hpos q c hq hcal
        hmidfree
      have hq1 : blockAt (remove_free_block st p) q = some c := by
        rw [blockAt_congr (remove_free_block st p) st q
          (remove_free_block_blocks st p)]
        exact hq
      have hq2 : blockAt { remove_free_block st p with
          blocks := pre ++ b1 :: b2 :: post } q = some c := by
        refine blockAt_surgery (remove_free_block st p) _ pre [b] [b1, b2]
          post hremblocks rfl hsum1 ?_ ?_ q c hq1 hout
        · intro x hx
          simp only [List.mem_singleton] at hx
          rw [hx]
          have := hbwf.2.1
          unfold MINIMUM_BLK_SIZE at this
          omega
        · intro x hx
          rcases List.mem_cons.mp hx with h1 | h1
          · subst h1
            show 0 < a_size
            unfold MINIMUM_BLK_SIZE at ha24
            omega
          · simp only [List.mem_singleton] at h1
            subst h1
            show 0 < b.hsize - a_size
            unfold MINIMUM_BLK_SIZE at hsplit
            omega
      exact blockAt_coalesce_other _ (p + a_size) q c (pre ++ [b1]) b2 post
        hdecC haddrC (wf_pos _ hwf2) hwf2 rfl hq2 hcal
  · rw [if_neg hsplit]
    set bA : Block := ⟨b.hsize, true, b.hsize, true, b.body⟩ with hbAd
    have hbAwf : WFblock bA := by
      rw [hbAd]
      obtain ⟨w1, w2, _, _, w5⟩ := hbwf
      exact ⟨w1, w2, rfl, rfl, w5⟩
    have hsA : sizesSum [bA] = sizesSum [b] := by simp [sizesSum, hbAd]
    have hkeep : ∀ a c, a ∈ (remove_free_block st p).seglists.flatten →
        blockAt (remove_free_block st p) a = some c →
        blockAt { remove_free_block st p with
          blocks := pre ++ bA :: post } a = some c := by
      intro a c hmem hc
      refine blockAt_surgery_keep _ _ pre [b] [bA] post hremblocks rfl hsA
        ?_ ?_ a c hc ?_
      · rw [remove_free_block_blocks]
        exact hpos
      · intro x hx
        simp only [List.mem_singleton] at hx
        subst hx
        show 0 < b.hsize
        have := hbwf.2.1
        unfold MINIMUM_BLK_SIZE at this
        omega
      · intro α β hmid
        obtain ⟨hα, _, _⟩ := seg1_cases b c α β hmid
        subst hα
        have h0 : sizesSum ([] : List Block) = 0 := by simp [sizesSum]
        intro heq
        have ha2 : a = p := by omega
        rw [ha2] at hmem
        exact hpnot hmem
    have hsl2 : SeglistsWF { remove_free_block st p with
        blocks := pre ++ bA :: post } :=
      SeglistsWF_surgery _ _ hsl1 rfl hkeep
    have hwf2 : ∀ x ∈ (pre ++ bA :: post), WFblock x := by
      intro x hx
      rcases List.mem_append.mp hx with h1 | h1
      · exact hwf x (by rw [hdec]; exact List.mem_append.mpr (Or.inl h1))
      · rcases List.mem_cons.mp h1 with h2 | h2
        · subst h2
          exact hbAwf
        · exact hwf x (by rw [hdec]; simp [h2])
    have hchB : List.Chain' (fun a c => a.halloc = true ∨ c.halloc = true)
        (pre ++ bA :: post) := by
      refine chain_mid1 _ pre bA post hchsplit.1 hchsplit.2.1.tail ?_ ?_
      · intro x hx
        exact Or.inr rfl
      · intro y hy
        exact Or.inl rfl
    have hsum2 : sizesSum (pre ++ bA :: post) = sizesSum st.blocks := by
      rw [sizesSum_middle, hdec, sizesSum_middle]
    have hcapB : heapEnd (pre ++ bA :: post) ≤ MAX_HEAP := by
      unfold heapEnd at hcap ⊢
      omega
    have hqB : blockAt { remove_free_block st p with
        blocks := pre ++ bA :: post } p = some bA := by
      rw [haddr]
      exact blockAt_of_decomp _ pre bA post rfl hprepos
    refine ⟨⟨hwf2, hchB, hsl2, hcapB⟩, ⟨bA, hqB, rfl, hfit⟩, hsum2, ?_⟩
    intro q c hq hcal
    have hmidfree : ∀ x ∈ [b], x.halloc = false := by
      intro x hx
      simp only [List.mem_singleton] at hx
      subst hx
      exact hfree
    have hout := pos_out_of_free_mid st pre [b] post hbmid hpos q c hq hcal
      hmidfree
    have hq1 : blockAt (remove_free_block st p) q = some c := by
      rw [blockAt_congr (remove_free_block st p) st q
        (remove_free_block_blocks st p)]
      exact hq
    refine blockAt_surgery (remove_free_block st p) _ pre [b] [bA] post
      hremblocks rfl hsA ?_ ?_ q c hq1 hout
    · intro x hx
      simp only [List.mem_singleton] at hx
      rw [hx]
      have := hbwf.2.1
      unfold MINIMUM_BLK_SIZE at this
      omega
    · intro x hx
      simp only [List.mem_singleton] at hx
      rw [hx]
      show 0 < b.hsize
      have h6 := hbwf.2.1
      unfold MINIMUM_BLK_SIZE at h6
      omega

end Malloc

namespace Malloc

/-- A successful `extend_heap` restores the invariant: the returned
address resolves to a free block at least as large as the (rounded,
clamped) request, and the heap grows by exactly that amount. -/
theorem extend_heap_inv (st : AllocState) (g : Bool) (w : Nat)
    (hinv : Inv st) (st1 : AllocState) (bp : Nat)
    (hext : extend_heap st g w = some (st1, bp)) :
    ∃ size, size % 8 = 0 ∧ MINIMUM_BLK_SIZE ≤ size ∧ w * WSIZE ≤ size ∧
    Inv st1 ∧
    (∃ fb', blockAt st1 bp = some fb' ∧ fb'.halloc = false ∧
      size ≤ fb'.hsize) ∧
    sizesSum st1.blocks = sizesSum st.blocks + size ∧
    (∀ q c, blockAt st q = some c → c.halloc = true →
      blockAt st1 q = some c) := by
  obtain ⟨hwf, hch, hsl, hcap⟩ := hinv
  have hpos := wf_pos st.blocks hwf
  unfold extend_heap at hext
  dsimp only at hext
  by_cases hcond : g = true ∧ heapEnd st.blocks +
      (if (if w % 2 = 1 then (w + 1) * WSIZE else w * WSIZE) <
          MINIMUM_BLK_SIZE then MINIMUM_BLK_SIZE
        else if w % 2 = 1 then (w + 1) * WSIZE else w * WSIZE) ≤ MAX_HEAP
  · rw [if_pos hcond] at hext
    simp only [Option.some.injEq] at hext
    set S : Nat := (if (if w % 2 = 1 then (w + 1) * WSIZE else w * WSIZE) <
        MINIMUM_BLK_SIZE then MINIMUM_BLK_SIZE
      else if w % 2 = 1 then (w + 1) * WSIZE else w * WSIZE) with hS
    have hSprops : S % 8 = 0 ∧ MINIMUM_BLK_SIZE ≤ S ∧ w * WSIZE ≤ S := by
      rw [hS]
      unfold WSIZE MINIMUM_BLK_SIZE
      by_cases h2 : w % 2 = 1
      · simp only [if_pos h2]
        by_cases h3 : (w + 1) * 4 < 24
        · simp only [if_pos h3]
          exact ⟨trivial, by omega, by omega⟩
        · simp only [if_neg h3]
          omega
      · simp only [if_neg h2]
        by_cases h3 : w * 4 < 24
        · simp only [if_pos h3]
          exact ⟨trivial, by omega, by omega⟩
        · simp only [if_neg h3]
          omega
    set nb : Block := ⟨S, false, S, false,
      List.replicate (S - HEADER_SIZE) 0⟩ with hnb
    have hnbwf : WFblock nb := by
      rw [hnb]
      refine ⟨hSprops.1, hSprops.2.1, rfl, rfl, ?_⟩
      show (List.replicate (S - HEADER_SIZE) 0).length + HEADER_SIZE = S
      rw [List.length_replicate]
      have h24 := hSprops.2.1
      unfold MINIMUM_BLK_SIZE at h24
      unfold HEADER_SIZE
      omega
    have hwfA : ∀ x ∈ (st.blocks ++ [nb]), WFblock x := by
      intro x hx
      rcases List.mem_append.mp hx with h1 | h1
      · exact hwf x h1
      · simp only [List.mem_singleton] at h1
        subst h1
        exact hnbwf
    have hslA : SeglistsWF { st with blocks := st.blocks ++ [nb] } :=
      SeglistsWF_surgery st _ hsl rfl
        (fun a c _ hc => blockAt_append_right st _ [nb] rfl a c hc)
    have hsumA : sizesSum (st.blocks ++ [nb]) = sizesSum st.blocks + S := by
      rw [sizesSum_append]
      have h1 : sizesSum [nb] = S := by simp [sizesSum, hnb]
      omega
    have hcapA : heapEnd (st.blocks ++ [nb]) ≤ MAX_HEAP := by
      unfold heapEnd at hcond ⊢
      omega
    have hfreshA : heapEnd st.blocks ∉
        ({ st with blocks := st.blocks ++ [nb] } : AllocState).seglists.flatten
        := heapEnd_notin_flatten st hsl hpos
    have hres := coalesce_inv { st with blocks := st.blocks ++ [nb] }
      (heapEnd st.blocks) st.blocks nb [] rfl rfl hwfA hslA hcapA hch
      List.chain'_nil rfl rfl hfreshA
    obtain ⟨hinv1, ⟨fb', hfb1, hfb2, hfb3⟩, hsum1⟩ := hres
    rw [hext] at hinv1 hfb1 hsum1
    dsimp only at hinv1 hfb1 hsum1
    have hnbsz : nb.hsize = S := by rw [hnb]
    refine ⟨S, hSprops.1, hSprops.2.1, hSprops.2.2, hinv1,
      ⟨fb', hfb1, hfb2, by omega⟩, by omega, ?_⟩
    intro q c hq hcal
    have hq1 : blockAt { st with blocks := st.blocks ++ [nb] } q = some c :=
      blockAt_append_right st _ [nb] rfl q c hq
    have hstab := blockAt_coalesce_other { st with
        blocks := st.blocks ++ [nb] } (heapEnd st.blocks) q c st.blocks nb []
      rfl rfl (wf_pos _ hwfA) hwfA rfl hq1 hcal
    rw [hext] at hstab
    dsimp only at hstab
    exact hstab
  · rw [if_neg hcond] at hext
    cases hext

/-- When `malloc` returns `NULL` the state is unchanged. -/
theorem malloc_none_eq (st : AllocState) (g : Bool) (n : Nat)
    (st1 : AllocState) (hm : malloc st g n = (st1, none)) : st1 = st := by
  unfold malloc at hm
  by_cases hn : n = 0
  · rw [if_pos hn] at hm
    injection hm with h1 _
    exact h1.symm
  · rw [if_neg hn] at hm
    dsimp only at hm
    rcases hff : find_fit st (malloc_adjust n) with _ | bp
    · rw [hff] at hm
      dsimp only at hm
      rcases hext : extend_heap st g
          (max (malloc_adjust n) CHUNKSIZE / WSIZE) with _ | ⟨stE, bpE⟩
      · rw [hext] at hm
        injection hm with h1 _
        exact h1.symm
      · rw [hext] at hm
        dsimp only at hm
        injection hm with _ h2
        exact Option.noConfusion h2
    · rw [hff] at hm
      dsimp only at hm
      injection hm with _ h2
      exact Option.noConfusion h2

/-- A successful `malloc` restores the invariant and its result
resolves to an allocated block of at least the adjusted size. -/
theorem malloc_inv (st : AllocState) (g : Bool) (n : Nat) (hinv : Inv st)
    (st1 : AllocState) (np : Nat)
    (hm : malloc st g n = (st1, some np)) :
    Inv st1 ∧ (∃ nb, blockAt st1 np = some nb ∧ nb.halloc = true ∧
      malloc_adjust n ≤ nb.hsize) ∧
    (∀ q c, blockAt st q = some c → c.halloc = true →
      blockAt st1 q = some c) := by
  have haprops := malloc_adjust_props n
  unfold malloc at hm
  by_cases hn : n = 0
  · rw [if_pos hn] at hm
    injection hm with _ h2
    exact Option.noConfusion h2
  · rw [if_neg hn] at hm
    dsimp only at hm
    rcases hff : find_fit st (malloc_adjust n) with _ | bp
    · rw [hff] at hm
      dsimp only at hm
      rcases hext : extend_heap st g
          (max (malloc_adjust n) CHUNKSIZE / WSIZE) with _ | ⟨stE, bpE⟩
      · rw [hext] at hm
        injection hm with _ h2
        exact Option.noConfusion h2
      · rw [hext] at hm
        dsimp only at hm
        injection hm with h1 h2
        injection h2 with h2
        subst h1
        subst h2
        obtain ⟨S, hS8, hS24, hSge, hinvE, ⟨fb', hfbAt, hfbFree, hfbSz⟩,
          hsumE, hstabE⟩ := extend_heap_inv st g _ ⟨hinv.1, hinv.2.1,
            hinv.2.2.1, hinv.2.2.2⟩ stE bpE hext
        have hdvd : (max (malloc_adjust n) CHUNKSIZE / WSIZE) * WSIZE =
            max (malloc_adjust n) CHUNKSIZE := by
          unfold WSIZE CHUNKSIZE
          have h8 := haprops.2
          omega
        have hale : malloc_adjust n ≤ S := by
          have h1 : malloc_adjust n ≤ max (malloc_adjust n) CHUNKSIZE :=
            Nat.le_max_left _ _
          omega
        have hres := place_inv stE bpE (malloc_adjust n) fb' hinvE hfbAt
          hfbFree haprops.2 haprops.1 (Nat.le_trans hale hfbSz)
        exact ⟨hres.1, hres.2.1, fun q c hq hcal =>
          hres.2.2.2 q c (hstabE q c hq hcal) hcal⟩
    · rw [hff] at hm
      dsimp only at hm
      injection hm with h1 h2
      injection h2 with h2
      subst h1
      subst h2
      obtain ⟨bf, hbf, hbfree, hbfit⟩ := find_fit_sound st _ bp hff
      have hres := place_inv st bp (malloc_adjust n) bf hinv hbf hbfree
        haprops.2 haprops.1 hbfit
      exact ⟨hres.1, hres.2.1, hres.2.2.2⟩

end Malloc

namespace Malloc

/-- The copy fallback of `realloc`: a fresh `malloc`, a copy of the old
payload capacity into the new block, and a `free` of the old block keep
the invariant, and the new address holds the old payload bytes. -/
theorem realloc_copy_some (st stM : AllocState) (g : Bool) (p size np : Nat)
    (b : Block) (hinv : Inv st) (hb : blockAt st p = some b)
    (hal : b.halloc = true) (hgt : b.hsize < realloc_adjust size)
    (hm : malloc st g size = (stM, some np)) :
    ∃ pre2 nb2 post2,
      seekZip np baseAddr stM.blocks = some (pre2, nb2, post2) ∧
      Inv (free { stM with blocks := pre2 ++
        ⟨nb2.hsize, nb2.halloc, nb2.fsize, nb2.falloc,
          b.body.take (b.hsize - HEADER_SIZE) ++
          nb2.body.drop (b.hsize - HEADER_SIZE)⟩ :: post2 } p) ∧
      (∃ b1, blockAt (free { stM with blocks := pre2 ++
          ⟨nb2.hsize, nb2.halloc, nb2.fsize, nb2.falloc,
            b.body.take (b.hsize - HEADER_SIZE) ++
            nb2.body.drop (b.hsize - HEADER_SIZE)⟩ :: post2 } p) np =
          some b1 ∧ b1.halloc = true ∧
        b1.body.take (min (b.hsize - HEADER_SIZE) size) =
          b.body.take (min (b.hsize - HEADER_SIZE) size)) := by
  obtain ⟨hinvM, ⟨nb2, hnb2At, hnb2Al, hnb2Sz⟩, hstabM⟩ :=
    malloc_inv st g size hinv stM np hm
  have hbwf : WFblock b := by
    obtain ⟨prex, postx, hzx⟩ := zip_of_blockAt st p b hb
    obtain ⟨hdx, _⟩ := seekZip_sound p st.blocks baseAddr prex b postx hzx
    exact hinv.1 b (by rw [hdx]; simp)
  have hbM : blockAt stM p = some b := hstabM p b hb hal
  have hpne : np ≠ p := by
    have hne := malloc_result_ne st g size p b hinv hb hal
    rw [hm] at hne
    dsimp only at hne
    intro hcontra
    rw [hcontra] at hne
    exact hne rfl
  obtain ⟨hwfM, hchM, hslM, hcapM⟩ := hinvM
  have hposM := wf_pos stM.blocks hwfM
  obtain ⟨pre2, post2, hz2⟩ := zip_of_blockAt stM np nb2 hnb2At
  obtain ⟨hdec2, haddr2⟩ := seekZip_sound np stM.blocks baseAddr pre2 nb2
    post2 hz2
  have hnb2wf : WFblock nb2 := hwfM nb2 (by rw [hdec2]; simp)
  have hnpnot : np ∉ stM.seglists.flatten :=
    alloc_not_chained stM np nb2 hslM hnb2At hnb2Al
  have hranew := realloc_adjust_props size
  have hmaeq := malloc_adjust_eq_realloc_adjust size
  set U : Block := ⟨nb2.hsize, nb2.halloc, nb2.fsize, nb2.falloc,
    b.body.take (b.hsize - HEADER_SIZE) ++
    nb2.body.drop (b.hsize - HEADER_SIZE)⟩ with hU
  have hlenb : b.body.length + HEADER_SIZE = b.hsize := hbwf.2.2.2.2
  have hlennb2 : nb2.body.length + HEADER_SIZE = nb2.hsize := hnb2wf.2.2.2.2
  have hple : b.hsize - HEADER_SIZE ≤ b.body.length := by
    unfold HEADER_SIZE at hlenb ⊢
    omega
  have hUwf : WFblock U := by
    rw [hU]
    refine ⟨hnb2wf.1, hnb2wf.2.1, hnb2wf.2.2.1, hnb2wf.2.2.2.1, ?_⟩
    show (b.body.take (b.hsize - HEADER_SIZE) ++
      nb2.body.drop (b.hsize - HEADER_SIZE)).length + HEADER_SIZE = nb2.hsize
    rw [List.length_append, List.length_take, List.length_drop,
      min_eq_left hple]
    unfold HEADER_SIZE at hlenb hlennb2 ⊢
    unfold MINIMUM_BLK_SIZE at hranew
    omega
  have hmid : stM.blocks = pre2 ++ ([nb2] ++ post2) := by
    rw [hdec2]
    rfl
  have hsU : sizesSum [U] = sizesSum [nb2] := by
    simp [sizesSum, hU]
  have hkeep : ∀ a c, a ∈ stM.seglists.flatten →
      blockAt stM a = some c →
      blockAt { stM with blocks := pre2 ++ U :: post2 } a = some c := by
    intro a c hmem hc
    refine blockAt_surgery_keep stM _ pre2 [nb2] [U] post2 hmid rfl hsU
      hposM ?_ a c hc ?_
    · intro x hx
      simp only [List.mem_singleton] at hx
      rw [hx]
      show 0 < nb2.hsize
      have := hnb2wf.2.1
      unfold MINIMUM_BLK_SIZE at this
      omega
    · intro α β hmidd
      obtain ⟨hα, _, _⟩ := seg1_cases nb2 c α β hmidd
      subst hα
      have h0 : sizesSum ([] : List Block) = 0 := by simp [sizesSum]
      intro heq2
      have ha2 : a = np := by omega
      rw [ha2] at hmem
      exact hnpnot hmem
  have hsl2 : SeglistsWF { stM with blocks := pre2 ++ U :: post2 } :=
    SeglistsWF_surgery stM _ hslM rfl hkeep
  have hwf2 : ∀ x ∈ (pre2 ++ U :: post2), WFblock x := by
    intro x hx
    rcases List.mem_append.mp hx with h1 | h1
    · exact hwfM x (by rw [hdec2]; exact List.mem_append.mpr (Or.inl h1))
    · rcases List.mem_cons.mp h1 with h2 | h2
      · subst h2
        exact hUwf
      · exact hwfM x (by rw [hdec2]; simp [h2])
  have hchM2 : List.Chain' (fun a c => a.halloc = true ∨ c.halloc = true)
      (pre2 ++ nb2 :: post2) := by
    rw [hdec2] at hchM
    exact hchM
  have hchsplit2 := List.chain'_append.mp hchM2
  have hch2 : List.Chain' (fun a c => a.halloc = true ∨ c.halloc = true)
      (pre2 ++ U :: post2) := by
    refine chain_mid1 _ pre2 U post2 hchsplit2.1 hchsplit2.2.1.tail ?_ ?_
    · intro x hx
      refine Or.inr ?_
      show nb2.halloc = true
      exact hnb2Al
    · intro y hy
      refine Or.inl ?_
      show nb2.halloc = true
      exact hnb2Al
  have hsum2 : sizesSum (pre2 ++ U :: post2) = sizesSum stM.blocks := by
    rw [sizesSum_middle, hdec2, sizesSum_middle]
  have hcap2 : heapEnd (pre2 ++ U :: post2) ≤ MAX_HEAP := by
    unfold heapEnd at hcapM ⊢
    omega
  have hinv2 : Inv { stM with blocks := pre2 ++ U :: post2 } :=
    ⟨hwf2, hch2, hsl2, hcap2⟩
  have hbM2 : blockAt { stM with blocks := pre2 ++ U :: post2 } p = some b := by
    refine blockAt_surgery_keep stM _ pre2 [nb2] [U] post2 hmid rfl hsU
      hposM ?_ p b hbM ?_
    · intro x hx
      simp only [List.mem_singleton] at hx
      rw [hx]
      show 0 < nb2.hsize
      have := hnb2wf.2.1
      unfold MINIMUM_BLK_SIZE at this
      omega
    · intro α β hmidd
      obtain ⟨hα, _, _⟩ := seg1_cases nb2 b α β hmidd
      subst hα
      have h0 : sizesSum ([] : List Block) = 0 := by simp [sizesSum]
      intro heq2
      exact hpne (by omega)
  have hUAt : blockAt { stM with blocks := pre2 ++ U :: post2 } np = some U :=
    by
    rw [haddr2]
    refine blockAt_of_decomp _ pre2 U post2 rfl ?_
    intro x hx
    exact hposM x (by rw [hdec2]; exact List.mem_append.mpr (Or.inl hx))
  have hfree := free_inv { stM with blocks := pre2 ++ U :: post2 } p b hinv2
    hbM2 hal
  have hUafter : blockAt (free { stM with blocks := pre2 ++ U :: post2 } p)
      np = some U :=
    blockAt_free_other _ p np U hwf2 hUAt hnb2Al hpne
  refine ⟨pre2, nb2, post2, hz2, hfree.1, U, hUafter, hnb2Al, ?_⟩
  rw [hU]
  show (b.body.take (b.hsize - HEADER_SIZE) ++
    nb2.body.drop (b.hsize - HEADER_SIZE)).take
      (min (b.hsize - HEADER_SIZE) size) = _
  rw [List.take_append_of_le_length]
  · rw [List.take_take]
    rw [min_eq_left (Nat.min_le_left _ _)]
  · rw [List.length_take, min_eq_left hple]
    exact Nat.min_le_left _ _

end Malloc

namespace Malloc

/-- `realloc` at an allocated pointer with a positive size keeps the
allocator invariant, and whenever it returns an address, that address
holds an allocated block whose first `min(old_payload, size)` bytes are
the old block's. -/
theorem realloc_ptr_spec (st : AllocState) (g : Bool) (p size : Nat)
    (b : Block) (hinv : Inv st) (hb : blockAt st p = some b)
    (hal : b.halloc = true) (hs0 : ¬ size = 0) :
    Inv (realloc st g (some p) size).1 ∧
    (∀ q, (realloc st g (some p) size).2 = some q →
      ∃ b1, blockAt (realloc st g (some p) size).1 q = some b1 ∧
        b1.halloc = true ∧
        b1.body.take (min (b.hsize - HEADER_SIZE) size) =
          b.body.take (min (b.hsize - HEADER_SIZE) size)) := by
  obtain ⟨pre, post, hz⟩ := zip_of_blockAt st p b hb
  obtain ⟨hdec, haddr⟩ := seekZip_sound p st.blocks baseAddr pre b post hz
  have hwf := hinv.1
  have hch := hinv.2.1
  have hsl := hinv.2.2.1
  have hcap := hinv.2.2.2
  have hpos := wf_pos st.blocks hwf
  have hbwf : WFblock b := hwf b (by rw [hdec]; simp)
  have hprepos : ∀ x ∈ pre, 0 < x.hsize := fun x hx =>
    hpos x (by rw [hdec]; exact List.mem_append.mpr (Or.inl hx))
  have hpnot : p ∉ st.seglists.flatten := alloc_not_chained st p b hsl hb hal
  have hraprops := realloc_adjust_props size
  have hble : b.body.length + HEADER_SIZE = b.hsize := hbwf.2.2.2.2
  have hmle : min (b.hsize - HEADER_SIZE) size ≤ b.hsize - HEADER_SIZE :=
    Nat.min_le_left _ _
  have hmnew : min (b.hsize - HEADER_SIZE) size ≤
      realloc_adjust size - HEADER_SIZE := by
    have hmr := Nat.min_le_right (b.hsize - HEADER_SIZE) size
    unfold realloc_adjust MINIMUM_PAYLOAD_SIZE MINIMUM_BLK_SIZE HEADER_SIZE
      at *
    by_cases h : size ≤ 16
    · rw [if_pos h]
      omega
    · rw [if_neg h]
      omega
  have hchfull : List.Chain' (fun a c => a.halloc = true ∨ c.halloc = true)
      (pre ++ b :: post) := by
    rw [hdec] at hch
    exact hch
  have hchsplit := List.chain'_append.mp hchfull
  by_cases heq : realloc_adjust size = b.hsize
  · have hre : realloc st g (some p) size = (st, some p) := by
      unfold realloc
      rw [if_neg hs0]
      dsimp only
      rw [hz]
      dsimp only
      rw [if_pos heq]
    rw [hre]
    refine ⟨⟨hwf, hch, hsl, hcap⟩, ?_⟩
    intro q hq2
    dsimp only at hq2
    injection hq2 with hq2
    subst hq2
    exact ⟨b, hb, hal, rfl⟩
  · by_cases hlt2 : realloc_adjust size < b.hsize
    · by_cases hsp : b.hsize - realloc_adjust size ≥ MINIMUM_BLK_SIZE
      · have hre : realloc st g (some p) size =
            ((coalesce { st with blocks := pre ++
              (⟨realloc_adjust size, true, realloc_adjust size, true,
                b.body.take (realloc_adjust size - HEADER_SIZE)⟩ : Block) ::
              (⟨b.hsize - realloc_adjust size, false,
                b.hsize - realloc_adjust size, false,
                b.body.drop (realloc_adjust size)⟩ : Block) :: post }
              (p + realloc_adjust size)).1, some p) := by
          unfold realloc
          rw [if_neg hs0]
          dsimp only
          rw [hz]
          dsimp only
          rw [if_neg heq]
          try dsimp only
          rw [if_pos hlt2]
          try dsimp only
          rw [if_pos hsp]
        rw [hre]
        set B1 : Block := ⟨realloc_adjust size, true, realloc_adjust size,
          true, b.body.take (realloc_adjust size - HEADER_SIZE)⟩ with hB1
        set B2 : Block := ⟨b.hsize - realloc_adjust size, false,
          b.hsize - realloc_adjust size, false,
          b.body.drop (realloc_adjust size)⟩ with hB2
        have hB1wf : WFblock B1 := by
          rw [hB1]
          refine ⟨hraprops.2, hraprops.1, rfl, rfl, ?_⟩
          show (b.body.take (realloc_adjust size - HEADER_SIZE)).length +
            HEADER_SIZE = realloc_adjust size
          rw [List.length_take]
          have h24 := hraprops.1
          unfold MINIMUM_BLK_SIZE at h24
          unfold HEADER_SIZE at hble ⊢
          rw [min_eq_left (by omega)]
          omega
        have hB2wf : WFblock B2 := by
          rw [hB2]
          have h1 := hbwf.1
          have h8 := hraprops.2
          refine ⟨?_, hsp, rfl, rfl, ?_⟩
          · show (b.hsize - realloc_adjust size) % 8 = 0
            omega
          · show (b.body.drop (realloc_adjust size)).length + HEADER_SIZE =
              b.hsize - realloc_adjust size
            rw [List.length_drop]
            unfold MINIMUM_BLK_SIZE at hsp
            unfold HEADER_SIZE at hble ⊢
            omega
        have hbmid : st.blocks = pre ++ ([b] ++ post) := by
          rw [hdec]
          rfl
        have hsA : sizesSum [B1, B2] =
            realloc_adjust size + (b.hsize - realloc_adjust size) := by
          simp [sizesSum, hB1, hB2]
        have hsB : sizesSum [b] = b.hsize := by simp [sizesSum]
        have hsum1 : sizesSum [B1, B2] = sizesSum [b] := by omega
        have hposm1 : ∀ x ∈ [B1, B2], 0 < x.hsize := by
          intro x hx
          have h24 := hraprops.1
          unfold MINIMUM_BLK_SIZE at h24 hsp
          rcases List.mem_cons.mp hx with h1 | h1
          · rw [h1]
            show 0 < realloc_adjust size
            omega
          · simp only [List.mem_singleton] at h1
            rw [h1]
            show 0 < b.hsize - realloc_adjust size
            omega
        have hkeep : ∀ a c, a ∈ st.seglists.flatten →
            blockAt st a = some c →
            blockAt { st with blocks := pre ++ B1 :: B2 :: post } a =
              some c := by
          intro a c hmem hc
          refine blockAt_surgery_keep st _ pre [b] [B1, B2] post hbmid rfl
            hsum1 hpos hposm1 a c hc ?_
          intro α β hmid
          obtain ⟨hα, _, _⟩ := seg1_cases b c α β hmid
          subst hα
          have h0 : sizesSum ([] : List Block) = 0 := by simp [sizesSum]
          intro heq2
          have ha2 : a = p := by omega
          rw [ha2] at hmem
          exact hpnot hmem
        have hsl2 : SeglistsWF { st with blocks := pre ++ B1 :: B2 :: post }
            := SeglistsWF_surgery st _ hsl rfl hkeep
        have hwf2 : ∀ x ∈ (pre ++ B1 :: B2 :: post), WFblock x := by
          intro x hx
          rcases List.mem_append.mp hx with h1 | h1
          · exact hwf x (by rw [hdec]; exact List.mem_append.mpr (Or.inl h1))
          · rcases List.mem_cons.mp h1 with h2 | h2
            · rw [h2]
              exact hB1wf
            · rcases List.mem_cons.mp h2 with h3 | h3
              · rw [h3]
                exact hB2wf
              · exact hwf x (by rw [hdec]; simp [h3])
        have hx1 : sizesSum (pre ++ B1 :: B2 :: post) =
            sizesSum pre + B1.hsize + sizesSum (B2 :: post) :=
          sizesSum_middle pre B1 (B2 :: post)
        have hx2 : sizesSum (B2 :: post) = B2.hsize + sizesSum post := by
          simp [sizesSum]
        have hx3 : sizesSum st.blocks =
            sizesSum pre + b.hsize + sizesSum post := by
          rw [hdec]
          exact sizesSum_middle pre b post
        have hx4 : B1.hsize = realloc_adjust size := by rw [hB1]
        have hx5 : B2.hsize = b.hsize - realloc_adjust size := by rw [hB2]
        have hnone : blockAt st (p + realloc_adjust size) = none := by
          refine blockAt_none_inside st pre b post hdec hpos _ ?_ ?_
          · have h24 := hraprops.1
            unfold MINIMUM_BLK_SIZE at h24
            omega
          · omega
        have hfreshm : (p + realloc_adjust size) ∉
            ({ st with blocks := pre ++ B1 :: B2 :: post } :
              AllocState).seglists.flatten :=
          notin_flatten_of_none st hsl _ hnone
        have hdecC : ({ st with blocks := pre ++ B1 :: B2 :: post } :
            AllocState).blocks = (pre ++ [B1]) ++ B2 :: post := by
          dsimp only
          rw [List.append_assoc]
          rfl
        have hsPre1 : sizesSum (pre ++ [B1]) = sizesSum pre + B1.hsize := by
          rw [sizesSum_append]
          simp [sizesSum]
        have haddrC : p + realloc_adjust size =
            baseAddr + sizesSum (pre ++ [B1]) := by omega
        have hchpreC : List.Chain'
            (fun a c => a.halloc = true ∨ c.halloc = true) (pre ++ [B1]) := by
          rw [List.chain'_append]
          refine ⟨hchsplit.1, List.chain'_singleton _, ?_⟩
          intro x hx y hy
          simp only [List.head?_cons, Option.mem_def, Option.some.injEq] at hy
          subst hy
          exact Or.inr rfl
        have hcapC : heapEnd (pre ++ B1 :: B2 :: post) ≤ MAX_HEAP := by
          unfold heapEnd at hcap ⊢
          omega
        have hres := coalesce_inv { st with blocks := pre ++ B1 :: B2 :: post }
          (p + realloc_adjust size) (pre ++ [B1]) B2 post hdecC haddrC hwf2
          hsl2 hcapC hchpreC hchsplit.2.1.tail rfl rfl hfreshm
        have hqB : blockAt { st with blocks := pre ++ B1 :: B2 :: post } p =
            some B1 := by
          rw [haddr]
          exact blockAt_of_decomp _ pre B1 (B2 :: post) rfl hprepos
        have hstab := blockAt_coalesce_other
          { st with blocks := pre ++ B1 :: B2 :: post }
          (p + realloc_adjust size) p B1 (pre ++ [B1]) B2 post hdecC haddrC
          (wf_pos _ hwf2) hwf2 rfl hqB rfl
        refine ⟨hres.1, ?_⟩
        intro q hq2
        dsimp only at hq2
        injection hq2 with hq2
        subst hq2
        refine ⟨B1, hstab, rfl, ?_⟩
        rw [hB1]
        show (b.body.take (realloc_adjust size - HEADER_SIZE)).take
          (min (b.hsize - HEADER_SIZE) size) = _
        rw [List.take_take, min_eq_left hmnew]
      · have hre : realloc st g (some p) size = (st, some p) := by
          unfold realloc
          rw [if_neg hs0]
          dsimp only
          rw [hz]
          dsimp only
          rw [if_neg heq]
          try dsimp only
          rw [if_pos hlt2]
          try dsimp only
          rw [if_neg hsp]
        rw [hre]
        refine ⟨⟨hwf, hch, hsl, hcap⟩, ?_⟩
        intro q hq2
        dsimp only at hq2
        injection hq2 with hq2
        subst hq2
        exact ⟨b, hb, hal, rfl⟩
    · have hgt : b.hsize < realloc_adjust size := by omega
      have hmleb : min (b.hsize - HEADER_SIZE) size ≤ b.body.length := by
        have hble2 := hble
        have hmle2 := hmle
        unfold HEADER_SIZE at hble2 hmle2 ⊢
        omega
      cases post with
      | nil =>
        rcases hmm : malloc st g size with ⟨stM, r⟩
        rcases r with _ | np
        · have hre : realloc st g (some p) size = (stM, none) := by
            unfold realloc
            rw [if_neg hs0]
            dsimp only
            rw [hz]
            dsimp only
            rw [if_neg heq, if_neg hlt2]
            try dsimp only
            rw [if_neg (by simp)]
            rw [hmm]
          rw [hre]
          have hstM : stM = st := malloc_none_eq st g size stM hmm
          subst hstM
          refine ⟨⟨hwf, hch, hsl, hcap⟩, ?_⟩
          intro q hq2
          dsimp only at hq2
          exact Option.noConfusion hq2
        · obtain ⟨pre2, nb2, post2, hz2, hinvF, hpayF⟩ :=
            realloc_copy_some st stM g p size np b hinv hb hal hgt hmm
          have hre : realloc st g (some p) size =
              (free { stM with blocks := pre2 ++
                ⟨nb2.hsize, nb2.halloc, nb2.fsize, nb2.falloc,
                  b.body.take (b.hsize - HEADER_SIZE) ++
                  nb2.body.drop (b.hsize - HEADER_SIZE)⟩ :: post2 } p,
                some np) := by
            unfold realloc
            rw [if_neg hs0]
            dsimp only
            rw [hz]
            dsimp only
            rw [if_neg heq, if_neg hlt2]
            try dsimp only
            rw [if_neg (by simp)]
            rw [hmm]
            dsimp only
            rw [hz2]
          rw [hre]
          refine ⟨hinvF, ?_⟩
          intro q hq2
          dsimp only at hq2
          injection hq2 with hq2
          subst hq2
          exact hpayF
      | cons nb tail =>
        have hnbwf : WFblock nb := hwf nb (by rw [hdec]; simp)
        have hnbble : nb.body.length + HEADER_SIZE = nb.hsize :=
          hnbwf.2.2.2.2
        by_cases hnba : nb.halloc = true
        · rcases hmm : malloc st g size with ⟨stM, r⟩
          rcases r with _ | np
          · have hre : realloc st g (some p) size = (stM, none) := by
              unfold realloc
              rw [if_neg hs0]
              dsimp only
              rw [hz]
              dsimp only
              rw [if_neg heq, if_neg hlt2]
              try dsimp only
              simp only [List.head?_cons]
              try dsimp only
              rw [if_neg (by simp [hnba])]
              rw [hmm]
            rw [hre]
            have hstM : stM = st := malloc_none_eq st g size stM hmm
            subst hstM
            refine ⟨⟨hwf, hch, hsl, hcap⟩, ?_⟩
            intro q hq2
            dsimp only at hq2
            exact Option.noConfusion hq2
          · obtain ⟨pre2, nb2, post2, hz2, hinvF, hpayF⟩ :=
              realloc_copy_some st stM g p size np b hinv hb hal hgt hmm
            have hre : realloc st g (some p) size =
                (free { stM with blocks := pre2 ++
                  ⟨nb2.hsize, nb2.halloc, nb2.fsize, nb2.falloc,
                    b.body.take (b.hsize - HEADER_SIZE) ++
                    nb2.body.drop (b.hsize - HEADER_SIZE)⟩ :: post2 } p,
                  some np) := by
              unfold realloc
              rw [if_neg hs0]
              dsimp only
              rw [hz]
              dsimp only
              rw [if_neg heq, if_neg hlt2]
              try dsimp only
              simp only [List.head?_cons]
              try dsimp only
              rw [if_neg (by simp [hnba])]
              rw [hmm]
              dsimp only
              rw [hz2]
            rw [hre]
            refine ⟨hinvF, ?_⟩
            intro q hq2
            dsimp only at hq2
            injection hq2 with hq2
            subst hq2
            exact hpayF
        · have hnbf : nb.halloc = false := by
            cases h : nb.halloc
            · rfl
            · exact absurd h hnba
          by_cases hgtsz : nb.hsize > realloc_adjust size - b.hsize
          · by_cases hsp2 : nb.hsize - (realloc_adjust size - b.hsize) ≥
                MINIMUM_BLK_SIZE
            · have hre : realloc st g (some p) size =
                  ((coalesce
                    { remove_free_block st (p + b.hsize) with
                      blocks := pre ++
                        (⟨realloc_adjust size, true, realloc_adjust size, true,
                          (b.body ++ encW (packW b.fsize b.falloc) ++
                            encW (packW nb.hsize nb.halloc) ++ nb.body).take
                            (realloc_adjust size - HEADER_SIZE)⟩ : Block) ::
                        (⟨nb.hsize - (realloc_adjust size - b.hsize), false,
                          nb.hsize - (realloc_adjust size - b.hsize), false,
                          (b.body ++ encW (packW b.fsize b.falloc) ++
                            encW (packW nb.hsize nb.halloc) ++ nb.body).drop
                            (realloc_adjust size)⟩ : Block) :: tail }
                    (p + realloc_adjust size)).1, some p) := by
                unfold realloc
                rw [if_neg hs0]
                dsimp only
                rw [hz]
                dsimp only
                rw [if_neg heq, if_neg hlt2]
                try dsimp only
                simp only [List.head?_cons]
                try dsimp only
                rw [if_pos ⟨hnbf, hgtsz⟩]
                try dsimp only
                rw [if_pos hsp2]
                simp only [List.tail_cons]
              rw [hre]
              set bodyB : List Nat := b.body ++
                encW (packW b.fsize b.falloc) ++
                encW (packW nb.hsize nb.halloc) ++ nb.body with hbodyB
              set B1 : Block := ⟨realloc_adjust size, true,
                realloc_adjust size, true,
                bodyB.take (realloc_adjust size - HEADER_SIZE)⟩ with hB1
              set B2 : Block := ⟨nb.hsize - (realloc_adjust size - b.hsize),
                false, nb.hsize - (realloc_adjust size - b.hsize), false,
                bodyB.drop (realloc_adjust size)⟩ with hB2
              have hlenB : bodyB.length = b.hsize + nb.hsize - HEADER_SIZE
                  := by
                rw [hbodyB]
                simp only [List.length_append, encW_length]
                unfold HEADER_SIZE at hble hnbble ⊢
                have h24 := hbwf.2.1
                unfold MINIMUM_BLK_SIZE at h24
                omega
              have hB1wf : WFblock B1 := by
                rw [hB1]
                refine ⟨hraprops.2, hraprops.1, rfl, rfl, ?_⟩
                show (bodyB.take (realloc_adjust size - HEADER_SIZE)).length +
                  HEADER_SIZE = realloc_adjust size
                rw [List.length_take]
                have h24 := hraprops.1
                have h24b := hnbwf.2.1
                unfold MINIMUM_BLK_SIZE at h24 h24b
                unfold HEADER_SIZE at hlenB ⊢
                rw [min_eq_left (by omega)]
                omega
              have hB2wf : WFblock B2 := by
                rw [hB2]
                have h1 := hbwf.1
                have h2 := hnbwf.1
                have h8 := hraprops.2
                refine ⟨?_, hsp2, rfl, rfl, ?_⟩
                · show (nb.hsize - (realloc_adjust size - b.hsize)) % 8 = 0
                  omega
                · show (bodyB.drop (realloc_adjust size)).length +
                    HEADER_SIZE = nb.hsize - (realloc_adjust size - b.hsize)
                  rw [List.length_drop]
                  unfold MINIMUM_BLK_SIZE at hsp2
                  unfold HEADER_SIZE at hlenB ⊢
                  omega
              obtain ⟨hsl1, hnbnot, hsub1⟩ :=
                SeglistsWF_remove st (p + b.hsize) hsl hpos
              have hpnot1 : p ∉
                  (remove_free_block st (p + b.hsize)).seglists.flatten :=
                fun h => hpnot (hsub1.subset h)
              have hbmid : (remove_free_block st (p + b.hsize)).blocks =
                  pre ++ ([b, nb] ++ tail) := by
                rw [remove_free_block_blocks, hdec]
                rfl
              have hsA : sizesSum [B1, B2] = B1.hsize + B2.hsize := by
                simp [sizesSum]
              have hsB : sizesSum [b, nb] = b.hsize + nb.hsize := by
                simp [sizesSum]
              have hx4 : B1.hsize = realloc_adjust size := by rw [hB1]
              have hx5 : B2.hsize =
                  nb.hsize - (realloc_adjust size - b.hsize) := by rw [hB2]
              have hsum1 : sizesSum [B1, B2] = sizesSum [b, nb] := by omega
              have hposm1 : ∀ x ∈ [B1, B2], 0 < x.hsize := by
                intro x hx
                have h24 := hraprops.1
                unfold MINIMUM_BLK_SIZE at h24 hsp2
                rcases List.mem_cons.mp hx with h1 | h1
                · rw [h1]
                  omega
                · simp only [List.mem_singleton] at h1
                  rw [h1]
                  omega
              have hkeep : ∀ a c,
                  a ∈ (remove_free_block st (p + b.hsize)).seglists.flatten →
                  blockAt (remove_free_block st (p + b.hsize)) a = some c →
                  blockAt { remove_free_block st (p + b.hsize) with
                    blocks := pre ++ B1 :: B2 :: tail } a = some c := by
                intro a c hmem hc
                refine blockAt_surgery_keep _ _ pre [b, nb] [B1, B2] tail
                  hbmid rfl hsum1 ?_ hposm1 a c hc ?_
                · rw [remove_free_block_blocks]
                  exact hpos
                · intro α β hmid
                  have h0 : sizesSum ([] : List Block) = 0 := by
                    simp [sizesSum]
                  have h1 : sizesSum [b] = b.hsize := by simp [sizesSum]
                  rcases seg2_cases b nb c α β hmid with ⟨hα, _, _⟩ |
                    ⟨hα, _, _⟩
                  · subst hα
                    intro heq2
                    have ha2 : a = p := by omega
                    rw [ha2] at hmem
                    exact hpnot1 hmem
                  · subst hα
                    intro heq2
                    have ha2 : a = p + b.hsize := by omega
                    rw [ha2] at hmem
                    exact hnbnot hmem
              have hsl2 : SeglistsWF { remove_free_block st (p + b.hsize) with
                  blocks := pre ++ B1 :: B2 :: tail } :=
                SeglistsWF_surgery _ _ hsl1 rfl hkeep
              have hwf2 : ∀ x ∈ (pre ++ B1 :: B2 :: tail), WFblock x := by
                intro x hx
                rcases List.mem_append.mp hx with h1 | h1
                · refine hwf x ?_
                  rw [hdec]
                  exact List.mem_append.mpr (Or.inl h1)
                · rcases List.mem_cons.mp h1 with h2 | h2
                  · rw [h2]
                    exact hB1wf
                  · rcases List.mem_cons.mp h2 with h3 | h3
                    · rw [h3]
                      exact hB2wf
                    · exact hwf x (by rw [hdec]; simp [h3])
              have hx1 : sizesSum (pre ++ B1 :: B2 :: tail) =
                  sizesSum pre + B1.hsize + sizesSum (B2 :: tail) :=
                sizesSum_middle pre B1 (B2 :: tail)
              have hx2 : sizesSum (B2 :: tail) =
                  B2.hsize + sizesSum tail := by
                simp [sizesSum]
              have hx3 : sizesSum st.blocks =
                  sizesSum pre + b.hsize + sizesSum (nb :: tail) := by
                rw [hdec]
                exact sizesSum_middle pre b (nb :: tail)
              have hx6 : sizesSum (nb :: tail) =
                  nb.hsize + sizesSum tail := by
                simp [sizesSum]
              have hnone : blockAt (remove_free_block st (p + b.hsize))
                  (p + realloc_adjust size) = none := by
                refine blockAt_none_inside _ (pre ++ [b]) nb tail ?_ ?_ _
                  ?_ ?_
                · rw [remove_free_block_blocks, hdec, List.append_assoc]
                  rfl
                · rw [remove_free_block_blocks]
                  exact hpos
                · rw [sizesSum_append]
                  have h1 : sizesSum [b] = b.hsize := by simp [sizesSum]
                  omega
                · rw [sizesSum_append]
                  have h1 : sizesSum [b] = b.hsize := by simp [sizesSum]
                  omega
              have hfreshm : (p + realloc_adjust size) ∉
                  ({ remove_free_block st (p + b.hsize) with
                    blocks := pre ++ B1 :: B2 :: tail } :
                    AllocState).seglists.flatten :=
                notin_flatten_of_none _ hsl1 _ hnone
              have hdecC : ({ remove_free_block st (p + b.hsize) with
                  blocks := pre ++ B1 :: B2 :: tail } : AllocState).blocks =
                  (pre ++ [B1]) ++ B2 :: tail := by
                dsimp only
                rw [List.append_assoc]
                rfl
              have hsPre1 : sizesSum (pre ++ [B1]) =
                  sizesSum pre + B1.hsize := by
                rw [sizesSum_append]
                simp [sizesSum]
              have haddrC : p + realloc_adjust size =
                  baseAddr + sizesSum (pre ++ [B1]) := by omega
              have hchpreC : List.Chain'
                  (fun a c => a.halloc = true ∨ c.halloc = true)
                  (pre ++ [B1]) := by
                rw [List.chain'_append]
                refine ⟨hchsplit.1, List.chain'_singleton _, ?_⟩
                intro x hx y hy
                simp only [List.head?_cons, Option.mem_def,
                  Option.some.injEq] at hy
                subst hy
                exact Or.inr rfl
              have hcapC : heapEnd (pre ++ B1 :: B2 :: tail) ≤ MAX_HEAP := by
                unfold heapEnd at hcap ⊢
                omega
              have hres := coalesce_inv
                { remove_free_block st (p + b.hsize) with
                  blocks := pre ++ B1 :: B2 :: tail }
                (p + realloc_adjust size) (pre ++ [B1]) B2 tail hdecC haddrC
                hwf2 hsl2 hcapC hchpreC hchsplit.2.1.tail.tail rfl rfl hfreshm
              have hqB : blockAt { remove_free_block st (p + b.hsize) with
                  blocks := pre ++ B1 :: B2 :: tail } p = some B1 := by
                rw [haddr]
                exact blockAt_of_decomp _ pre B1 (B2 :: tail) rfl hprepos
              have hstab := blockAt_coalesce_other
                { remove_free_block st (p + b.hsize) with
                  blocks := pre ++ B1 :: B2 :: tail }
                (p + realloc_adjust size) p B1 (pre ++ [B1]) B2 tail hdecC
                haddrC (wf_pos _ hwf2) hwf2 rfl hqB rfl
              refine ⟨hres.1, ?_⟩
              intro q hq2
              dsimp only at hq2
              injection hq2 with hq2
              subst hq2
              refine ⟨B1, hstab, rfl, ?_⟩
              rw [hB1]
              show (bodyB.take (realloc_adjust size - HEADER_SIZE)).take
                (min (b.hsize - HEADER_SIZE) size) = _
              rw [List.take_take, min_eq_left hmnew, hbodyB]
              rw [List.take_append_of_le_length (by
                rw [List.length_append, List.length_append]
                omega)]
              rw [List.take_append_of_le_length (by
                rw [List.length_append]
                omega)]
              rw [List.take_append_of_le_length (by omega)]
            · have hre : realloc st g (some p) size =
                  ({ remove_free_block st (p + b.hsize) with
                    blocks := pre ++
                      (⟨b.hsize + nb.hsize, true, b.hsize + nb.hsize, true,
                        b.body ++ encW (packW b.fsize b.falloc) ++
                          encW (packW nb.hsize nb.halloc) ++ nb.body⟩ :
                        Block) :: tail }, some p) := by
                unfold realloc
                rw [if_neg hs0]
                dsimp only
                rw [hz]
                dsimp only
                rw [if_neg heq, if_neg hlt2]
                try dsimp only
                simp only [List.head?_cons]
                try dsimp only
                rw [if_pos ⟨hnbf, hgtsz⟩]
                try dsimp only
                rw [if_neg hsp2]
                simp only [List.tail_cons]
              rw [hre]
              set MB : Block := ⟨b.hsize + nb.hsize, true,
                b.hsize + nb.hsize, true,
                b.body ++ encW (packW b.fsize b.falloc) ++
                  encW (packW nb.hsize nb.halloc) ++ nb.body⟩ with hMB
              have hMBwf : WFblock MB := by
                rw [hMB]
                have h1 := hbwf.1
                have h2 := hnbwf.1
                have h24 := hbwf.2.1
                refine ⟨?_, ?_, rfl, rfl, ?_⟩
                · show (b.hsize + nb.hsize) % 8 = 0
                  omega
                · show MINIMUM_BLK_SIZE ≤ b.hsize + nb.hsize
                  unfold MINIMUM_BLK_SIZE at h24 ⊢
                  omega
                · show (b.body ++ encW (packW b.fsize b.falloc) ++
                    encW (packW nb.hsize nb.halloc) ++ nb.body).length +
                    HEADER_SIZE = b.hsize + nb.hsize
                  simp only [List.length_append, encW_length]
                  unfold HEADER_SIZE at hble hnbble ⊢
                  omega
              obtain ⟨hsl1, hnbnot, hsub1⟩ :=
                SeglistsWF_remove st (p + b.hsize) hsl hpos
              have hpnot1 : p ∉
                  (remove_free_block st (p + b.hsize)).seglists.flatten :=
                fun h => hpnot (hsub1.subset h)
              have hbmid : (remove_free_block st (p + b.hsize)).blocks =
                  pre ++ ([b, nb] ++ tail) := by
                rw [remove_free_block_blocks, hdec]
                rfl
              have hsA : sizesSum [MB] = MB.hsize := by simp [sizesSum]
              have hsB : sizesSum [b, nb] = b.hsize + nb.hsize := by
                simp [sizesSum]
              have hx4 : MB.hsize = b.hsize + nb.hsize := by rw [hMB]
              have hsum1 : sizesSum [MB] = sizesSum [b, nb] := by omega
              have hkeep : ∀ a c,
                  a ∈ (remove_free_block st (p + b.hsize)).seglists.flatten →
                  blockAt (remove_free_block st (p + b.hsize)) a = some c →
                  blockAt { remove_free_block st (p + b.hsize) with
                    blocks := pre ++ MB :: tail } a = some c := by
                intro a c hmem hc
                refine blockAt_surgery_keep _ _ pre [b, nb] [MB] tail hbmid
                  rfl hsum1 ?_ ?_ a c hc ?_
                · rw [remove_free_block_blocks]
                  exact hpos
                · intro x hx
                  simp only [List.mem_singleton] at hx
                  rw [hx]
                  have h24 := hbwf.2.1
                  unfold MINIMUM_BLK_SIZE at h24
                  show 0 < MB.hsize
                  omega
                · intro α β hmid
                  have h0 : sizesSum ([] : List Block) = 0 := by
                    simp [sizesSum]
                  have h1 : sizesSum [b] = b.hsize := by simp [sizesSum]
                  rcases seg2_cases b nb c α β hmid with ⟨hα, _, _⟩ |
                    ⟨hα, _, _⟩
                  · subst hα
                    intro heq2
                    have ha2 : a = p := by omega
                    rw [ha2] at hmem
                    exact hpnot1 hmem
                  · subst hα
                    intro heq2
                    have ha2 : a = p + b.hsize := by omega
                    rw [ha2] at hmem
                    exact hnbnot hmem
              have hsl2 : SeglistsWF { remove_free_block st (p + b.hsize) with
                  blocks := pre ++ MB :: tail } :=
                SeglistsWF_surgery _ _ hsl1 rfl hkeep
              have hwf2 : ∀ x ∈ (pre ++ MB :: tail), WFblock x := by
                intro x hx
                rcases List.mem_append.mp hx with h1 | h1
                · refine hwf x ?_
                  rw [hdec]
                  exact List.mem_append.mpr (Or.inl h1)
                · rcases List.mem_cons.mp h1 with h2 | h2
                  · rw [h2]
                    exact hMBwf
                  · exact hwf x (by rw [hdec]; simp [h2])
              have hch2 : List.Chain'
                  (fun a c => a.halloc = true ∨ c.halloc = true)
                  (pre ++ MB :: tail) := by
                refine chain_mid1 _ pre MB tail hchsplit.1
                  hchsplit.2.1.tail.tail ?_ ?_
                · intro x hx
                  refine Or.inr ?_
                  show MB.halloc = true
                  rw [hMB]
                · intro y hy
                  refine Or.inl ?_
                  show MB.halloc = true
                  rw [hMB]
              have hx3 : sizesSum st.blocks =
                  sizesSum pre + b.hsize + sizesSum (nb :: tail) := by
                rw [hdec]
                exact sizesSum_middle pre b (nb :: tail)
              have hx6 : sizesSum (nb :: tail) =
                  nb.hsize + sizesSum tail := by
                simp [sizesSum]
              have hsum2 : sizesSum (pre ++ MB :: tail) =
                  sizesSum st.blocks := by
                rw [sizesSum_middle]
                omega
              have hcap2 : heapEnd (pre ++ MB :: tail) ≤ MAX_HEAP := by
                unfold heapEnd at hcap ⊢
                omega
              have hqB : blockAt { remove_free_block st (p + b.hsize) with
                  blocks := pre ++ MB :: tail } p = some MB := by
                rw [haddr]
                exact blockAt_of_decomp _ pre MB tail rfl hprepos
              refine ⟨⟨hwf2, hch2, hsl2, hcap2⟩, ?_⟩
              intro q hq2
              dsimp only at hq2
              injection hq2 with hq2
              subst hq2
              refine ⟨MB, hqB, by rw [hMB], ?_⟩
              rw [hMB]
              show (b.body ++ encW (packW b.fsize b.falloc) ++
                encW (packW nb.hsize nb.halloc) ++ nb.body).take
                  (min (b.hsize - HEADER_SIZE) size) = _
              rw [List.take_append_of_le_length (by
                rw [List.length_append, List.length_append]
                omega)]
              rw [List.take_append_of_le_length (by
                rw [List.length_append]
                omega)]
              rw [List.take_append_of_le_length (by omega)]
          · rcases hmm : malloc st g size with ⟨stM, r⟩
            rcases r with _ | np
            · have hre : realloc st g (some p) size = (stM, none) := by
                unfold realloc
                rw [if_neg hs0]
                dsimp only
                rw [hz]
                dsimp only
                rw [if_neg heq, if_neg hlt2]
                try dsimp only
                simp only [List.head?_cons]
                try dsimp only
                rw [if_neg (by rintro ⟨_, hcg⟩; exact hgtsz hcg)]
                rw [hmm]
              rw [hre]
              have hstM : stM = st := malloc_none_eq st g size stM hmm
              subst hstM
              refine ⟨⟨hwf, hch, hsl, hcap⟩, ?_⟩
              intro q hq2
              dsimp only at hq2
              exact Option.noConfusion hq2
            · obtain ⟨pre2, nb2, post2, hz2, hinvF, hpayF⟩ :=
                realloc_copy_some st stM g p size np b hinv hb hal hgt hmm
              have hre : realloc st g (some p) size =
                  (free { stM with blocks := pre2 ++
                    ⟨nb2.hsize, nb2.halloc, nb2.fsize, nb2.falloc,
                      b.body.take (b.hsize - HEADER_SIZE) ++
                      nb2.body.drop (b.hsize - HEADER_SIZE)⟩ :: post2 } p,
                    some np) := by
                unfold realloc
                rw [if_neg hs0]
                dsimp only
                rw [hz]
                dsimp only
                rw [if_neg heq, if_neg hlt2]
                try dsimp only
                simp only [List.head?_cons]
                try dsimp only
                rw [if_neg (by rintro ⟨_, hcg⟩; exact hgtsz hcg)]
                rw [hmm]
                dsimp only
                rw [hz2]
              rw [hre]
              refine ⟨hinvF, ?_⟩
              intro q hq2
              dsimp only at hq2
              injection hq2 with hq2
              subst hq2
              exact hpayF

end Malloc

namespace Malloc

/-- Claim C7: for every allocated block `p` of old block size `o` and
every positive request `size`, a successful `realloc(p, size)` returns
an address whose (allocated) block carries the first
`min(o - 8, size)` old payload bytes unchanged — the in-place shrink
and grow paths keep the retained prefix untouched, and the copy
fallback copies the whole old payload capacity before freeing `p`
(mm.c lines 376-489). -/
theorem realloc_preserves_payload (st : AllocState) (g : Bool)
    (p size : Nat) (b : Block) (st1 : AllocState) (q : Nat)
    (hinv : Inv st) (hb : blockAt st p = some b) (hal : b.halloc = true)
    (hs0 : ¬ size = 0)
    (hre : realloc st g (some p) size = (st1, some q)) :
    ∃ b1, blockAt st1 q = some b1 ∧ b1.halloc = true ∧
      b1.body.take (min (b.hsize - HEADER_SIZE) size) =
        b.body.take (min (b.hsize - HEADER_SIZE) size) := by
  have hspec := (realloc_ptr_spec st g p size b hinv hb hal hs0).2 q
    (by rw [hre])
  rw [hre] at hspec
  exact hspec

set_option maxRecDepth 10000 in
/-- Witness for C7: growing the 40-byte allocated block at 120 of
`heapC1` to request 100 succeeds in place; the first
`min(32, 100) = 32` payload bytes at the returned address are the old
ones. -/
theorem realloc_preserves_payload_witness :
    ∃ b1, blockAt (realloc heapC1 true (some 120) 100).1 120 = some b1 ∧
      b1.halloc = true ∧
      b1.body.take (min (blockC1.hsize - HEADER_SIZE) 100) =
        blockC1.body.take (min (blockC1.hsize - HEADER_SIZE) 100) :=
  realloc_preserves_payload heapC1 true 120 100 blockC1
    (realloc heapC1 true (some 120) 100).1 120 (by decide) (by decide) rfl
    (by decide) rfl

end Malloc

namespace Malloc

/-- Any `malloc` call keeps the invariant (hit, extend, or failure). -/
theorem malloc_state_inv (st : AllocState) (g : Bool) (n : Nat)
    (hinv : Inv st) : Inv (malloc st g n).1 := by
  rcases hm : malloc st g n with ⟨st1, r⟩
  rcases r with _ | np
  · have he := malloc_none_eq st g n st1 hm
    rw [he]
    exact hinv
  · exact (malloc_inv st g n hinv st1 np hm).1

/-- The empty initial state satisfies the invariant. -/
theorem initState_inv : Inv initState := by decide

/-- The states reachable by valid use of the allocator: a successful
`mm_init`, then any sequence of `malloc`, `free` at allocated
pointers, and `realloc` at null or allocated pointers (`g` is the
`mem_sbrk` success oracle). -/
inductive Reach (g : Bool) : AllocState → Prop where
  | init (st : AllocState) : mm_init g = some st → Reach g st
  | step_malloc (st : AllocState) (n : Nat) : Reach g st →
      Reach g (malloc st g n).1
  | step_free (st : AllocState) (p : Nat) (b : Block) : Reach g st →
      blockAt st p = some b → b.halloc = true → Reach g (free st p)
  | step_realloc_null (st : AllocState) (n : Nat) : Reach g st →
      Reach g (realloc st g none n).1
  | step_realloc (st : AllocState) (p : Nat) (b : Block) (n : Nat) :
      Reach g st → blockAt st p = some b → b.halloc = true →
      Reach g (realloc st g (some p) n).1

/-- Every reachable state satisfies the allocator invariant. -/
theorem reach_inv (g : Bool) (st : AllocState) (h : Reach g st) : Inv st := by
  induction h with
  | init st hm =>
    unfold mm_init at hm
    rcases hext : extend_heap initState g (CHUNKSIZE / WSIZE) with _ | ⟨st0, bp⟩
    · rw [hext] at hm
      cases hm
    · rw [hext] at hm
      simp only [Option.map_some', Option.some.injEq] at hm
      obtain ⟨S, _, _, _, hinv0, _, _, _⟩ :=
        extend_heap_inv initState g _ initState_inv st0 bp hext
      rw [← hm]
      exact hinv0
  | step_malloc st n _ ih => exact malloc_state_inv st g n ih
  | step_free st p b _ hb hal ih => exact (free_inv st p b ih hb hal).1
  | step_realloc_null st n _ ih =>
    unfold realloc
    by_cases hn : n = 0
    · rw [if_pos hn]
      exact ih
    · rw [if_neg hn]
      exact malloc_state_inv st g n ih
  | step_realloc st p b n _ hb hal ih =>
    by_cases hn : n = 0
    · unfold realloc
      rw [if_pos hn]
      dsimp only
      exact (free_inv st p b ih hb hal).1
    · exact (realloc_ptr_spec st g p n b ih hb hal hn).1

/-- The forward heap walk of `mm_checkheap` (mm.c lines 613-641) over
the real blocks: from `addr`, read the block header, check doubleword
alignment of the payload pointer, header/footer word equality, and the
minimum block size, then step by the header size; the walk succeeds
when it lands exactly on the epilogue. -/
def walkOK (st : AllocState) : Nat → Nat → Bool
  | 0, _ => false
  | fuel + 1, addr =>
      if addr = heapEnd st.blocks then true
      else
        match blockAt st addr with
        | none => false
        | some b =>
            decide (addr % 8 = 0) &&
            (packW b.hsize b.halloc == packW b.fsize b.falloc) &&
            decide (MINIMUM_BLK_SIZE ≤ b.hsize) &&
            walkOK st fuel (addr + b.hsize)

/-- The walk succeeds along any well-formed suffix of the block list. -/
theorem walkOK_of_blocks : ∀ (bs : List Block) (st : AllocState)
    (pre : List Block), st.blocks = pre ++ bs →
    (∀ x ∈ st.blocks, WFblock x) →
    (baseAddr + sizesSum pre) % 8 = 0 →
    walkOK st (bs.length + 1) (baseAddr + sizesSum pre) = true := by
  intro bs
  induction bs with
  | nil =>
    intro st pre hdec _ _
    unfold walkOK
    rw [if_pos ?_]
    unfold heapEnd
    rw [hdec, List.append_nil]
  | cons b bs ih =>
    intro st pre hdec hwf halign
    have hpos := wf_pos st.blocks hwf
    have hbwf : WFblock b := hwf b (by rw [hdec]; simp)
    have hbpos : 0 < b.hsize := hpos b (by rw [hdec]; simp)
    have hprepos : ∀ x ∈ pre, 0 < x.hsize := fun x hx =>
      hpos x (by rw [hdec]; exact List.mem_append.mpr (Or.inl hx))
    have hat : blockAt st (baseAddr + sizesSum pre) = some b :=
      blockAt_of_decomp st pre b bs hdec hprepos
    have hend : heapEnd st.blocks =
        baseAddr + sizesSum pre + b.hsize + sizesSum bs := by
      unfold heapEnd
      rw [hdec, sizesSum_middle]
      omega
    have hbspos : (0 : Nat) ≤ sizesSum bs := Nat.zero_le _
    show walkOK st (bs.length + 1 + 1) (baseAddr + sizesSum pre) = true
    unfold walkOK
    rw [if_neg (by omega)]
    rw [hat]
    dsimp only
    have h1 : decide ((baseAddr + sizesSum pre) % 8 = 0) = true := by
      rw [decide_eq_true_iff]
      exact halign
    have h2 : (packW b.hsize b.halloc == packW b.fsize b.falloc) = true := by
      rw [hbwf.2.2.1, hbwf.2.2.2.1]
      exact beq_self_eq_true _
    have h3 : decide (MINIMUM_BLK_SIZE ≤ b.hsize) = true := by
      rw [decide_eq_true_iff]
      exact hbwf.2.1
    rw [h1, h2, h3]
    simp only [Bool.true_and]
    have harith : baseAddr + sizesSum pre + b.hsize =
        baseAddr + sizesSum (pre ++ [b]) := by
      rw [sizesSum_append]
      have : sizesSum [b] = b.hsize := by simp [sizesSum]
      omega
    rw [harith]
    refine ih st (pre ++ [b]) (by rw [hdec, List.append_assoc]; rfl) hwf ?_
    rw [← harith]
    have h8 := hbwf.1
    omega

/-- Claim C5: after a successful `mm_init` and any sequence of
`malloc` / `free` / `realloc` calls, the forward heap walk of
`mm_checkheap` from the first real block reaches the epilogue, every
block on the walk is doubleword-aligned with header equal to footer
and size at least the 24-byte minimum, and no two physically adjacent
blocks are both free (mm.c `coalesce` lines 1086-1131, `place` lines
1140-1159, checker lines 613-641). -/
theorem heap_walk_invariant (g : Bool) (st : AllocState) (h : Reach g st) :
    walkOK st (st.blocks.length + 1) baseAddr = true ∧
    NoAdjacentFree st.blocks := by
  have hinv := reach_inv g st h
  constructor
  · have := walkOK_of_blocks st.blocks st [] rfl hinv.1 (by decide)
    have hs0 : sizesSum ([] : List Block) = 0 := by simp [sizesSum]
    rw [hs0] at this
    exact this
  · exact hinv.2.1

set_option maxRecDepth 10000 in
/-- Witness for C5: the heap reached by `mm_init` followed by
`malloc 32` passes the full forward walk and has no adjacent free
blocks. -/
theorem heap_walk_invariant_witness :
    walkOK heapC1 (heapC1.blocks.length + 1) baseAddr = true ∧
    NoAdjacentFree heapC1.blocks :=
  heap_walk_invariant true heapC1
    (Reach.step_malloc heapInit 32 (Reach.init heapInit rfl))

end Malloc
